import Mathlib

/-
Verification of the NeuroCross daily-crossword generation core
(src/0830/neuro_cross_daily_neurology_crossword_prototype.jsx).

The definitions below are a shallow embedding of the program's generation
pipeline: the Mulberry32 seeded RNG, the Fisher-Yates shuffle, the daily
word selector, the grid placer (canPlace / placeWord and the nested
candidate search), the interlock pruner, the scorer, the clue numbering
and the trial orchestrator, plus the isSolved checker.

Modelling conventions:
- JavaScript 32-bit wrap-around arithmetic is modelled on Nat with explicit
  `% pow32`; bit patterns of JS signed/unsigned views coincide modulo 2^32,
  which is what all the bitwise operators observe.
- The RNG's float output `u / 2^32` is exact in double precision (u < 2^32),
  and `Math.floor(rng() * k)` for the list sizes occurring here is exactly
  `u * k / 2^32` in integer arithmetic, which is how draws are modelled.
- A grid is a list of rows; a cell holds `Option Char` (`none` = empty).
  All reads are through the total `getCell` (out of bounds reads yield
  `none`, as in JS); all writes in the program are bounds-guarded, and the
  embedded `setCell` ignores out-of-bounds writes.
- The implicit mutable RNG of the source becomes an explicitly threaded
  state `Nat`; the source's early-`break` loops become first-hit searches.
-/

namespace NeuroCross

/-- 2^32, the modulus of JavaScript 32-bit wrap-around arithmetic. -/
def pow32 : Nat := 4294967296

/-- One call of the source's `mulberry32` closure: from the current 32-bit
state, produce the next state and the 32-bit output numerator (the JS
float returned is this numerator divided by 2^32). The constant increment
is written on the left of the `+` (Nat addition is commutative; keeping
the large literal out of the right operand stops the elaborator from
unfolding the addition unarily when deriving equation lemmas). -/
def mbNext (t : Nat) : Nat × Nat :=
  let t1 := (0x6D2B79F5 + t) % pow32
  let r1 := ((t1 ^^^ (t1 >>> 15)) * (1 ||| t1)) % pow32
  let r2 := r1 ^^^ ((r1 + ((r1 ^^^ (r1 >>> 7)) * (61 ||| r1)) % pow32) % pow32)
  (t1, r2 ^^^ (r2 >>> 14))

/-- State of the source RNG after `n` calls; `mulberry32` initialises the
state with `seed >>> 0`, i.e. `seed % 2^32`. -/
def mbState (seed : Nat) : Nat → Nat
  | 0 => seed % pow32
  | n + 1 => (mbNext (mbState seed n)).1

/-- Numerator of the `n`-th output (0-indexed) of the source RNG. -/
def mbOutNum (seed n : Nat) : Nat := (mbNext (mbState seed n)).2

/-- The `n`-th float output of the source RNG, as an exact rational. -/
def mbVal (seed n : Nat) : ℚ := (mbOutNum seed n : ℚ) / (pow32 : ℚ)

/-- One step of the Mulberry32 reference as worded by the specification:
state `t` is incremented by 0x6D2B79F5 mod 2^32, then
`r = (t XOR (t >> 15)) * (t OR 1)` wrapping, then
`r = r XOR (r + ((r XOR (r >> 7)) * (r OR 61)))` wrapping, and the call
returns `(r XOR (r >> 14))` divided by 2^32. -/
def mbSpecNext (t : Nat) : Nat × Nat :=
  let t1 := (0x6D2B79F5 + t) % pow32
  let r1 := ((t1 ^^^ (t1 >>> 15)) * (t1 ||| 1)) % pow32
  let r2 := r1 ^^^ ((r1 + ((r1 ^^^ (r1 >>> 7)) * (r1 ||| 61)) % pow32) % pow32)
  (t1, r2 ^^^ (r2 >>> 14))

/-- Reference state per the specification: starts at the seed itself. -/
def mbSpecState (seed : Nat) : Nat → Nat
  | 0 => seed
  | n + 1 => (mbSpecNext (mbSpecState seed n)).1

/-- Numerator of the `n`-th output of the specification's reference RNG. -/
def mbSpecOutNum (seed n : Nat) : Nat := (mbSpecNext (mbSpecState seed n)).2

/-- The `n`-th float output of the specification's reference, exactly. -/
def mbSpecVal (seed n : Nat) : ℚ := (mbSpecOutNum seed n : ℚ) / (pow32 : ℚ)

/-- A draw `Math.floor(rng() * k)`: next state plus the drawn index.
Exact because `u < 2^32` and `u * k` stays below 2^53 for the list sizes
used by the program. -/
def randBelow (st k : Nat) : Nat × Nat :=
  let p := mbNext st
  (p.1, p.2 * k / pow32)

/-- Swap two positions of a list (both indices are in range at every call
site, mirroring the JS destructuring swap). -/
def listSwap {α : Type} (l : List α) (i j : Nat) : List α :=
  match l.get? i, l.get? j with
  | some a, some b => (l.set i b).set j a
  | _, _ => l

/-- The loop of `shuffleInPlace`: `i` runs from `k` down to 1; at each step
draw `j = floor(rng() * (i + 1))` and swap positions `i` and `j`. -/
def shuffleAux {α : Type} : Nat → List α → Nat → List α × Nat
  | st, l, 0 => (l, st)
  | st, l, k + 1 =>
    let p := randBelow st (k + 2)
    shuffleAux p.1 (listSwap l (k + 1) p.2) k

/-- `shuffleInPlace(arr, rng)` of the source: Fisher-Yates from the last
index down to 1, threading the RNG state. -/
def shuffleList {α : Type} (l : List α) (st : Nat) : List α × Nat :=
  shuffleAux st l (l.length - 1)

/-- A word-bank entry: answer (as a character list) and clue text. -/
structure WordEntry where
  answer : List Char
  clue : String
deriving DecidableEq

/-- Sort key of `pickDailyWords`: `Math.abs(answer.length - 7)`. -/
def dist7 (w : WordEntry) : Nat := Int.natAbs ((w.answer.length : Int) - 7)

/-- Stable insertion used to model the JS stable sort by `dist7`:
an element is inserted before the first strictly/equally larger key only
when its key is `≤`, so earlier elements stay ahead of equal keys. -/
def orderedInsertKey (x : WordEntry) : List WordEntry → List WordEntry
  | [] => [x]
  | y :: ys => if dist7 x ≤ dist7 y then x :: y :: ys else y :: orderedInsertKey x ys

/-- Stable sort of the pool by `|length - 7|` ascending (ties keep the
original order), modelling `pool.sort((a, b) => |a| - |b|)`. -/
def sortPool : List WordEntry → List WordEntry
  | [] => []
  | x :: xs => orderedInsertKey x (sortPool xs)

/-- The selection loop of `pickDailyWords`: keep entries with length in
[3, 13] whose answer has not been seen, first occurrence wins. -/
def chooseFilterAux (seen : List (List Char)) : List WordEntry → List WordEntry
  | [] => []
  | item :: rest =>
    if item.answer.length < 3 ∨ 13 < item.answer.length then chooseFilterAux seen rest
    else if item.answer ∈ seen then chooseFilterAux seen rest
    else item :: chooseFilterAux (item.answer :: seen) rest

/-- `pickDailyWords` generalised over the bank it draws from (the source
function closes over its fixed bank): stable-sort by `|length - 7|`,
Fisher-Yates shuffle with the RNG, then filter and deduplicate. -/
def pickDailyWordsFrom (bank : List WordEntry) (st : Nat) : List WordEntry :=
  let pool := sortPool bank
  let sh := shuffleList pool st
  chooseFilterAux [] sh.1

/-- Plain length filter, as worded by the specification's step 3. -/
def specLengthFilter (l : List WordEntry) : List WordEntry :=
  l.filter (fun w => 3 ≤ w.answer.length ∧ w.answer.length ≤ 13)

/-- Duplicate-answer removal keeping the first occurrence, as worded by
the specification's step 3. -/
def specDedup (seen : List (List Char)) : List WordEntry → List WordEntry
  | [] => []
  | item :: rest =>
    if item.answer ∈ seen then specDedup seen rest
    else item :: specDedup (item.answer :: seen) rest

/-- The Word Selector as worded by the specification: stable sort, then
Fisher-Yates shuffle, then length filter, then first-occurrence dedup. -/
def wordSelectorSpec (bank : List WordEntry) (st : Nat) : List WordEntry :=
  specDedup [] (specLengthFilter (shuffleList (sortPool bank) st).1)

/-- Placement direction. -/
inductive Dir where
  | across
  | down
deriving DecidableEq

/-- A placed word: answer, clue, start cell, direction and (once the
numbering has run) its clue number. -/
structure Placement where
  answer : List Char
  clue : String
  row : Int
  col : Int
  dir : Dir
  number : Option Nat
deriving DecidableEq

/-- Row of the `i`-th covered cell of a placement. -/
def cellR (p : Placement) (i : Nat) : Int :=
  match p.dir with
  | .across => p.row
  | .down => p.row + i

/-- Column of the `i`-th covered cell of a placement. -/
def cellC (p : Placement) (i : Nat) : Int :=
  match p.dir with
  | .across => p.col + i
  | .down => p.col

/-- All cells covered by a placement, in answer order. -/
def cellsOf (p : Placement) : List (Int × Int) :=
  (List.range p.answer.length).map (fun i => (cellR p i, cellC p i))

/-- A crossword grid: rows of optional letters. -/
abbrev Grid : Type := List (List (Option Char))

/-- Total cell read of a row-of-rows matrix; out of bounds yields `none`
(JS reads of missing indices are undefined, which every call site treats
as an empty cell). -/
def getEntry {α : Type} (g : List (List (Option α))) (r c : Int) : Option α :=
  if 0 ≤ r ∧ 0 ≤ c then
    match g.get? r.toNat with
    | some row => (row.get? c.toNat).getD none
    | none => none
  else none

/-- Cell write; all writes performed by the program are in bounds, and the
embedding ignores out-of-bounds writes. -/
def setEntry {α : Type} (g : List (List (Option α))) (r c : Int) (v : α) :
    List (List (Option α)) :=
  if 0 ≤ r ∧ 0 ≤ c then
    match g.get? r.toNat with
    | some row => g.set r.toNat (row.set c.toNat (some v))
    | none => g
  else g

/-- Cell read on a letter grid. -/
def getCell (g : Grid) (r c : Int) : Option Char := getEntry g r c

/-- Cell write on a letter grid. -/
def setCell (g : Grid) (r c : Int) (ch : Char) : Grid := setEntry g r c ch

/-- `makeEmptyGrid(size)`: a `size`-by-`size` grid of empty cells. -/
def emptyGrid (size : Nat) : Grid :=
  List.replicate size (List.replicate size (none : Option Char))

/-- `placeWord`: copy the word's letters into the grid cell by cell along
the direction, starting at `(row, col)`. -/
def placeWord : List Char → Int → Int → Dir → Grid → Grid
  | [], _, _, _, g => g
  | ch :: rest, row, col, dir, g =>
    match dir with
    | .across => placeWord rest row (col + 1) .across (setCell g row col ch)
    | .down => placeWord rest (row + 1) col .down (setCell g row col ch)

/-- Per-cell loop of `canPlace` in the ACROSS branch: each covered cell
must hold the word's letter, or be empty with empty cells directly above
and below. -/
def checkCellsAcross (grid : Grid) (size : Int) (row : Int) :
    List Char → Int → Bool
  | [], _ => true
  | ch :: rest, c =>
    (match getCell grid row c with
     | some x => decide (x = ch)
     | none =>
       !(decide (0 ≤ row - 1) && (getCell grid (row - 1) c).isSome) &&
       !(decide (row + 1 < size) && (getCell grid (row + 1) c).isSome)) &&
    checkCellsAcross grid size row rest (c + 1)

/-- Per-cell loop of `canPlace` in the DOWN branch. -/
def checkCellsDown (grid : Grid) (size : Int) (col : Int) :
    List Char → Int → Bool
  | [], _ => true
  | ch :: rest, r =>
    (match getCell grid r col with
     | some x => decide (x = ch)
     | none =>
       !(decide (0 ≤ col - 1) && (getCell grid r (col - 1)).isSome) &&
       !(decide (col + 1 < size) && (getCell grid r (col + 1)).isSome)) &&
    checkCellsDown grid size col rest (r + 1)

/-- `canPlace(word, row, col, dir, grid)` of the source: bounds check,
no letter immediately before or after along the axis, and the per-cell
crossing/adjacency conditions. -/
def canPlace (word : List Char) (row col : Int) (dir : Dir) (grid : Grid) : Bool :=
  let size : Int := (grid.length : Int)
  let len : Int := (word.length : Int)
  match dir with
  | .across =>
    if col < 0 ∨ col + len > size ∨ row < 0 ∨ row ≥ size then false
    else if 0 ≤ col - 1 ∧ (getCell grid row (col - 1)).isSome then false
    else if col + len < size ∧ (getCell grid row (col + len)).isSome then false
    else checkCellsAcross grid size row word col
  | .down =>
    if row < 0 ∨ row + len > size ∨ col < 0 ∨ col ≥ size then false
    else if 0 ≤ row - 1 ∧ (getCell grid (row - 1) col).isSome then false
    else if row + len < size ∧ (getCell grid (row + len) col).isSome then false
    else checkCellsDown grid size col word row

/-- `findLetterPositions(letter)`: all grid cells currently holding the
letter, scanned row-major over the full `size`-by-`size` grid. -/
def findLetterPositions (size : Nat) (letter : Char) (grid : Grid) : List (Int × Int) :=
  (List.range size).flatMap (fun r =>
    (List.range size).filterMap (fun c =>
      if getCell grid (r : Int) (c : Int) = some letter then
        some ((r : Int), (c : Int))
      else none))

/-- First-occurrence deduplication of the word's letters, the insertion
order of `Array.from(new Set(word))`. -/
def firstOccDedupAux (seen : List Char) : List Char → List Char
  | [] => []
  | c :: cs =>
    if c ∈ seen then firstOccDedupAux seen cs
    else c :: firstOccDedupAux (c :: seen) cs

/-- Indices at which `letter` occurs inside the word. -/
def letterIndices (word : List Char) (letter : Char) : List Nat :=
  (List.range word.length).filter (fun i => word.get? i = some letter)

/-- Inner loop over the letter's grid occurrences for one fixed word index
`i`: try ACROSS starting at column `c - i`, then DOWN starting at row
`r - i`; first success wins. -/
def searchPositions (word : List Char) (grid : Grid) (i : Nat) :
    List (Int × Int) → Option (Int × Int × Dir)
  | [] => none
  | (r, c) :: rest =>
    if canPlace word r (c - (i : Int)) .across grid then some (r, c - (i : Int), .across)
    else if canPlace word (r - (i : Int)) c .down grid then some (r - (i : Int), c, .down)
    else searchPositions word grid i rest

/-- Middle loop over the (shuffled) indices of the letter inside the word;
for each index all grid occurrences are scanned. This is the source's
nesting: the index loop is outside the occurrence loop. -/
def searchIdxs (word : List Char) (grid : Grid) :
    List Nat → List (Int × Int) → Option (Int × Int × Dir)
  | [], _ => none
  | i :: is, positions =>
    match searchPositions word grid i positions with
    | some cand => some cand
    | none => searchIdxs word grid is positions

/-- Outer loop over the word's (shuffled, deduplicated) letters.
A letter with no grid occurrence is skipped before any RNG draw; otherwise
the indices are shuffled and the candidate search runs. On success the
search stops and no further RNG draws happen. -/
def tryLetters (word : List Char) (grid : Grid) (size : Nat) :
    List Char → Nat → Option (Int × Int × Dir) × Nat
  | [], st => (none, st)
  | letter :: rest, st =>
    let positions := findLetterPositions size letter grid
    if positions.isEmpty then tryLetters word grid size rest st
    else
      let sh := shuffleList (letterIndices word letter) st
      match searchIdxs word grid sh.1 positions with
      | some cand => (some cand, sh.2)
      | none => tryLetters word grid size rest sh.2

/-- The main placement loop over the remaining words: per word, shuffle
the deduplicated letters, run the nested candidate search, and on success
write the word and record the placement; otherwise the word is dropped. -/
def placeLoop (size : Nat) :
    List WordEntry → Grid → List Placement → Nat → Grid × List Placement × Nat
  | [], g, ps, st => (g, ps, st)
  | w :: ws, g, ps, st =>
    let lettersSh := shuffleList (firstOccDedupAux [] w.answer) st
    let res := tryLetters w.answer g size lettersSh.1 lettersSh.2
    match res.1 with
    | some (r, c, d) =>
      placeLoop size ws (placeWord w.answer r c d g)
        (ps ++ [{ answer := w.answer, clue := w.clue, row := r, col := c,
                  dir := d, number := none }]) res.2
    | none => placeLoop size ws g ps res.2

/-- Multiplicity with which the placements cover one cell (the `counts`
matrix of the source, read at one cell). -/
def countAt (ps : List Placement) (cell : Int × Int) : Nat :=
  (ps.map (fun p => (cellsOf p).count cell)).sum

/-- The pruner's filter test: the placement has at least one covered cell
shared with another placement (coverage count above 1). -/
def hasCross (ps : List Placement) (p : Placement) : Bool :=
  (cellsOf p).any (fun cell => decide (1 < countAt ps cell))

/-- Row-major list of all cell coordinates of an `h`-by-`w` matrix. -/
def rowMajorCellsHW (h w : Nat) : List (Nat × Nat) :=
  (List.range h).flatMap (fun r => (List.range w).map (fun c => (r, c)))

/-- Row-major list of all cell coordinates of a square matrix. -/
def rowMajorCells (size : Nat) : List (Nat × Nat) := rowMajorCellsHW size size

/-- `scorePlacements`: the number of grid cells covered by more than one
placement. -/
def scorePlacements (grid : Grid) (ps : List Placement) : Nat :=
  (rowMajorCellsHW grid.length (grid.headD []).length).countP
    (fun rc => 1 < countAt ps ((rc.1 : Int), (rc.2 : Int)))

/-- `pruneIsolatedWords`: with two or more placements, drop every
placement none of whose cells is shared, and if anything was dropped
rebuild the grid from the survivors. -/
def pruneIsolatedWords (grid : Grid) (ps : List Placement) : Grid × List Placement :=
  if ps.length ≤ 1 then (grid, ps)
  else
    let keep := ps.filter (hasCross ps)
    if keep.length = ps.length then (grid, ps)
    else
      let h := grid.length
      let w := (grid.headD []).length
      let cleared : Grid := List.replicate h (List.replicate w (none : Option Char))
      (keep.foldl (fun g p => placeWord p.answer p.row p.col p.dir g) cleared, keep)

/-- `isLetter(r, c)` of the numbering pass: in bounds and non-empty. -/
def isLetterCellB (grid : Grid) (size : Nat) (r c : Int) : Bool :=
  decide (0 ≤ r ∧ r < (size : Int) ∧ 0 ≤ c ∧ c < (size : Int)) &&
  (getCell grid r c).isSome

/-- The cell starts an across word: a letter whose left neighbour is empty
or off grid and whose right neighbour holds a letter. -/
def startsAcross (grid : Grid) (size : Nat) (r c : Int) : Bool :=
  !(isLetterCellB grid size r (c - 1)) && isLetterCellB grid size r c &&
  isLetterCellB grid size r (c + 1)

/-- The cell starts a down word (symmetric to `startsAcross`). -/
def startsDown (grid : Grid) (size : Nat) (r c : Int) : Bool :=
  !(isLetterCellB grid size (r - 1) c) && isLetterCellB grid size r c &&
  isLetterCellB grid size (r + 1) c

/-- The numbering pass assigns this cell a number: it is a letter cell and
starts an across or a down word. -/
def isStart (grid : Grid) (size : Nat) (r c : Int) : Bool :=
  isLetterCellB grid size r c && (startsAcross grid size r c || startsDown grid size r c)

/-- An empty numbering matrix. -/
def emptyNums (size : Nat) : List (List (Option Nat)) :=
  List.replicate size (List.replicate size (none : Option Nat))

/-- One step of the numbering scan: a start cell receives the running
number, which then increments. -/
def numStep (grid : Grid) (size : Nat) (acc : List (List (Option Nat)) × Nat)
    (rc : Nat × Nat) : List (List (Option Nat)) × Nat :=
  if isStart grid size (rc.1 : Int) (rc.2 : Int) then
    (setEntry acc.1 (rc.1 : Int) (rc.2 : Int) acc.2, acc.2 + 1)
  else acc

/-- The numbering fold: scan row-major; every start cell receives the next
sequential number, starting from 1. -/
def numbersMatrix (grid : Grid) (size : Nat) : List (List (Option Nat)) :=
  ((rowMajorCells size).foldl (numStep grid size) (emptyNums size, 1)).1

/-- Bounding box of the non-empty cells. -/
structure Bounds where
  minR : Int
  maxR : Int
  minC : Int
  maxC : Int
deriving DecidableEq

/-- The bounding-box scan with the source's fallback when the grid holds
no letter at all. -/
def computeBounds (grid : Grid) (size : Nat) : Bounds :=
  let b := (rowMajorCells size).foldl
    (fun (b : Bounds) rc =>
      if (getCell grid (rc.1 : Int) (rc.2 : Int)).isSome then
        { minR := min b.minR (rc.1 : Int), maxR := max b.maxR (rc.1 : Int),
          minC := min b.minC (rc.2 : Int), maxC := max b.maxC (rc.2 : Int) }
      else b)
    { minR := (size : Int), maxR := -1, minC := (size : Int), maxC := -1 }
  if b.maxR = -1 then
    { minR := 0, maxR := (size : Int) - 1, minC := 0, maxC := (size : Int) - 1 }
  else b

/-- The result of one generation trial. -/
structure GenResult where
  grid : Grid
  placements : List Placement
  numbers : List (List (Option Nat))
  bounds : Bounds
deriving DecidableEq

/-- The degenerate result returned when the shuffled copy is empty. -/
def emptyResult (size : Nat) : GenResult :=
  { grid := emptyGrid size, placements := [], numbers := [],
    bounds := { minR := 0, maxR := (size : Int) - 1, minC := 0, maxC := (size : Int) - 1 } }

/-- Start column of the first word: clamped to centre the word on the
middle column. -/
def firstStartCol (size len : Nat) : Int :=
  max 0 (min ((size : Int) - (len : Int)) (((size / 2 : Nat) : Int) - ((len / 2 : Nat) : Int)))

/-- The tail of `generateCrosswordFromWords` after the word list has been
shuffled: place the first word across near the centre, attempt the rest
through the crossing search, prune, number, and assemble the result. -/
def generateFromList (copy : List WordEntry) (st : Nat) (size : Nat) : GenResult :=
  match copy with
  | [] => emptyResult size
  | first :: rest =>
    let mid : Int := ((size / 2 : Nat) : Int)
    let startCol : Int := firstStartCol size first.answer.length
    let g1 := placeWord first.answer mid startCol .across (emptyGrid size)
    let ps1 : List Placement :=
      [{ answer := first.answer, clue := first.clue, row := mid, col := startCol,
         dir := .across, number := none }]
    let step := placeLoop size rest g1 ps1 st
    let pruned := pruneIsolatedWords step.1 step.2.1
    let nums := numbersMatrix pruned.1 size
    { grid := pruned.1,
      placements := pruned.2.map (fun p => { p with number := getEntry nums p.row p.col }),
      numbers := nums,
      bounds := computeBounds pruned.1 size }

/-- `generateCrosswordFromWords(words, seed, size)`: one full trial.
Shuffle a copy of the words with a fresh RNG seeded by the trial seed,
then run the placement pipeline. -/
def generateCrosswordFromWords (words : List WordEntry) (seed : Nat) (size : Nat) :
    GenResult :=
  let sh := shuffleList words (seed % pow32)
  generateFromList sh.1 sh.2 size

/-- Trial quality as computed by the orchestrator:
`placedCount * 10 + intersectionCount`. -/
def quality (g : GenResult) : Nat :=
  g.placements.length * 10 + scorePlacements g.grid g.placements

/-- The orchestrator's retry loop: track the best (strictly better to
replace, so the earliest salt wins ties), and return the current trial
immediately once it reaches the word threshold. When the salts are
exhausted, return the best seen, or run one fallback trial at the base
seed if no trial ran. -/
def chooseAux (words : List WordEntry) (seed size minWords : Nat) :
    Nat → Nat → Option (GenResult × Nat) → GenResult
  | _, 0, best =>
    match best with
    | some b => b.1
    | none => generateCrosswordFromWords words seed size
  | salt, fuel + 1, best =>
    let g := generateCrosswordFromWords words (seed + salt) size
    let score := quality g
    let best1 :=
      match best with
      | none => some (g, score)
      | some b => if score > b.2 then some (g, score) else some b
    if g.placements.length ≥ minWords then g
    else chooseAux words seed size minWords (salt + 1) fuel best1

/-- The Generation Orchestrator (the trial loop of the app component),
generalised over its two constants. -/
def chooseLayout (words : List WordEntry) (seed size minWords maxSalts : Nat) :
    GenResult :=
  chooseAux words seed size minWords 0 maxSalts none

/-- Source constant `MIN_WORDS`. -/
def MIN_WORDS : Nat := 8

/-- Source constant `MAX_SALTS`. -/
def MAX_SALTS : Nat := 80

/-- Per-cell loop of `isSolved` along one solution row: every solution
letter must be matched exactly by the player cell (a player cell modelled
`none` covers both the JS `null` and the empty string, which both fail
against a letter). -/
def isSolvedRowAux (user : Grid) (r : Int) : List (Option Char) → Int → Bool
  | [], _ => true
  | s :: rest, c =>
    (match s with
     | none => true
     | some ch => getCell user r c = some ch) &&
    isSolvedRowAux user r rest (c + 1)

/-- Row loop of `isSolved`. -/
def isSolvedAux (user : Grid) : List (List (Option Char)) → Int → Bool
  | [], _ => true
  | row :: rows, r => isSolvedRowAux user r row 0 && isSolvedAux user rows (r + 1)

/-- `isSolved(user, sol)` of the source. -/
def isSolved (user sol : Grid) : Bool := isSolvedAux user sol 0

/-
Claim-side definitions: predicates written from the specification's or a
claim's wording, to be compared against the source-derived functions
above. Each is used only to settle the claim that quotes it.
-/

/-- The row of the cell covered at offset `i` when placing at
`(row, col)` along `dir`. -/
def offR (row : Int) (dir : Dir) (i : Nat) : Int :=
  match dir with
  | .across => row
  | .down => row + i

/-- The column of the cell covered at offset `i`. -/
def offC (col : Int) (dir : Dir) (i : Nat) : Int :=
  match dir with
  | .across => col + i
  | .down => col

/-- Claim C5's validity predicate, clause by clause: (a) all covered
cells within the `size`-by-`size` bounds; (b) the cells immediately
before the start and after the end along the axis are empty or off grid;
(c) every covered cell already holds exactly the word's letter, or is
empty with both perpendicular neighbours empty or off grid. -/
def canPlaceSpec (word : List Char) (row col : Int) (dir : Dir) (grid : Grid) : Bool :=
  let size : Int := (grid.length : Int)
  let inB : Int → Int → Bool := fun r c =>
    decide (0 ≤ r ∧ r < size ∧ 0 ≤ c ∧ c < size)
  let before : Int × Int :=
    match dir with
    | .across => (row, col - 1)
    | .down => (row - 1, col)
  let after : Int × Int :=
    match dir with
    | .across => (row, col + word.length)
    | .down => (row + word.length, col)
  ((List.range word.length).all fun i => inB (offR row dir i) (offC col dir i)) &&
  (getCell grid before.1 before.2 = none) &&
  (getCell grid after.1 after.2 = none) &&
  ((List.range word.length).all fun i =>
    let r := offR row dir i
    let c := offC col dir i
    match getCell grid r c with
    | some x => decide (word.get? i = some x)
    | none =>
      match dir with
      | .across => (getCell grid (r - 1) c = none) && (getCell grid (r + 1) c = none)
      | .down => (getCell grid r (c - 1) = none) && (getCell grid r (c + 1) = none))

/-- Case-insensitive variant of the `isSolved` cell test, as worded by
claim C9 (player letter compared to the solution letter after
uppercasing both). -/
def isSolvedCIRow (user : Grid) (r : Int) : List (Option Char) → Int → Bool
  | [], _ => true
  | s :: rest, c =>
    (match s with
     | none => true
     | some ch =>
       match getCell user r c with
       | some u => decide (u.toUpper = ch.toUpper)
       | none => false) &&
    isSolvedCIRow user r rest (c + 1)

/-- Row loop of the case-insensitive check. -/
def isSolvedCIAux (user : Grid) : List (List (Option Char)) → Int → Bool
  | [], _ => true
  | row :: rows, r => isSolvedCIRow user r row 0 && isSolvedCIAux user rows (r + 1)

/-- The solvedness predicate exactly as claim C9 words it: every solution
letter matched case-insensitively; empty solution cells ignored. -/
def isSolvedCI (user sol : Grid) : Bool := isSolvedCIAux user sol 0

/-- Inner index loop of the claim-order search: for one grid occurrence,
try each index, ACROSS then DOWN. -/
def searchIdxsInner (word : List Char) (grid : Grid) (r c : Int) :
    List Nat → Option (Int × Int × Dir)
  | [] => none
  | i :: is =>
    if canPlace word r (c - (i : Int)) .across grid then some (r, c - (i : Int), .across)
    else if canPlace word (r - (i : Int)) c .down grid then some (r - (i : Int), c, .down)
    else searchIdxsInner word grid r c is

/-- Candidate search with claim C6's nesting: the occurrence loop outside
the index loop (the source has them the other way around). -/
def searchPositionsClaim (word : List Char) (grid : Grid) (idxs : List Nat) :
    List (Int × Int) → Option (Int × Int × Dir)
  | [] => none
  | (r, c) :: rest =>
    match searchIdxsInner word grid r c idxs with
    | some cand => some cand
    | none => searchPositionsClaim word grid idxs rest

/-- Outer letter loop of the claim-order search. -/
def tryLettersClaim (word : List Char) (grid : Grid) (size : Nat) :
    List Char → Nat → Option (Int × Int × Dir) × Nat
  | [], st => (none, st)
  | letter :: rest, st =>
    let positions := findLetterPositions size letter grid
    if positions.isEmpty then tryLettersClaim word grid size rest st
    else
      let sh := shuffleList (letterIndices word letter) st
      match searchPositionsClaim word grid sh.1 positions with
      | some cand => (some cand, sh.2)
      | none => tryLettersClaim word grid size rest sh.2

/-- Placement loop using the claim-order search. -/
def placeLoopClaim (size : Nat) :
    List WordEntry → Grid → List Placement → Nat → Grid × List Placement × Nat
  | [], g, ps, st => (g, ps, st)
  | w :: ws, g, ps, st =>
    let lettersSh := shuffleList (firstOccDedupAux [] w.answer) st
    let res := tryLettersClaim w.answer g size lettersSh.1 lettersSh.2
    match res.1 with
    | some (r, c, d) =>
      placeLoopClaim size ws (placeWord w.answer r c d g)
        (ps ++ [{ answer := w.answer, clue := w.clue, row := r, col := c,
                  dir := d, number := none }]) res.2
    | none => placeLoopClaim size ws g ps res.2

/-- The tail of the claim-order generator after shuffling. -/
def generateFromListClaim (copy : List WordEntry) (st : Nat) (size : Nat) : GenResult :=
  match copy with
  | [] => emptyResult size
  | first :: rest =>
    let mid : Int := ((size / 2 : Nat) : Int)
    let startCol : Int := firstStartCol size first.answer.length
    let g1 := placeWord first.answer mid startCol .across (emptyGrid size)
    let ps1 : List Placement :=
      [{ answer := first.answer, clue := first.clue, row := mid, col := startCol,
         dir := .across, number := none }]
    let step := placeLoopClaim size rest g1 ps1 st
    let pruned := pruneIsolatedWords step.1 step.2.1
    let nums := numbersMatrix pruned.1 size
    { grid := pruned.1,
      placements := pruned.2.map (fun p => { p with number := getEntry nums p.row p.col }),
      numbers := nums,
      bounds := computeBounds pruned.1 size }

/-- The full generator as described by claim C6: identical to
`generateCrosswordFromWords` except that for each letter the grid
occurrences are scanned in the outer loop and the word indices in the
inner loop. -/
def generateClaimOrder (words : List WordEntry) (seed : Nat) (size : Nat) : GenResult :=
  let sh := shuffleList words (seed % pow32)
  generateFromListClaim sh.1 sh.2 size

/-- The two candidate placements generated by one (index, occurrence)
pair: ACROSS starting at column `c - i`, then DOWN starting at row
`r - i`. -/
def pairCands (r c : Int) (i : Nat) : List (Int × Int × Dir) :=
  [(r, c - (i : Int), .across), (r - (i : Int), c, .down)]

/-- The flattened candidate sequence actually searched by the source for
one word: letters in shuffled order; per letter with at least one grid
occurrence, the shuffled indices in the outer position and the row-major
occurrences in the inner position. RNG draws are threaded exactly as the
source performs them. -/
def fullCandidates (word : List Char) (grid : Grid) (size : Nat) :
    List Char → Nat → List (Int × Int × Dir)
  | [], _ => []
  | letter :: rest, st =>
    let positions := findLetterPositions size letter grid
    if positions.isEmpty then fullCandidates word grid size rest st
    else
      let sh := shuffleList (letterIndices word letter) st
      (sh.1.flatMap fun i => positions.flatMap fun rc => pairCands rc.1 rc.2 i) ++
      fullCandidates word grid size rest sh.2

/-- Validity test of one candidate. -/
def candValid (word : List Char) (grid : Grid) (cand : Int × Int × Dir) : Bool :=
  canPlace word cand.1 cand.2.1 cand.2.2 grid

/-- A trial run by the orchestrator at a given salt. -/
def trial (words : List WordEntry) (seed size salt : Nat) : GenResult :=
  generateCrosswordFromWords words (seed + salt) size

/-- Number of words a trial placed. -/
def placedCount (words : List WordEntry) (seed size salt : Nat) : Nat :=
  (trial words seed size salt).placements.length

/-- Quality of a trial. -/
def trialQuality (words : List WordEntry) (seed size salt : Nat) : Nat :=
  quality (trial words seed size salt)

/-- A maximal horizontal run of at least two letters: all of row `r`,
columns `a` to `b`, holds letters, and the cells immediately left of `a`
and right of `b` are empty or off grid. -/
def hRun (g : Grid) (r a b : Int) : Prop :=
  a < b ∧ (∀ c, a ≤ c → c ≤ b → (getCell g r c).isSome) ∧
  getCell g r (a - 1) = none ∧ getCell g r (b + 1) = none

/-- A maximal vertical run of at least two letters in column `c`. -/
def vRun (g : Grid) (c a b : Int) : Prop :=
  a < b ∧ (∀ r, a ≤ r → r ≤ b → (getCell g r c).isSome) ∧
  getCell g (a - 1) c = none ∧ getCell g (b + 1) c = none

/-- The grid is a square matrix of the given size. -/
def gridSized (g : Grid) (size : Nat) : Prop :=
  g.length = size ∧ ∀ row ∈ g, row.length = size

/-- A placement agrees with the grid: each covered cell holds the
corresponding answer letter. -/
def agrees (g : Grid) (p : Placement) : Prop :=
  ∀ i, i < p.answer.length → getCell g (cellR p i) (cellC p i) = p.answer.get? i

/-- A matrix is rectangular with the given square dimensions. -/
def matrixSized {α : Type} (m : List (List α)) (size : Nat) : Prop :=
  m.length = size ∧ ∀ row ∈ m, row.length = size

/-- The first word's placement record (across, near the centre). -/
def firstPlacement (first : WordEntry) (size : Nat) : Placement :=
  { answer := first.answer, clue := first.clue, row := ((size / 2 : Nat) : Int),
    col := firstStartCol size first.answer.length, dir := .across, number := none }

/-- Grid and placements of one trial just after the placement loop, before
pruning (a shorthand for the intermediate state of `generateFromList`). -/
def loopState (first : WordEntry) (rest : List WordEntry) (st size : Nat) :
    Grid × List Placement × Nat :=
  placeLoop size rest
    (placeWord first.answer ((size / 2 : Nat) : Int)
      (firstStartCol size first.answer.length) .across (emptyGrid size))
    [firstPlacement first size] st

/-- Grid and placements of one trial after the pruner. -/
def prunedState (first : WordEntry) (rest : List WordEntry) (st size : Nat) :
    Grid × List Placement :=
  pruneIsolatedWords (loopState first rest st size).1 (loopState first rest st size).2.1

/-- The grid/placement consistency of claim C2: every recorded placement
agrees with the grid letter by letter, and every non-empty grid cell is
covered by at least one recorded placement. -/
def inv2 (g : Grid) (ps : List Placement) : Prop :=
  (∀ p ∈ ps, agrees g p) ∧
  (∀ r c : Int, (getCell g r c).isSome = true → ∃ p ∈ ps, (r, c) ∈ cellsOf p)

/-- The run/placement correspondence of claim C10: every maximal
horizontal run of two or more letters is exactly the cells of an ACROSS
placement, and every maximal vertical run of two or more letters is
exactly the cells of a DOWN placement. -/
def runsProp (g : Grid) (ps : List Placement) : Prop :=
  (∀ r a b : Int, hRun g r a b →
    ∃ p ∈ ps, p.dir = .across ∧ p.row = r ∧ p.col = a ∧
      a + (p.answer.length : Int) = b + 1) ∧
  (∀ c a b : Int, vRun g c a b →
    ∃ p ∈ ps, p.dir = .down ∧ p.col = c ∧ p.row = a ∧
      a + (p.answer.length : Int) = b + 1)

/-
Theorems. Claim theorems are named c1_... to c10_...; everything else is
a shared helper lemma.
-/

theorem pow32_eq : pow32 = 2 ^ 32 := by norm_num [pow32]

theorem mbNext_eq_spec (t : Nat) : mbNext t = mbSpecNext t := by
  simp only [mbNext, mbSpecNext, Nat.lor_comm]

theorem mbState_eq_spec (seed : Nat) (h : seed < pow32) :
    ∀ n, mbState seed n = mbSpecState seed n
  | 0 => by simp [mbState, mbSpecState, Nat.mod_eq_of_lt h]
  | n + 1 => by
    simp only [mbState, mbSpecState, mbNext_eq_spec, mbState_eq_spec seed h n]

theorem mbNext_out_lt (t : Nat) : (mbNext t).2 < pow32 := by
  have hpos : 0 < pow32 := by norm_num [pow32]
  simp only [mbNext]
  set t1 := (0x6D2B79F5 + t) % pow32 with ht1
  set r1 := ((t1 ^^^ (t1 >>> 15)) * (1 ||| t1)) % pow32 with hr1
  set x := ((r1 + ((r1 ^^^ (r1 >>> 7)) * (61 ||| r1)) % pow32) % pow32) with hx
  have h1 : r1 < pow32 := Nat.mod_lt _ hpos
  have h2 : x < pow32 := Nat.mod_lt _ hpos
  have hr2 : r1 ^^^ x < pow32 := by
    rw [pow32_eq] at h1 h2 ⊢
    exact Nat.xor_lt_two_pow h1 h2
  have h3 : (r1 ^^^ x) >>> 14 < pow32 := by
    calc (r1 ^^^ x) >>> 14 ≤ r1 ^^^ x := by
          rw [Nat.shiftRight_eq_div_pow]
          exact Nat.div_le_self _ _
      _ < pow32 := hr2
  rw [pow32_eq] at hr2 h3 ⊢
  exact Nat.xor_lt_two_pow hr2 h3

theorem mbVal_lt_one (seed n : Nat) : mbVal seed n < 1 := by
  rw [mbVal, div_lt_one (by norm_num [pow32] : (0 : ℚ) < (pow32 : ℚ))]
  exact_mod_cast mbNext_out_lt (mbState seed n)

/-- C3: for every 32-bit seed and every call count, the RNG's output is a
float in [0,1) computed exactly by the Mulberry32 reference of the
specification; being a pure function of `(seed, n)`, it depends on
nothing else. -/
theorem c3_rng_matches_reference (seed n : Nat) (h : seed < pow32) :
    mbVal seed n = mbSpecVal seed n ∧ 0 ≤ mbVal seed n ∧ mbVal seed n < 1 := by
  refine ⟨?_, ?_, mbVal_lt_one seed n⟩
  · rw [mbVal, mbSpecVal, mbOutNum, mbSpecOutNum, mbState_eq_spec seed h n,
      mbNext_eq_spec]
  · rw [mbVal]
    positivity

/-- Witness for C3 at seed 42, call 0. -/
theorem c3_rng_matches_reference_witness :
    42 < pow32 ∧
      (mbVal 42 0 = mbSpecVal 42 0 ∧ 0 ≤ mbVal 42 0 ∧ mbVal 42 0 < 1) :=
  ⟨by norm_num [pow32], c3_rng_matches_reference 42 0 (by norm_num [pow32])⟩

theorem getD_none_eq_some {α : Type} {x : Option (Option α)} {ch : α} :
    x.getD none = some ch ↔ x = some (some ch) := by
  cases x <;> simp

theorem getCell_eq_some_iff (g : Grid) (r c : Int) (ch : Char) :
    getCell g r c = some ch ↔
      0 ≤ r ∧ 0 ≤ c ∧
        ∃ row, g.get? r.toNat = some row ∧ row.get? c.toNat = some (some ch) := by
  unfold getCell getEntry
  by_cases h : 0 ≤ r ∧ 0 ≤ c
  · cases hg : g.get? r.toNat with
    | none => simp [h, hg]
    | some row => simp [h, hg, getD_none_eq_some]
  · simp [h]
    intro h1 h2
    exact absurd ⟨h1, h2⟩ h

theorem isSolvedRowAux_iff (user : Grid) (r : Int) :
    ∀ (row : List (Option Char)) (c0 : Int),
      isSolvedRowAux user r row c0 = true ↔
        ∀ (j : Nat) (ch : Char), row.get? j = some (some ch) →
          getCell user r (c0 + j) = some ch
  | [], c0 => by simp [isSolvedRowAux]
  | s :: rest, c0 => by
    simp only [isSolvedRowAux, Bool.and_eq_true]
    rw [isSolvedRowAux_iff user r rest (c0 + 1)]
    constructor
    · rintro ⟨h1, h2⟩ j ch hj
      cases j with
      | zero =>
        cases s with
        | none => simp at hj
        | some ch2 =>
          simp at hj
          subst hj
          simpa using of_decide_eq_true h1
      | succ j =>
        have := h2 j ch (by simpa using hj)
        have harith : c0 + 1 + (j : Int) = c0 + ((j : Nat) + 1 : Nat) := by
          push_cast
          ring
        rwa [harith] at this
    · intro h
      constructor
      · cases s with
        | none => rfl
        | some ch2 =>
          have := h 0 ch2 (by simp)
          simp at this
          simpa using decide_eq_true this
      · intro j ch hj
        have := h (j + 1) ch (by simpa using hj)
        have harith : c0 + ((j : Nat) + 1 : Nat) = c0 + 1 + (j : Int) := by
          push_cast
          ring
        rwa [harith] at this

theorem isSolvedAux_iff (user : Grid) :
    ∀ (rows : List (List (Option Char))) (r0 : Int),
      isSolvedAux user rows r0 = true ↔
        ∀ (i j : Nat) (row : List (Option Char)) (ch : Char),
          rows.get? i = some row → row.get? j = some (some ch) →
          getCell user (r0 + i) (j : Int) = some ch
  | [], r0 => by simp [isSolvedAux]
  | row :: rows, r0 => by
    simp only [isSolvedAux, Bool.and_eq_true]
    rw [isSolvedAux_iff user rows (r0 + 1), isSolvedRowAux_iff]
    constructor
    · rintro ⟨h1, h2⟩ i j rw2 ch hi hj
      cases i with
      | zero =>
        simp at hi
        subst hi
        simpa using h1 j ch hj
      | succ i =>
        have := h2 i j rw2 ch (by simpa using hi) hj
        have harith : r0 + 1 + (i : Int) = r0 + ((i : Nat) + 1 : Nat) := by
          push_cast
          ring
        rwa [harith] at this
    · intro h
      constructor
      · intro j ch hj
        simpa using h 0 j row ch (by simp) hj
      · intro i j rw2 ch hi hj
        have := h (i + 1) j rw2 ch (by simpa using hi) hj
        have harith : r0 + ((i : Nat) + 1 : Nat) = r0 + 1 + (i : Int) := by
          push_cast
          ring
        rwa [harith] at this

theorem isSolved_iff (user sol : Grid) :
    isSolved user sol = true ↔
      ∀ (r c : Int) (ch : Char), getCell sol r c = some ch →
        getCell user r c = some ch := by
  rw [isSolved, isSolvedAux_iff]
  constructor
  · intro h r c ch hcell
    rw [getCell_eq_some_iff] at hcell
    obtain ⟨hr, hc, row, hrow, hcol⟩ := hcell
    have := h r.toNat c.toNat row ch hrow hcol
    rwa [show (0 : Int) + r.toNat = r by omega, show ((c.toNat : Int)) = c by omega] at this
  · intro h i j row ch hi hj
    apply h
    rw [getCell_eq_some_iff]
    refine ⟨by omega, by omega, row, ?_, ?_⟩
    · rwa [show ((0 : Int) + i).toNat = i by omega]
    · rwa [show ((j : Int)).toNat = j by omega]

/-- C9 (amended): `isSolved` is true exactly when every solution letter
cell is matched by the identical player letter (exact, case-sensitive
comparison); player cells over empty solution cells never matter, and an
all-empty player grid against a solution with a letter is not solved. -/
theorem c9_isSolved (user sol : Grid) :
    (isSolved user sol = true ↔
      ∀ (r c : Int) (ch : Char), getCell sol r c = some ch →
        getCell user r c = some ch) ∧
    (∀ user2 : Grid,
      (∀ (r c : Int) (ch : Char), getCell sol r c = some ch →
        getCell user2 r c = getCell user r c) →
      isSolved user2 sol = isSolved user sol) ∧
    ((∀ r c : Int, getCell user r c = none) →
      (∃ (r c : Int) (ch : Char), getCell sol r c = some ch) →
      isSolved user sol = false) := by
  refine ⟨isSolved_iff user sol, ?_, ?_⟩
  · intro user2 hsame
    by_cases h : isSolved user sol = true
    · rw [h]
      rw [isSolved_iff] at h ⊢
      intro r c ch hcell
      rw [hsame r c ch hcell]
      exact h r c ch hcell
    · have h2 : isSolved user2 sol ≠ true := by
        intro habs
        apply h
        rw [isSolved_iff] at habs ⊢
        intro r c ch hcell
        rw [← hsame r c ch hcell]
        exact habs r c ch hcell
      simp only [Bool.not_eq_true] at h h2
      rw [h, h2]
  · rintro hempty ⟨r, c, ch, hcell⟩
    by_contra habs
    simp only [Bool.not_eq_false] at habs
    rw [isSolved_iff] at habs
    have := habs r c ch hcell
    rw [hempty r c] at this
    exact Option.noConfusion this

theorem getCell_single_none (r c : Int) : getCell [[(none : Option Char)]] r c = none := by
  unfold getCell getEntry
  by_cases h : 0 ≤ r ∧ 0 ≤ c
  · rw [if_pos h]
    cases hr : r.toNat <;> cases hc : c.toNat <;> rfl
  · rw [if_neg h]

/-- Witness for C9 at a concrete 1-by-1 grid: the all-empty player grid
against a one-letter solution is not solved. -/
theorem c9_isSolved_witness :
    isSolved [[(none : Option Char)]] [[some 'A']] = false :=
  (c9_isSolved [[(none : Option Char)]] [[some 'A']]).2.2
    getCell_single_none ⟨0, 0, 'A', by decide⟩

/-- The claim's case-insensitive comparison disagrees with the source's
exact comparison: a lower-case player letter over its upper-case solution
letter satisfies the claim's predicate while `isSolved` rejects it. -/
theorem c9_isSolved_counterexample :
    isSolvedCI [[some 'a']] [[some 'A']] = true ∧
      isSolved [[some 'a']] [[some 'A']] = false := by
  constructor <;> decide

theorem chooseFilterAux_eq_spec :
    ∀ (l : List WordEntry) (seen : List (List Char)),
      chooseFilterAux seen l = specDedup seen (specLengthFilter l)
  | [], seen => rfl
  | x :: l, seen => by
    by_cases hlen : x.answer.length < 3 ∨ 13 < x.answer.length
    · have hfail : ¬(3 ≤ x.answer.length ∧ x.answer.length ≤ 13) := by omega
      simp only [chooseFilterAux, if_pos hlen, specLengthFilter,
        List.filter_cons, decide_eq_true_eq, if_neg hfail]
      exact chooseFilterAux_eq_spec l seen
    · have hok : 3 ≤ x.answer.length ∧ x.answer.length ≤ 13 := by omega
      simp only [chooseFilterAux, if_neg hlen, specLengthFilter,
        List.filter_cons, decide_eq_true_eq, if_pos hok, specDedup]
      by_cases hseen : x.answer ∈ seen
      · simp only [if_pos hseen]
        exact chooseFilterAux_eq_spec l seen
      · simp only [if_neg hseen]
        rw [chooseFilterAux_eq_spec l (x.answer :: seen)]
        rfl

theorem chooseFilterAux_bounds :
    ∀ (l : List WordEntry) (seen : List (List Char)) (w2 : WordEntry),
      w2 ∈ chooseFilterAux seen l →
      3 ≤ w2.answer.length ∧ w2.answer.length ≤ 13
  | [], _, _, h => by simp [chooseFilterAux] at h
  | x :: l, seen, w2, h => by
    by_cases hlen : x.answer.length < 3 ∨ 13 < x.answer.length
    · rw [chooseFilterAux, if_pos hlen] at h
      exact chooseFilterAux_bounds l seen w2 h
    · rw [chooseFilterAux, if_neg hlen] at h
      by_cases hseen : x.answer ∈ seen
      · rw [if_pos hseen] at h
        exact chooseFilterAux_bounds l seen w2 h
      · rw [if_neg hseen] at h
        rcases List.mem_cons.mp h with h1 | h1
        · subst h1
          omega
        · exact chooseFilterAux_bounds l (x.answer :: seen) w2 h1

theorem chooseFilterAux_notin_seen :
    ∀ (l : List WordEntry) (seen : List (List Char)) (w2 : WordEntry),
      w2 ∈ chooseFilterAux seen l → w2.answer ∉ seen
  | [], _, _, h => by simp [chooseFilterAux] at h
  | x :: l, seen, w2, h => by
    by_cases hlen : x.answer.length < 3 ∨ 13 < x.answer.length
    · rw [chooseFilterAux, if_pos hlen] at h
      exact chooseFilterAux_notin_seen l seen w2 h
    · rw [chooseFilterAux, if_neg hlen] at h
      by_cases hseen : x.answer ∈ seen
      · rw [if_pos hseen] at h
        exact chooseFilterAux_notin_seen l seen w2 h
      · rw [if_neg hseen] at h
        rcases List.mem_cons.mp h with h1 | h1
        · subst h1
          exact hseen
        · intro habs
          exact chooseFilterAux_notin_seen l (x.answer :: seen) w2 h1
            (List.mem_cons_of_mem _ habs)

theorem chooseFilterAux_nodup :
    ∀ (l : List WordEntry) (seen : List (List Char)),
      ((chooseFilterAux seen l).map (fun w2 => w2.answer)).Nodup
  | [], _ => by simp [chooseFilterAux]
  | x :: l, seen => by
    by_cases hlen : x.answer.length < 3 ∨ 13 < x.answer.length
    · rw [chooseFilterAux, if_pos hlen]
      exact chooseFilterAux_nodup l seen
    · rw [chooseFilterAux, if_neg hlen]
      by_cases hseen : x.answer ∈ seen
      · rw [if_pos hseen]
        exact chooseFilterAux_nodup l seen
      · rw [if_neg hseen]
        simp only [List.map_cons, List.nodup_cons]
        refine ⟨?_, chooseFilterAux_nodup l (x.answer :: seen)⟩
        intro habs
        rcases List.mem_map.mp habs with ⟨w2, hw2, hans⟩
        exact chooseFilterAux_notin_seen l (x.answer :: seen) w2 hw2
          (hans ▸ List.mem_cons_self _ _)

/-- C7: the Word Selector equals the specification's pipeline
(stable sort by distance from length 7, Fisher-Yates shuffle, length
filter and first-occurrence deduplication); consequently every output
answer has length in [3, 13], no answer repeats, and an empty bank gives
an empty list. -/
theorem c7_wordSelector (bank : List WordEntry) (st : Nat) :
    pickDailyWordsFrom bank st = wordSelectorSpec bank st ∧
    (∀ w2 ∈ pickDailyWordsFrom bank st,
      3 ≤ w2.answer.length ∧ w2.answer.length ≤ 13) ∧
    ((pickDailyWordsFrom bank st).map (fun w2 => w2.answer)).Nodup ∧
    pickDailyWordsFrom [] st = [] := by
  refine ⟨?_, ?_, ?_, rfl⟩
  · rw [pickDailyWordsFrom, wordSelectorSpec]
    exact chooseFilterAux_eq_spec _ []
  · intro w2 hw2
    exact chooseFilterAux_bounds _ [] w2 hw2
  · exact chooseFilterAux_nodup _ []

theorem getCell_neg_row {g : Grid} {r c : Int} (h : r < 0) : getCell g r c = none := by
  unfold getCell getEntry
  rw [if_neg]
  omega

theorem getCell_neg_col {g : Grid} {r c : Int} (h : c < 0) : getCell g r c = none := by
  unfold getCell getEntry
  rw [if_neg]
  omega

theorem getCell_row_ge {g : Grid} {r c : Int} (h : (g.length : Int) ≤ r) :
    getCell g r c = none := by
  unfold getCell getEntry
  by_cases h0 : 0 ≤ r ∧ 0 ≤ c
  · rw [if_pos h0]
    have : g.get? r.toNat = none := List.get?_eq_none.mpr (by omega)
    rw [this]
  · rw [if_neg h0]

theorem getCell_col_ge {g : Grid} {size : Nat} {r c : Int} (hsq : gridSized g size)
    (h : (size : Int) ≤ c) : getCell g r c = none := by
  unfold getCell getEntry
  by_cases h0 : 0 ≤ r ∧ 0 ≤ c
  · rw [if_pos h0]
    cases hg : g.get? r.toNat with
    | none => rfl
    | some row =>
      have hmem : row ∈ g := List.get?_mem hg
      have hlen : row.length = size := hsq.2 row hmem
      have hcell : row.get? c.toNat = none := List.get?_eq_none.mpr (by omega)
      show (row.get? c.toNat).getD none = none
      rw [hcell]
      rfl
  · rw [if_neg h0]

theorem getCell_isSome_bounds {g : Grid} {r c : Int} (h : (getCell g r c).isSome) :
    0 ≤ r ∧ 0 ≤ c ∧ r < (g.length : Int) := by
  refine ⟨?_, ?_, ?_⟩
  · by_contra habs
    rw [getCell_neg_row (by omega)] at h
    exact Bool.noConfusion h
  · by_contra habs
    rw [getCell_neg_col (by omega)] at h
    exact Bool.noConfusion h
  · by_contra habs
    rw [getCell_row_ge (by omega)] at h
    exact Bool.noConfusion h

theorem getCell_isSome_col_lt {g : Grid} {size : Nat} {r c : Int}
    (hsq : gridSized g size) (h : (getCell g r c).isSome) : c < (size : Int) := by
  by_contra habs
  rw [getCell_col_ge hsq (by omega)] at h
  exact Bool.noConfusion h

theorem not_guard_isSome_iff_left {P : Prop} [Decidable P] {x : Option Char}
    (hnone : ¬P → x = none) : (!(decide P && x.isSome)) = true ↔ x = none := by
  by_cases hp : P
  · cases hx : x <;> simp [hp, hx]
  · simp [hp, hnone hp]

/-- The per-cell condition checked by the ACROSS branch of `canPlace` at
one covered cell, with the neighbour guards kept verbatim. -/
def acrossCellOk (grid : Grid) (size row : Int) (c : Int) (ch : Char) : Prop :=
  getCell grid row c = some ch ∨
  (getCell grid row c = none ∧
    (!(decide (0 ≤ row - 1) && (getCell grid (row - 1) c).isSome)) = true ∧
    (!(decide (row + 1 < size) && (getCell grid (row + 1) c).isSome)) = true)

/-- The per-cell condition checked by the DOWN branch. -/
def downCellOk (grid : Grid) (size col : Int) (r : Int) (ch : Char) : Prop :=
  getCell grid r col = some ch ∨
  (getCell grid r col = none ∧
    (!(decide (0 ≤ col - 1) && (getCell grid r (col - 1)).isSome)) = true ∧
    (!(decide (col + 1 < size) && (getCell grid r (col + 1)).isSome)) = true)

theorem checkCellsAcross_iff (grid : Grid) (size : Int) (row : Int) :
    ∀ (w : List Char) (c : Int),
      checkCellsAcross grid size row w c = true ↔
        ∀ (i : Nat) (ch : Char), w.get? i = some ch →
          acrossCellOk grid size row (c + i) ch
  | [], c => by simp [checkCellsAcross]
  | ch0 :: w, c => by
    simp only [checkCellsAcross, Bool.and_eq_true]
    rw [checkCellsAcross_iff grid size row w (c + 1)]
    have hhead :
        (match getCell grid row c with
          | some x => decide (x = ch0)
          | none =>
            !(decide (0 ≤ row - 1) && (getCell grid (row - 1) c).isSome) &&
            !(decide (row + 1 < size) && (getCell grid (row + 1) c).isSome)) = true ↔
          acrossCellOk grid size row c ch0 := by
      cases hc : getCell grid row c with
      | some x => simp [acrossCellOk, hc]
      | none => simp [acrossCellOk, hc, Bool.and_eq_true]
    rw [hhead]
    constructor
    · rintro ⟨h1, h2⟩ i ch hi
      cases i with
      | zero =>
        simp at hi
        subst hi
        simpa using h1
      | succ i =>
        have := h2 i ch (by simpa using hi)
        have harith : c + 1 + (i : Int) = c + ((i : Nat) + 1 : Nat) := by
          push_cast
          ring
        rwa [harith] at this
    · intro h
      refine ⟨by simpa using h 0 ch0 (by simp), ?_⟩
      intro i ch hi
      have := h (i + 1) ch (by simpa using hi)
      have harith : c + ((i : Nat) + 1 : Nat) = c + 1 + (i : Int) := by
        push_cast
        ring
      rwa [harith] at this

theorem checkCellsDown_iff (grid : Grid) (size : Int) (col : Int) :
    ∀ (w : List Char) (r : Int),
      checkCellsDown grid size col w r = true ↔
        ∀ (i : Nat) (ch : Char), w.get? i = some ch →
          downCellOk grid size col (r + i) ch
  | [], r => by simp [checkCellsDown]
  | ch0 :: w, r => by
    simp only [checkCellsDown, Bool.and_eq_true]
    rw [checkCellsDown_iff grid size col w (r + 1)]
    have hhead :
        (match getCell grid r col with
          | some x => decide (x = ch0)
          | none =>
            !(decide (0 ≤ col - 1) && (getCell grid r (col - 1)).isSome) &&
            !(decide (col + 1 < size) && (getCell grid r (col + 1)).isSome)) = true ↔
          downCellOk grid size col r ch0 := by
      cases hc : getCell grid r col with
      | some x => simp [downCellOk, hc]
      | none => simp [downCellOk, hc, Bool.and_eq_true]
    rw [hhead]
    constructor
    · rintro ⟨h1, h2⟩ i ch hi
      cases i with
      | zero =>
        simp at hi
        subst hi
        simpa using h1
      | succ i =>
        have := h2 i ch (by simpa using hi)
        have harith : r + 1 + (i : Int) = r + ((i : Nat) + 1 : Nat) := by
          push_cast
          ring
        rwa [harith] at this
    · intro h
      refine ⟨by simpa using h 0 ch0 (by simp), ?_⟩
      intro i ch hi
      have := h (i + 1) ch (by simpa using hi)
      have harith : r + ((i : Nat) + 1 : Nat) = r + 1 + (i : Int) := by
        push_cast
        ring
      rwa [harith] at this

theorem bool_eq_iff {a b : Bool} : a = b ↔ ((a = true) ↔ (b = true)) := by
  cases a <;> cases b <;> simp

theorem ite_chain3 {A B C : Prop} [Decidable A] [Decidable B] [Decidable C] {x : Bool} :
    (if A then false else if B then false else if C then false else x) = true ↔
      ¬A ∧ ¬B ∧ ¬C ∧ x = true := by
  by_cases hA : A <;> by_cases hB : B <;> by_cases hC : C <;> simp [hA, hB, hC]

theorem guard_none_iff {P : Prop} [Decidable P] {x : Option Char} (h : ¬P → x = none) :
    ¬(P ∧ x.isSome = true) ↔ x = none := by
  by_cases hp : P
  · cases hx : x <;> simp [hp, hx]
  · simp [hp, h hp]

theorem bguard_none_iff {P : Prop} [Decidable P] {x : Option Char} (h : ¬P → x = none) :
    (!(decide P && x.isSome)) = true ↔ x = none := by
  by_cases hp : P
  · cases hx : x <;> simp [hp, hx]
  · simp [hp, h hp]

theorem canPlace_eq_spec_across (word : List Char) (row col : Int) (grid : Grid)
    (hw : word ≠ []) (hsq : gridSized grid grid.length) :
    canPlace word row col .across grid = canPlaceSpec word row col .across grid := by
  have hlen : 1 ≤ word.length := List.length_pos.mpr hw
  rw [bool_eq_iff]
  have hcode : canPlace word row col .across grid = true ↔
      ¬(col < 0 ∨ col + (word.length : Int) > (grid.length : Int) ∨ row < 0 ∨
          row ≥ (grid.length : Int)) ∧
      ¬(0 ≤ col - 1 ∧ (getCell grid row (col - 1)).isSome = true) ∧
      ¬(col + (word.length : Int) < (grid.length : Int) ∧
          (getCell grid row (col + (word.length : Int))).isSome = true) ∧
      checkCellsAcross grid (grid.length : Int) row word col = true := by
    simp only [canPlace]
    exact ite_chain3
  rw [hcode, checkCellsAcross_iff]
  have hspec : canPlaceSpec word row col .across grid = true ↔
      (∀ i ∈ List.range word.length,
        (0 : Int) ≤ row ∧ row < (grid.length : Int) ∧ 0 ≤ col + (i : Int) ∧
          col + (i : Int) < (grid.length : Int)) ∧
      getCell grid row (col - 1) = none ∧
      getCell grid row (col + (word.length : Int)) = none ∧
      (∀ i ∈ List.range word.length,
        (match getCell grid row (col + (i : Int)) with
          | some x => decide (word.get? i = some x)
          | none =>
            (getCell grid (row - 1) (col + (i : Int)) = none) &&
            (getCell grid (row + 1) (col + (i : Int)) = none)) = true) := by
    simp only [canPlaceSpec, offR, offC, Bool.and_eq_true, List.all_eq_true,
      decide_eq_true_eq]
    tauto
  rw [hspec]
  constructor
  · rintro ⟨h1, h2, h3, h4⟩
    push_neg at h1
    refine ⟨?_, ?_, ?_, ?_⟩
    · intro i hi
      rw [List.mem_range] at hi
      omega
    · exact (guard_none_iff (fun hp => getCell_neg_col (by omega))).mp h2
    · exact (guard_none_iff (fun hp => getCell_col_ge hsq (by omega))).mp h3
    · intro i hi
      rw [List.mem_range] at hi
      obtain ⟨ch, hch⟩ : ∃ ch, word.get? i = some ch :=
        ⟨word.get ⟨i, hi⟩, List.get?_eq_get hi⟩
      have := h4 i ch hch
      rcases this with hsome | ⟨hnone, hup, hdown⟩
      · rw [hsome]
        show decide (word.get? i = some ch) = true
        exact decide_eq_true hch
      · rw [hnone]
        have hu : getCell grid (row - 1) (col + (i : Int)) = none :=
          (bguard_none_iff (fun hp => getCell_neg_row (by omega))).mp hup
        have hd : getCell grid (row + 1) (col + (i : Int)) = none :=
          (bguard_none_iff (fun hp => getCell_row_ge (by omega))).mp hdown
        simp [hu, hd]
  · rintro ⟨h1, h2, h3, h4⟩
    have hb0 := h1 0 (List.mem_range.mpr (by omega))
    have hbL := h1 (word.length - 1) (List.mem_range.mpr (by omega))
    refine ⟨?_, ?_, ?_, ?_⟩
    · push_neg
      refine ⟨by omega, by omega, by omega, by omega⟩
    · exact (guard_none_iff (fun hp => getCell_neg_col (by omega))).mpr h2
    · exact (guard_none_iff (fun hp => getCell_col_ge hsq (by omega))).mpr h3
    · intro i ch hch
      have hi : i < word.length := by
        by_contra habs
        rw [List.get?_eq_none.mpr (by omega)] at hch
        exact Option.noConfusion hch
      have := h4 i (List.mem_range.mpr hi)
      cases hcell : getCell grid row (col + (i : Int)) with
      | some x =>
        rw [hcell] at this
        simp only [decide_eq_true_eq] at this
        left
        rw [hch] at this
        rw [hcell]
        exact congrArg some (Option.some.inj this).symm
      | none =>
        rw [hcell] at this
        simp only [Bool.and_eq_true, decide_eq_true_eq] at this
        right
        refine ⟨hcell, ?_, ?_⟩
        · exact (bguard_none_iff (fun hp => getCell_neg_row (by omega))).mpr this.1
        · exact (bguard_none_iff (fun hp => getCell_row_ge (by omega))).mpr this.2

theorem canPlace_eq_spec_down (word : List Char) (row col : Int) (grid : Grid)
    (hw : word ≠ []) (hsq : gridSized grid grid.length) :
    canPlace word row col .down grid = canPlaceSpec word row col .down grid := by
  have hlen : 1 ≤ word.length := List.length_pos.mpr hw
  rw [bool_eq_iff]
  have hcode : canPlace word row col .down grid = true ↔
      ¬(row < 0 ∨ row + (word.length : Int) > (grid.length : Int) ∨ col < 0 ∨
          col ≥ (grid.length : Int)) ∧
      ¬(0 ≤ row - 1 ∧ (getCell grid (row - 1) col).isSome = true) ∧
      ¬(row + (word.length : Int) < (grid.length : Int) ∧
          (getCell grid (row + (word.length : Int)) col).isSome = true) ∧
      checkCellsDown grid (grid.length : Int) col word row = true := by
    simp only [canPlace]
    exact ite_chain3
  rw [hcode, checkCellsDown_iff]
  have hspec : canPlaceSpec word row col .down grid = true ↔
      (∀ i ∈ List.range word.length,
        (0 : Int) ≤ row + (i : Int) ∧ row + (i : Int) < (grid.length : Int) ∧ 0 ≤ col ∧
          col < (grid.length : Int)) ∧
      getCell grid (row - 1) col = none ∧
      getCell grid (row + (word.length : Int)) col = none ∧
      (∀ i ∈ List.range word.length,
        (match getCell grid (row + (i : Int)) col with
          | some x => decide (word.get? i = some x)
          | none =>
            (getCell grid (row + (i : Int)) (col - 1) = none) &&
            (getCell grid (row + (i : Int)) (col + 1) = none)) = true) := by
    simp only [canPlaceSpec, offR, offC, Bool.and_eq_true, List.all_eq_true,
      decide_eq_true_eq]
    tauto
  rw [hspec]
  constructor
  · rintro ⟨h1, h2, h3, h4⟩
    push_neg at h1
    refine ⟨?_, ?_, ?_, ?_⟩
    · intro i hi
      rw [List.mem_range] at hi
      omega
    · exact (guard_none_iff (fun hp => getCell_neg_row (by omega))).mp h2
    · exact (guard_none_iff (fun hp => getCell_row_ge (by omega))).mp h3
    · intro i hi
      rw [List.mem_range] at hi
      obtain ⟨ch, hch⟩ : ∃ ch, word.get? i = some ch :=
        ⟨word.get ⟨i, hi⟩, List.get?_eq_get hi⟩
      have := h4 i ch hch
      rcases this with hsome | ⟨hnone, hleft, hright⟩
      · rw [hsome]
        show decide (word.get? i = some ch) = true
        exact decide_eq_true hch
      · rw [hnone]
        have hl : getCell grid (row + (i : Int)) (col - 1) = none :=
          (bguard_none_iff (fun hp => getCell_neg_col (by omega))).mp hleft
        have hr : getCell grid (row + (i : Int)) (col + 1) = none :=
          (bguard_none_iff (fun hp => getCell_col_ge hsq (by omega))).mp hright
        simp [hl, hr]
  · rintro ⟨h1, h2, h3, h4⟩
    have hb0 := h1 0 (List.mem_range.mpr (by omega))
    have hbL := h1 (word.length - 1) (List.mem_range.mpr (by omega))
    refine ⟨?_, ?_, ?_, ?_⟩
    · push_neg
      refine ⟨by omega, by omega, by omega, by omega⟩
    · exact (guard_none_iff (fun hp => getCell_neg_row (by omega))).mpr h2
    · exact (guard_none_iff (fun hp => getCell_row_ge (by omega))).mpr h3
    · intro i ch hch
      have hi : i < word.length := by
        by_contra habs
        rw [List.get?_eq_none.mpr (by omega)] at hch
        exact Option.noConfusion hch
      have := h4 i (List.mem_range.mpr hi)
      cases hcell : getCell grid (row + (i : Int)) col with
      | some x =>
        rw [hcell] at this
        simp only [decide_eq_true_eq] at this
        left
        rw [hch] at this
        rw [hcell]
        exact congrArg some (Option.some.inj this).symm
      | none =>
        rw [hcell] at this
        simp only [Bool.and_eq_true, decide_eq_true_eq] at this
        right
        refine ⟨hcell, ?_, ?_⟩
        · exact (bguard_none_iff (fun hp => getCell_neg_col (by omega))).mpr this.1
        · exact (bguard_none_iff (fun hp => getCell_col_ge hsq (by omega))).mpr this.2

/-- C5 (amended): for every nonempty word, start cell and direction on the
square grid, `canPlace` returns true exactly when the claim's three
conditions hold: covered cells in bounds, the boundary cells along the
axis empty or off grid, and each covered cell a valid crossing or an
empty cell with empty perpendicular neighbours. (The claim fails only for
the empty word, where `canPlace` still enforces its bounds check.) -/
theorem c5_canPlace (word : List Char) (row col : Int) (dir : Dir) (grid : Grid)
    (hw : word ≠ []) (hsq : gridSized grid grid.length) :
    canPlace word row col dir grid = canPlaceSpec word row col dir grid := by
  cases dir with
  | across => exact canPlace_eq_spec_across word row col grid hw hsq
  | down => exact canPlace_eq_spec_down word row col grid hw hsq

theorem emptyGrid_sized (size : Nat) : gridSized (emptyGrid size) size :=
  ⟨List.length_replicate size _,
   fun row hrow => by
     rw [List.eq_of_mem_replicate hrow]
     exact List.length_replicate size _⟩

/-- Witness for C5 on a concrete word and grid. -/
theorem c5_canPlace_witness :
    (("CAT".toList ≠ []) ∧ gridSized (emptyGrid 5) (emptyGrid 5).length) ∧
      canPlace "CAT".toList 2 1 .across (emptyGrid 5) =
        canPlaceSpec "CAT".toList 2 1 .across (emptyGrid 5) :=
  ⟨⟨by decide, emptyGrid_sized 5⟩,
   c5_canPlace "CAT".toList 2 1 .across (emptyGrid 5) (by decide) (emptyGrid_sized 5)⟩

/-- The claim as stated, quantified over every word, fails for the empty
word: at start column 14 on a 13-grid the source's bounds check rejects,
while all three conditions of the claim hold vacuously. -/
theorem c5_canPlace_counterexample :
    canPlaceSpec [] 0 14 .across (emptyGrid 13) = true ∧
      canPlace [] 0 14 .across (emptyGrid 13) = false := by
  constructor <;> decide

theorem replicate_get? {α : Type} (a : α) :
    ∀ (n m : Nat), (List.replicate n a).get? m = if m < n then some a else none
  | 0, m => by simp
  | n + 1, 0 => by simp [List.replicate]
  | n + 1, m + 1 => by
    rw [List.replicate, List.get?, replicate_get? a n m]
    by_cases h : m < n <;> simp [h, Nat.succ_lt_succ_iff]

theorem replicate_sized {α : Type} (size : Nat) (x : α) :
    matrixSized (List.replicate size (List.replicate size x)) size :=
  ⟨List.length_replicate size _,
   fun row hrow => by
     rw [List.eq_of_mem_replicate hrow]
     exact List.length_replicate size _⟩

theorem getEntry_replicate {α : Type} (size : Nat) (r c : Int) :
    getEntry (List.replicate size (List.replicate size (none : Option α))) r c = none := by
  unfold getEntry
  by_cases h : 0 ≤ r ∧ 0 ≤ c
  · rw [if_pos h, replicate_get?]
    by_cases hr : r.toNat < size
    · rw [if_pos hr]
      show ((List.replicate size (none : Option α)).get? c.toNat).getD none = none
      rw [replicate_get?]
      by_cases hc : c.toNat < size
      · rw [if_pos hc]
        rfl
      · rw [if_neg hc]
        rfl
    · rw [if_neg hr]
  · rw [if_neg h]

theorem setEntry_sized {α : Type} {m : List (List (Option α))} {size : Nat}
    (h : matrixSized m size) (r c : Int) (v : α) :
    matrixSized (setEntry m r c v) size := by
  unfold setEntry
  by_cases h0 : 0 ≤ r ∧ 0 ≤ c
  · rw [if_pos h0]
    cases hg : m.get? r.toNat with
    | none => exact h
    | some row =>
      refine ⟨by rw [List.length_set]; exact h.1, ?_⟩
      intro row2 hrow2
      rcases List.mem_or_eq_of_mem_set hrow2 with h1 | h1
      · exact h.2 row2 h1
      · rw [h1, List.length_set]
        exact h.2 row (List.get?_mem hg)
  · rw [if_neg h0]
    exact h

theorem getEntry_setEntry_ne {α : Type} (m : List (List (Option α))) (r c r2 c2 : Int)
    (v : α) (h : ¬(r2 = r ∧ c2 = c)) :
    getEntry (setEntry m r c v) r2 c2 = getEntry m r2 c2 := by
  unfold setEntry
  by_cases h0 : 0 ≤ r ∧ 0 ≤ c
  · rw [if_pos h0]
    cases hg : m.get? r.toNat with
    | none => rfl
    | some row =>
      show getEntry (m.set r.toNat (row.set c.toNat (some v))) r2 c2 = getEntry m r2 c2
      unfold getEntry
      by_cases h1 : 0 ≤ r2 ∧ 0 ≤ c2
      · rw [if_pos h1, if_pos h1]
        by_cases hr : r.toNat = r2.toNat
        · have hre : r2 = r := by omega
          have hcn : c.toNat ≠ c2.toNat := by
            have : ¬(c2 = c) := fun hc => h ⟨hre, hc⟩
            omega
          have hlt : r.toNat < m.length := by
            by_contra habs
            rw [List.get?_eq_none.mpr (by omega)] at hg
            exact Option.noConfusion hg
          rw [← hr, List.get?_set_eq_of_lt _ hlt, hg]
          show ((row.set c.toNat (some v)).get? c2.toNat).getD none =
            (row.get? c2.toNat).getD none
          rw [List.get?_set_ne _ _ hcn]
        · rw [List.get?_set_ne _ _ hr]
      · rw [if_neg h1, if_neg h1]
  · rw [if_neg h0]

theorem getEntry_setEntry_same {α : Type} {m : List (List (Option α))} {size : Nat}
    (hm : matrixSized m size) {r c : Int} (hr : 0 ≤ r) (hr2 : r < (size : Int))
    (hc : 0 ≤ c) (hc2 : c < (size : Int)) (v : α) :
    getEntry (setEntry m r c v) r c = some v := by
  obtain ⟨hm1, hm2⟩ := hm
  have hrn : r.toNat < m.length := by omega
  obtain ⟨row, hrow⟩ : ∃ row, m.get? r.toNat = some row := by
    cases hg : m.get? r.toNat with
    | none =>
      rw [List.get?_eq_none] at hg
      omega
    | some row => exact ⟨row, rfl⟩
  have hcn : c.toNat < row.length := by
    have := hm2 row (List.get?_mem hrow)
    omega
  unfold setEntry getEntry
  rw [if_pos ⟨hr, hc⟩, if_pos ⟨hr, hc⟩, hrow]
  show (match (m.set r.toNat (row.set c.toNat (some v))).get? r.toNat with
    | some row2 => (row2.get? c.toNat).getD none
    | none => none) = some v
  rw [List.get?_set_eq_of_lt _ hrn]
  show ((row.set c.toNat (some v)).get? c.toNat).getD none = some v
  rw [List.get?_set_eq_of_lt _ hcn]
  rfl

theorem numFold_snd (grid : Grid) (size : Nat) :
    ∀ (cells : List (Nat × Nat)) (acc : List (List (Option Nat)) × Nat),
      (cells.foldl (numStep grid size) acc).2 =
        acc.2 + cells.countP (fun rc => isStart grid size (rc.1 : Int) (rc.2 : Int))
  | [], acc => by simp
  | x :: rest, acc => by
    rw [List.foldl_cons, List.countP_cons, numFold_snd grid size rest]
    unfold numStep
    by_cases h : isStart grid size (x.1 : Int) (x.2 : Int) = true
    · rw [if_pos h]
      simp [h]
      omega
    · rw [if_neg h]
      simp [h]

theorem numFold_untouched (grid : Grid) (size : Nat) (r c : Int) :
    ∀ (cells : List (Nat × Nat)) (acc : List (List (Option Nat)) × Nat),
      (∀ rc ∈ cells, ¬((rc.1 : Int) = r ∧ (rc.2 : Int) = c)) →
      getEntry (cells.foldl (numStep grid size) acc).1 r c = getEntry acc.1 r c
  | [], acc, _ => rfl
  | x :: rest, acc, h => by
    rw [List.foldl_cons, numFold_untouched grid size r c rest _
      (fun rc hrc => h rc (List.mem_cons_of_mem _ hrc))]
    unfold numStep
    by_cases hx : isStart grid size (x.1 : Int) (x.2 : Int) = true
    · rw [if_pos hx]
      exact getEntry_setEntry_ne _ _ _ _ _ _
        (fun he => h x (List.mem_cons_self _ _) ⟨he.1.symm, he.2.symm⟩)
    · rw [if_neg hx]

theorem numFold_sized (grid : Grid) (size : Nat) :
    ∀ (cells : List (Nat × Nat)) (acc : List (List (Option Nat)) × Nat),
      matrixSized acc.1 size →
      matrixSized (cells.foldl (numStep grid size) acc).1 size
  | [], _, h => h
  | x :: rest, acc, h => by
    rw [List.foldl_cons]
    apply numFold_sized grid size rest
    unfold numStep
    by_cases hx : isStart grid size (x.1 : Int) (x.2 : Int) = true
    · rw [if_pos hx]
      show matrixSized (setEntry acc.1 (x.1 : Int) (x.2 : Int) acc.2) size
      exact setEntry_sized h _ _ _
    · rw [if_neg hx]
      exact h

theorem numFold_filterMap (grid : Grid) (size : Nat) :
    ∀ (cells : List (Nat × Nat)) (acc : List (List (Option Nat)) × Nat),
      cells.Nodup →
      (∀ rc ∈ cells, getEntry acc.1 (rc.1 : Int) (rc.2 : Int) = none) →
      (∀ rc ∈ cells, rc.1 < size ∧ rc.2 < size) →
      matrixSized acc.1 size →
      cells.filterMap
          (fun rc => getEntry (cells.foldl (numStep grid size) acc).1 (rc.1 : Int) (rc.2 : Int)) =
        List.range' acc.2 (cells.countP (fun rc => isStart grid size (rc.1 : Int) (rc.2 : Int)))
  | [], acc, _, _, _, _ => by simp
  | x :: rest, acc, hnd, hnone, hbnd, hsz => by
    have hndr := (List.nodup_cons.mp hnd).2
    have hxnr : x ∉ rest := (List.nodup_cons.mp hnd).1
    have hxval : getEntry ((x :: rest).foldl (numStep grid size) acc).1 (x.1 : Int) (x.2 : Int) =
        if isStart grid size (x.1 : Int) (x.2 : Int) = true then some acc.2 else none := by
      rw [List.foldl_cons, numFold_untouched grid size _ _ rest _
        (fun rc hrc he => hxnr (by
          have h1 : rc.1 = x.1 := by omega
          have h2 : rc.2 = x.2 := by omega
          have : rc = x := Prod.ext h1 h2
          rwa [← this]))]
      unfold numStep
      by_cases hx : isStart grid size (x.1 : Int) (x.2 : Int) = true
      · rw [if_pos hx, if_pos hx]
        exact getEntry_setEntry_same hsz (by omega)
          (by
            have := (hbnd x (List.mem_cons_self _ _)).1
            omega)
          (by omega)
          (by
            have := (hbnd x (List.mem_cons_self _ _)).2
            omega) _
      · rw [if_neg hx, if_neg hx]
        exact hnone x (List.mem_cons_self _ _)
    have hrest : ∀ rc ∈ rest,
        getEntry ((x :: rest).foldl (numStep grid size) acc).1 (rc.1 : Int) (rc.2 : Int) =
          getEntry (rest.foldl (numStep grid size) (numStep grid size acc x)).1
            (rc.1 : Int) (rc.2 : Int) := by
      intro rc hrc
      rw [List.foldl_cons]
    rw [List.filterMap_cons, List.countP_cons]
    by_cases hx : isStart grid size (x.1 : Int) (x.2 : Int) = true
    · rw [hxval, if_pos hx]
      have hstep1 : (numStep grid size acc x).1 = setEntry acc.1 (x.1 : Int) (x.2 : Int) acc.2 := by
        unfold numStep
        rw [if_pos hx]
      have hstep2 : (numStep grid size acc x).2 = acc.2 + 1 := by
        unfold numStep
        rw [if_pos hx]
      have hrec := numFold_filterMap grid size rest (numStep grid size acc x) hndr
        (by
          intro rc hrc
          rw [hstep1, getEntry_setEntry_ne _ _ _ _ _ _
            (fun he => hxnr (by
              have h1 : rc.1 = x.1 := by omega
              have h2 : rc.2 = x.2 := by omega
              have : rc = x := Prod.ext h1 h2
              rwa [← this]))]
          exact hnone rc (List.mem_cons_of_mem _ hrc))
        (fun rc hrc => hbnd rc (List.mem_cons_of_mem _ hrc))
        (by
          rw [hstep1]
          exact setEntry_sized hsz _ _ _)
      have hfm : rest.filterMap
          (fun rc => getEntry ((x :: rest).foldl (numStep grid size) acc).1 (rc.1 : Int) (rc.2 : Int)) =
          rest.filterMap
            (fun rc => getEntry (rest.foldl (numStep grid size) (numStep grid size acc x)).1
              (rc.1 : Int) (rc.2 : Int)) :=
        List.filterMap_congr (fun rc hrc => hrest rc hrc)
      rw [hfm, hrec, hstep2]
      simp [hx]
      rw [List.range'_succ]
    · rw [hxval, if_neg hx]
      have hstep1 : numStep grid size acc x = acc := by
        unfold numStep
        rw [if_neg hx]
      have hrec := numFold_filterMap grid size rest acc hndr
        (fun rc hrc => hnone rc (List.mem_cons_of_mem _ hrc))
        (fun rc hrc => hbnd rc (List.mem_cons_of_mem _ hrc))
        hsz
      have hfm : rest.filterMap
          (fun rc => getEntry ((x :: rest).foldl (numStep grid size) acc).1 (rc.1 : Int) (rc.2 : Int)) =
          rest.filterMap
            (fun rc => getEntry (rest.foldl (numStep grid size) acc).1 (rc.1 : Int) (rc.2 : Int)) := by
        apply List.filterMap_congr
        intro rc hrc
        rw [hrest rc hrc, hstep1]
      rw [hfm, hrec]
      simp [hx]

theorem rowMajorCellsHW_eq_product (h w : Nat) :
    rowMajorCellsHW h w = (List.range h) ×ˢ (List.range w) := rfl

theorem mem_rowMajorCellsHW {h w : Nat} {rc : Nat × Nat} :
    rc ∈ rowMajorCellsHW h w ↔ rc.1 < h ∧ rc.2 < w := by
  rw [rowMajorCellsHW_eq_product]
  cases rc
  rw [List.mem_product]
  simp [List.mem_range]

theorem mem_rowMajorCells {size : Nat} {rc : Nat × Nat} :
    rc ∈ rowMajorCells size ↔ rc.1 < size ∧ rc.2 < size :=
  mem_rowMajorCellsHW

theorem rowMajorCellsHW_nodup (h w : Nat) : (rowMajorCellsHW h w).Nodup := by
  rw [rowMajorCellsHW_eq_product]
  exact (List.nodup_range h).product (List.nodup_range w)

theorem rowMajorCells_nodup (size : Nat) : (rowMajorCells size).Nodup :=
  rowMajorCellsHW_nodup size size

theorem emptyNums_sized (size : Nat) : matrixSized (emptyNums size) size :=
  replicate_sized size _

theorem numbersMatrix_sized (grid : Grid) (size : Nat) :
    matrixSized (numbersMatrix grid size) size :=
  numFold_sized grid size _ _ (emptyNums_sized size)

theorem numbersMatrix_oob (grid : Grid) (size : Nat) (r c : Int)
    (h : ¬(0 ≤ r ∧ r < (size : Int) ∧ 0 ≤ c ∧ c < (size : Int))) :
    getEntry (numbersMatrix grid size) r c = none := by
  unfold numbersMatrix
  rw [numFold_untouched grid size r c _ _ ?_]
  · exact getEntry_replicate size r c
  · intro rc hrc habs
    rw [mem_rowMajorCells] at hrc
    omega

theorem numFold_isSome (grid : Grid) (size : Nat) :
    ∀ (cells : List (Nat × Nat)) (acc : List (List (Option Nat)) × Nat),
      cells.Nodup →
      (∀ rc ∈ cells, getEntry acc.1 (rc.1 : Int) (rc.2 : Int) = none) →
      (∀ rc ∈ cells, rc.1 < size ∧ rc.2 < size) →
      matrixSized acc.1 size →
      ∀ rc ∈ cells,
        (getEntry (cells.foldl (numStep grid size) acc).1 (rc.1 : Int) (rc.2 : Int)).isSome =
          isStart grid size (rc.1 : Int) (rc.2 : Int)
  | [], _, _, _, _, _, rc, hrc => by simp at hrc
  | x :: rest, acc, hnd, hnone, hbnd, hsz, rc, hrc => by
    have hndr := (List.nodup_cons.mp hnd).2
    have hxnr : x ∉ rest := (List.nodup_cons.mp hnd).1
    rcases List.mem_cons.mp hrc with he | hm
    · subst he
      rw [List.foldl_cons, numFold_untouched grid size _ _ rest _
        (fun rc2 hrc2 habs => hxnr (by
          have h1 : rc2.1 = rc.1 := by omega
          have h2 : rc2.2 = rc.2 := by omega
          have : rc2 = rc := Prod.ext h1 h2
          rwa [← this]))]
      unfold numStep
      by_cases hx : isStart grid size (rc.1 : Int) (rc.2 : Int) = true
      · rw [if_pos hx, hx]
        rw [getEntry_setEntry_same hsz (by omega)
          (by
            have := (hbnd rc (List.mem_cons_self _ _)).1
            omega)
          (by omega)
          (by
            have := (hbnd rc (List.mem_cons_self _ _)).2
            omega)]
        rfl
      · rw [if_neg hx, hnone rc (List.mem_cons_self _ _)]
        simp only [Bool.not_eq_true] at hx
        rw [hx]
        rfl
    · rw [List.foldl_cons]
      apply numFold_isSome grid size rest (numStep grid size acc x) hndr
      · intro rc2 hrc2
        unfold numStep
        by_cases hx : isStart grid size (x.1 : Int) (x.2 : Int) = true
        · rw [if_pos hx]
          show getEntry (setEntry acc.1 (x.1 : Int) (x.2 : Int) acc.2) _ _ = none
          rw [getEntry_setEntry_ne _ _ _ _ _ _
            (fun habs => hxnr (by
              have h1 : rc2.1 = x.1 := by omega
              have h2 : rc2.2 = x.2 := by omega
              have : rc2 = x := Prod.ext h1 h2
              rwa [← this]))]
          exact hnone rc2 (List.mem_cons_of_mem _ hrc2)
        · rw [if_neg hx]
          exact hnone rc2 (List.mem_cons_of_mem _ hrc2)
      · exact fun rc2 hrc2 => hbnd rc2 (List.mem_cons_of_mem _ hrc2)
      · unfold numStep
        by_cases hx : isStart grid size (x.1 : Int) (x.2 : Int) = true
        · rw [if_pos hx]
          show matrixSized (setEntry acc.1 (x.1 : Int) (x.2 : Int) acc.2) size
          exact setEntry_sized hsz _ _ _
        · rw [if_neg hx]
          exact hsz
      · exact hm

theorem numbersMatrix_isSome (grid : Grid) (size : Nat) (r c : Int) :
    (getEntry (numbersMatrix grid size) r c).isSome = isStart grid size r c := by
  by_cases h : 0 ≤ r ∧ r < (size : Int) ∧ 0 ≤ c ∧ c < (size : Int)
  · have hmem : (r.toNat, c.toNat) ∈ rowMajorCells size := by
      rw [mem_rowMajorCells]
      exact ⟨by omega, by omega⟩
    have := numFold_isSome grid size (rowMajorCells size) (emptyNums size, 1)
      (rowMajorCells_nodup size)
      (fun rc _ => getEntry_replicate size _ _)
      (fun rc hrc => mem_rowMajorCells.mp hrc)
      (emptyNums_sized size)
      (r.toNat, c.toNat) hmem
    rw [show ((r.toNat : Nat) : Int) = r by omega, show ((c.toNat : Nat) : Int) = c by omega]
      at this
    exact this
  · rw [numbersMatrix_oob grid size r c h]
    unfold isStart isLetterCellB
    have : decide (0 ≤ r ∧ r < (size : Int) ∧ 0 ≤ c ∧ c < (size : Int)) = false :=
      decide_eq_false h
    rw [this]
    rfl

theorem numbersMatrix_scan (grid : Grid) (size : Nat) :
    (rowMajorCells size).filterMap
        (fun rc => getEntry (numbersMatrix grid size) (rc.1 : Int) (rc.2 : Int)) =
      List.range' 1
        ((rowMajorCells size).countP
          (fun rc => isStart grid size (rc.1 : Int) (rc.2 : Int))) :=
  numFold_filterMap grid size (rowMajorCells size) (emptyNums size, 1)
    (rowMajorCells_nodup size)
    (fun rc _ => getEntry_replicate size _ _)
    (fun rc hrc => mem_rowMajorCells.mp hrc)
    (emptyNums_sized size)

theorem isStart_eq_startsOr (grid : Grid) (size : Nat) (r c : Int) :
    isStart grid size r c = (startsAcross grid size r c || startsDown grid size r c) := by
  unfold isStart startsAcross startsDown
  cases h : isLetterCellB grid size r c <;> simp [h]

theorem placeWord_sized {size : Nat} :
    ∀ (word : List Char) (row col : Int) (dir : Dir) {g : Grid},
      matrixSized g size → matrixSized (placeWord word row col dir g) size
  | [], _, _, _, _, h => h
  | ch :: rest, row, col, dir, g, h => by
    cases dir with
    | across =>
      exact placeWord_sized rest row (col + 1) .across (setEntry_sized h row col ch)
    | down =>
      exact placeWord_sized rest (row + 1) col .down (setEntry_sized h row col ch)

theorem placeLoop_sized {size : Nat} :
    ∀ (ws : List WordEntry) (g : Grid) (ps : List Placement) (st : Nat),
      matrixSized g size → matrixSized (placeLoop size ws g ps st).1 size
  | [], _, _, _, h => h
  | w :: ws, g, ps, st, h => by
    rw [placeLoop]
    cases hres : (tryLetters w.answer g size
        (shuffleList (firstOccDedupAux [] w.answer) st).1
        (shuffleList (firstOccDedupAux [] w.answer) st).2).1 with
    | none => exact placeLoop_sized ws g ps _ h
    | some cand =>
      obtain ⟨r, c, d⟩ := cand
      exact placeLoop_sized ws _ _ _ (placeWord_sized w.answer r c d h)

theorem headD_length {g : Grid} {size : Nat} (h : matrixSized g size) :
    (g.headD []).length = size ∨ size = 0 := by
  cases g with
  | nil =>
    right
    have := h.1
    simpa using this.symm
  | cons row rows =>
    left
    exact h.2 row (List.mem_cons_self _ _)

theorem foldl_placeWord_sized {size : Nat} :
    ∀ (keep : List Placement) {g : Grid}, matrixSized g size →
      matrixSized (keep.foldl (fun g2 p => placeWord p.answer p.row p.col p.dir g2) g) size
  | [], _, h => h
  | p :: rest, _, h => by
    rw [List.foldl_cons]
    exact foldl_placeWord_sized rest (placeWord_sized p.answer p.row p.col p.dir h)

theorem prune_sized {g : Grid} {size : Nat} (ps : List Placement)
    (h : matrixSized g size) :
    matrixSized (pruneIsolatedWords g ps).1 size := by
  unfold pruneIsolatedWords
  by_cases h1 : ps.length ≤ 1
  · rw [if_pos h1]
    exact h
  · rw [if_neg h1]
    by_cases h2 : (ps.filter (hasCross ps)).length = ps.length
    · rw [if_pos h2]
      exact h
    · rw [if_neg h2]
      show matrixSized ((ps.filter (hasCross ps)).foldl
        (fun g2 p => placeWord p.answer p.row p.col p.dir g2)
        (List.replicate g.length (List.replicate (g.headD []).length none))) size
      have hbase : matrixSized
          (List.replicate g.length (List.replicate (g.headD []).length (none : Option Char)))
          size := by
        rcases headD_length h with hw | hz
        · rw [h.1, hw]
          exact replicate_sized size _
        · rw [h.1, hz]
          exact ⟨List.length_replicate 0 _, fun row hrow => absurd hrow (by simp)⟩
      exact foldl_placeWord_sized _ hbase

theorem listSwap_length {α : Type} (l : List α) (i j : Nat) :
    (listSwap l i j).length = l.length := by
  unfold listSwap
  cases l.get? i <;> cases l.get? j <;> simp

theorem shuffleAux_length {α : Type} :
    ∀ (k st : Nat) (l : List α), ((shuffleAux st l k).1).length = l.length
  | 0, _, _ => rfl
  | k + 1, st, l => by
    rw [shuffleAux, shuffleAux_length k]
    exact listSwap_length l _ _

theorem shuffleList_length {α : Type} (l : List α) (st : Nat) :
    ((shuffleList l st).1).length = l.length :=
  shuffleAux_length _ _ _

theorem shuffleList_ne_nil {words : List WordEntry} (st : Nat) (hw : words ≠ []) :
    (shuffleList words st).1 ≠ [] := by
  intro habs
  apply hw
  have := shuffleList_length words st
  rw [habs] at this
  exact List.length_eq_zero.mp this.symm

theorem generateFromList_grid (first : WordEntry) (rest : List WordEntry)
    (st size : Nat) :
    (generateFromList (first :: rest) st size).grid =
      (prunedState first rest st size).1 := rfl

theorem generateFromList_numbers (first : WordEntry) (rest : List WordEntry)
    (st size : Nat) :
    (generateFromList (first :: rest) st size).numbers =
      numbersMatrix (prunedState first rest st size).1 size := rfl

theorem generateFromList_placements (first : WordEntry) (rest : List WordEntry)
    (st size : Nat) :
    (generateFromList (first :: rest) st size).placements =
      (prunedState first rest st size).2.map
        (fun p => { p with
          number := getEntry (numbersMatrix (prunedState first rest st size).1 size)
            p.row p.col }) := rfl

theorem generateCrosswordFromWords_eq (words : List WordEntry) (seed size : Nat) :
    generateCrosswordFromWords words seed size =
      generateFromList (shuffleList words (seed % pow32)).1
        (shuffleList words (seed % pow32)).2 size := rfl

theorem prunedState_grid_sized (first : WordEntry) (rest : List WordEntry)
    (st size : Nat) : matrixSized (prunedState first rest st size).1 size := by
  unfold prunedState
  apply prune_sized
  unfold loopState
  apply placeLoop_sized
  exact placeWord_sized _ _ _ _ (emptyGrid_sized size)

/-- C8 (amended): whenever the candidate list is nonempty, the returned
numbering is a square matrix of the grid's dimensions; a cell holds a
number exactly when it starts an across or down letter-run of length at
least 2 (letter cell with empty-or-edge predecessor and letter
successor); the numbers read in row-major scan order are exactly
1, 2, 3, ... with one number per start cell; and every placement's number
field is the numbering entry at its start cell. (With an empty candidate
list the source returns an empty numbering matrix next to a full-size
grid, so the dimension clause of the claim fails there.) -/
theorem c8_numbering (words : List WordEntry) (seed size : Nat) (res : GenResult)
    (hw : words ≠ []) (hres : res = generateCrosswordFromWords words seed size) :
    matrixSized res.numbers size ∧
    matrixSized res.grid size ∧
    (∀ r c : Int,
      (getEntry res.numbers r c).isSome = isStart res.grid size r c) ∧
    (∀ r c : Int,
      isStart res.grid size r c =
        (startsAcross res.grid size r c || startsDown res.grid size r c)) ∧
    ((rowMajorCells size).filterMap
        (fun rc => getEntry res.numbers (rc.1 : Int) (rc.2 : Int)) =
      List.range' 1
        ((rowMajorCells size).countP
          (fun rc => isStart res.grid size (rc.1 : Int) (rc.2 : Int)))) ∧
    (∀ p ∈ res.placements, p.number = getEntry res.numbers p.row p.col) := by
  subst hres
  rw [generateCrosswordFromWords_eq]
  cases hcopy : (shuffleList words (seed % pow32)).1 with
  | nil => exact absurd hcopy (shuffleList_ne_nil _ hw)
  | cons first rest =>
    rw [generateFromList_grid, generateFromList_numbers, generateFromList_placements]
    refine ⟨numbersMatrix_sized _ size, prunedState_grid_sized first rest _ size,
      fun r c => numbersMatrix_isSome _ size r c,
      fun r c => isStart_eq_startsOr _ size r c,
      numbersMatrix_scan _ size, ?_⟩
    intro p hp
    rcases List.mem_map.mp hp with ⟨q, hq, rfl⟩
    rfl

/-- Witness for C8 at a concrete one-word list. -/
theorem c8_numbering_witness :
    matrixSized (generateCrosswordFromWords [⟨"CAT".toList, ""⟩] 0 5).numbers 5 :=
  (c8_numbering [⟨"CAT".toList, ""⟩] 0 5 _ (by decide) rfl).1

/-- The dimension clause of C8 as stated fails on the degenerate empty
candidate list: the grid has 13 rows while the numbering matrix is empty. -/
theorem c8_numbering_counterexample :
    (generateCrosswordFromWords [] 0 13).numbers.length ≠
      (generateCrosswordFromWords [] 0 13).grid.length := by
  decide

theorem chooseAux_zero (words : List WordEntry) (seed size minW salt : Nat)
    (best : Option (GenResult × Nat)) :
    chooseAux words seed size minW salt 0 best =
      match best with
      | some b => b.1
      | none => generateCrosswordFromWords words seed size := rfl

theorem chooseAux_succ (words : List WordEntry) (seed size minW salt fuel : Nat)
    (best : Option (GenResult × Nat)) :
    chooseAux words seed size minW salt (fuel + 1) best =
      (if (generateCrosswordFromWords words (seed + salt) size).placements.length ≥ minW
        then generateCrosswordFromWords words (seed + salt) size
        else chooseAux words seed size minW (salt + 1) fuel
          (match best with
            | none => some (generateCrosswordFromWords words (seed + salt) size,
                quality (generateCrosswordFromWords words (seed + salt) size))
            | some b =>
              if quality (generateCrosswordFromWords words (seed + salt) size) > b.2 then
                some (generateCrosswordFromWords words (seed + salt) size,
                  quality (generateCrosswordFromWords words (seed + salt) size))
              else some b)) := rfl

theorem chooseAux_succ_some (words : List WordEntry) (seed size minW salt fuel : Nat)
    (b : GenResult) (q : Nat) :
    chooseAux words seed size minW salt (fuel + 1) (some (b, q)) =
      (if (generateCrosswordFromWords words (seed + salt) size).placements.length ≥ minW
        then generateCrosswordFromWords words (seed + salt) size
        else chooseAux words seed size minW (salt + 1) fuel
          (if quality (generateCrosswordFromWords words (seed + salt) size) > q then
            some (generateCrosswordFromWords words (seed + salt) size,
              quality (generateCrosswordFromWords words (seed + salt) size))
          else some (b, q))) := rfl

theorem chooseAux_succ_none (words : List WordEntry) (seed size minW salt fuel : Nat) :
    chooseAux words seed size minW salt (fuel + 1) none =
      (if (generateCrosswordFromWords words (seed + salt) size).placements.length ≥ minW
        then generateCrosswordFromWords words (seed + salt) size
        else chooseAux words seed size minW (salt + 1) fuel
          (some (generateCrosswordFromWords words (seed + salt) size,
            quality (generateCrosswordFromWords words (seed + salt) size)))) := rfl

theorem chooseAux_early (words : List WordEntry) (seed size minW : Nat) :
    ∀ (fuel salt : Nat) (best : Option (GenResult × Nat)) (s0 : Nat),
      salt ≤ s0 → s0 < salt + fuel →
      minW ≤ (generateCrosswordFromWords words (seed + s0) size).placements.length →
      (∀ s, salt ≤ s → s < s0 →
        (generateCrosswordFromWords words (seed + s) size).placements.length < minW) →
      chooseAux words seed size minW salt fuel best =
        generateCrosswordFromWords words (seed + s0) size
  | 0, salt, best, s0, h1, h2, _, _ => by omega
  | fuel + 1, salt, best, s0, h1, h2, h3, h4 => by
    rw [chooseAux_succ]
    by_cases he : salt = s0
    · subst he
      rw [if_pos h3]
    · have hlt : (generateCrosswordFromWords words (seed + salt) size).placements.length
          < minW := h4 salt (le_refl _) (by omega)
      rw [if_neg (by omega)]
      exact chooseAux_early words seed size minW fuel (salt + 1) _ s0 (by omega) (by omega)
        h3 (fun s hs1 hs2 => h4 s (by omega) hs2)

theorem chooseAux_best (words : List WordEntry) (seed size minW : Nat) :
    ∀ (fuel salt : Nat) (b : GenResult) (sb q : Nat),
      (∀ s, salt ≤ s → s < salt + fuel →
        (generateCrosswordFromWords words (seed + s) size).placements.length < minW) →
      b = generateCrosswordFromWords words (seed + sb) size →
      sb < salt →
      q = quality b →
      (∀ s, s < salt → quality (generateCrosswordFromWords words (seed + s) size) ≤ q) →
      (∀ s, s < sb → quality (generateCrosswordFromWords words (seed + s) size) < q) →
      ∃ s, s < salt + fuel ∧
        chooseAux words seed size minW salt fuel (some (b, q)) =
          generateCrosswordFromWords words (seed + s) size ∧
        (∀ s2, s2 < salt + fuel →
          quality (generateCrosswordFromWords words (seed + s2) size) ≤
            quality (generateCrosswordFromWords words (seed + s) size)) ∧
        (∀ s2, s2 < s →
          quality (generateCrosswordFromWords words (seed + s2) size) <
            quality (generateCrosswordFromWords words (seed + s) size))
  | 0, salt, b, sb, q, _, hb, hsb, hq, hmax, hstrict => by
    refine ⟨sb, by omega, by rw [chooseAux_zero, hb], ?_, ?_⟩
    · intro s2 hs2
      rw [← hb, ← hq]
      exact hmax s2 (by omega)
    · intro s2 hs2
      rw [← hb, ← hq]
      exact hstrict s2 hs2
  | fuel + 1, salt, b, sb, q, hbelow, hb, hsb, hq, hmax, hstrict => by
    rw [chooseAux_succ_some]
    rw [if_neg (by
      have := hbelow salt (le_refl _) (by omega)
      omega)]
    by_cases himp : quality (generateCrosswordFromWords words (seed + salt) size) > q
    · rw [if_pos himp]
      have := chooseAux_best words seed size minW fuel (salt + 1)
        (generateCrosswordFromWords words (seed + salt) size) salt
        (quality (generateCrosswordFromWords words (seed + salt) size))
        (fun s hs1 hs2 => hbelow s (by omega) (by omega))
        rfl (by omega) rfl
        (by
          intro s hs
          rcases Nat.lt_succ_iff_lt_or_eq.mp hs with h | h
          · have := hmax s h
            omega
          · subst h
            exact le_refl _)
        (by
          intro s hs
          have := hmax s hs
          omega)
      obtain ⟨s, hs1, hs2, hs3, hs4⟩ := this
      exact ⟨s, by omega, hs2,
        fun s2 h2 => by
          rcases Nat.lt_or_ge s2 (salt + 1) with hc | hc
          · calc quality (generateCrosswordFromWords words (seed + s2) size) ≤
                quality (generateCrosswordFromWords words (seed + salt) size) := by
                  rcases Nat.lt_succ_iff_lt_or_eq.mp hc with h | h
                  · have := hmax s2 h
                    omega
                  · subst h
                    exact le_refl _
              _ ≤ quality (generateCrosswordFromWords words (seed + s) size) :=
                hs3 salt (by omega)
          · exact hs3 s2 (by omega),
        hs4⟩
    · rw [if_neg himp]
      have := chooseAux_best words seed size minW fuel (salt + 1) b sb q
        (fun s hs1 hs2 => hbelow s (by omega) (by omega))
        hb (by omega) hq
        (by
          intro s hs
          rcases Nat.lt_succ_iff_lt_or_eq.mp hs with h | h
          · exact hmax s h
          · subst h
            omega)
        hstrict
      obtain ⟨s, hs1, hs2, hs3, hs4⟩ := this
      exact ⟨s, by omega, hs2, fun s2 h2 => by
        rcases Nat.lt_or_ge s2 (salt + 1) with hc | hc
        · exact hs3 s2 (by omega)
        · exact hs3 s2 (by omega), hs4⟩

/-- C4: the orchestrator runs trials at seed+salt for salt below maxSalts
with quality placed*10 + intersections; it returns the trial at the first
salt whose placed count reaches minWords; if no salt reaches the
threshold it returns the highest-quality trial with the earliest salt
winning ties; and only when no trial ran at all (maxSalts = 0) does it
fall back to one extra trial at the base seed. -/
theorem c4_orchestrator (words : List WordEntry) (seed size minW maxS : Nat) :
    (∀ s0, s0 < maxS → minW ≤ placedCount words seed size s0 →
      (∀ s, s < s0 → placedCount words seed size s < minW) →
      chooseLayout words seed size minW maxS = trial words seed size s0) ∧
    ((∀ s, s < maxS → placedCount words seed size s < minW) → 0 < maxS →
      ∃ s, s < maxS ∧
        chooseLayout words seed size minW maxS = trial words seed size s ∧
        (∀ s2, s2 < maxS →
          trialQuality words seed size s2 ≤ trialQuality words seed size s) ∧
        (∀ s2, s2 < s →
          trialQuality words seed size s2 < trialQuality words seed size s)) ∧
    (maxS = 0 →
      chooseLayout words seed size minW maxS =
        generateCrosswordFromWords words seed size) := by
  refine ⟨?_, ?_, ?_⟩
  · intro s0 hs0 hmin hbefore
    unfold chooseLayout placedCount trial at *
    exact chooseAux_early words seed size minW maxS 0 none s0 (by omega) (by omega)
      hmin (fun s _ hs => hbefore s hs)
  · intro hbelow hpos
    unfold chooseLayout placedCount trial trialQuality at *
    obtain ⟨fuel, hfuel⟩ : ∃ fuel, maxS = fuel + 1 :=
      ⟨maxS - 1, by omega⟩
    subst hfuel
    show ∃ s, s < fuel + 1 ∧
      chooseAux words seed size minW 0 (fuel + 1) none =
        generateCrosswordFromWords words (seed + s) size ∧
      (∀ s2, s2 < fuel + 1 →
        quality (generateCrosswordFromWords words (seed + s2) size) ≤
          quality (generateCrosswordFromWords words (seed + s) size)) ∧
      (∀ s2, s2 < s →
        quality (generateCrosswordFromWords words (seed + s2) size) <
          quality (generateCrosswordFromWords words (seed + s) size))
    rw [chooseAux_succ_none, if_neg (by
      have := hbelow 0 (by omega)
      omega)]
    have := chooseAux_best words seed size minW fuel 1
      (generateCrosswordFromWords words (seed + 0) size) 0
      (quality (generateCrosswordFromWords words (seed + 0) size))
      (fun s hs1 hs2 => hbelow s (by omega))
      rfl (by omega) rfl
      (by
        intro s hs
        have : s = 0 := by omega
        subst this
        exact le_refl _)
      (fun s hs => by omega)
    obtain ⟨s, hs1, hs2, hs3, hs4⟩ := this
    refine ⟨s, by omega, hs2, ?_, hs4⟩
    intro s2 h2
    exact hs3 s2 (by omega)
  · intro h0
    subst h0
    rfl

/-- Witness for C4: a one-word list at minWords 1 exits at salt 0. -/
theorem c4_orchestrator_witness :
    chooseLayout [⟨"CAT".toList, ""⟩] 0 5 1 1 = trial [⟨"CAT".toList, ""⟩] 0 5 0 :=
  (c4_orchestrator [⟨"CAT".toList, ""⟩] 0 5 1 1).1 0 (by decide) (by decide)
    (fun s hs => absurd hs (by omega))

theorem cellsOf_nodup (p : Placement) : (cellsOf p).Nodup := by
  unfold cellsOf
  apply List.Nodup.map ?_ (List.nodup_range _)
  intro a b he
  cases hd : p.dir with
  | across =>
    unfold cellR cellC at he
    rw [hd] at he
    simp only [Prod.mk.injEq] at he
    omega
  | down =>
    unfold cellR cellC at he
    rw [hd] at he
    simp only [Prod.mk.injEq] at he
    omega

theorem countAt_cons (p : Placement) (rest : List Placement) (cell : Int × Int) :
    countAt (p :: rest) cell = (cellsOf p).count cell + countAt rest cell := by
  simp [countAt]

theorem countAt_filter_eq (f : Placement → Bool) (cell : Int × Int) :
    ∀ (ps : List Placement),
      (∀ q ∈ ps, cell ∈ cellsOf q → f q = true) →
      countAt (ps.filter f) cell = countAt ps cell
  | [], _ => rfl
  | p :: rest, h => by
    rw [List.filter_cons]
    by_cases hp : f p = true
    · rw [if_pos hp, countAt_cons, countAt_cons,
        countAt_filter_eq f cell rest (fun q hq => h q (List.mem_cons_of_mem _ hq))]
    · rw [if_neg hp, countAt_cons]
      have hz : (cellsOf p).count cell = 0 := by
        apply List.count_eq_zero.mpr
        intro habs
        exact hp (h p (List.mem_cons_self _ _) habs)
      rw [hz, countAt_filter_eq f cell rest (fun q hq => h q (List.mem_cons_of_mem _ hq))]
      omega

theorem hasCross_spec {ps : List Placement} {p : Placement} (h : hasCross ps p = true) :
    ∃ cell ∈ cellsOf p, 1 < countAt ps cell := by
  unfold hasCross at h
  rw [List.any_eq_true] at h
  obtain ⟨cell, hc1, hc2⟩ := h
  exact ⟨cell, hc1, of_decide_eq_true hc2⟩

theorem prune_placements (g : Grid) (ps : List Placement) :
    ((pruneIsolatedWords g ps).2 = ps ∧ ps.length ≤ 1) ∨
    (pruneIsolatedWords g ps).2 = ps.filter (hasCross ps) := by
  unfold pruneIsolatedWords
  by_cases h1 : ps.length ≤ 1
  · rw [if_pos h1]
    exact Or.inl ⟨rfl, h1⟩
  · rw [if_neg h1]
    by_cases h2 : (ps.filter (hasCross ps)).length = ps.length
    · rw [if_pos h2]
      right
      show ps = ps.filter (hasCross ps)
      exact (List.filter_eq_self.mpr (List.filter_length_eq_length.mp h2)).symm
    · rw [if_neg h2]
      right
      rfl

theorem prune_interlock (g : Grid) (ps : List Placement)
    (hlen : 1 < (pruneIsolatedWords g ps).2.length) :
    ∀ q ∈ (pruneIsolatedWords g ps).2,
      ∃ cell, cell ∈ cellsOf q ∧ 1 < countAt (pruneIsolatedWords g ps).2 cell := by
  rcases prune_placements g ps with ⟨heq, hle⟩ | heq
  · rw [heq] at hlen
    omega
  · intro q hq
    have hfilter : q ∈ ps.filter (hasCross ps) := by
      rw [← heq]
      exact hq
    rw [List.mem_filter] at hfilter
    obtain ⟨cell, hcell, hcnt⟩ := hasCross_spec hfilter.2
    have hcover : ∀ q2 ∈ ps, cell ∈ cellsOf q2 → hasCross ps q2 = true := by
      intro q2 hq2 hq2cell
      unfold hasCross
      rw [List.any_eq_true]
      exact ⟨cell, hq2cell, decide_eq_true hcnt⟩
    refine ⟨cell, hcell, ?_⟩
    rw [heq, countAt_filter_eq (hasCross ps) cell ps hcover]
    exact hcnt

theorem cellsOf_withNumber (p : Placement) (x : Option Nat) :
    cellsOf { p with number := x } = cellsOf p := rfl

theorem countAt_map (f : Placement → Option Nat) (cell : Int × Int) :
    ∀ (ps : List Placement),
      countAt (ps.map (fun p => { p with number := f p })) cell = countAt ps cell
  | [] => rfl
  | p :: rest => by
    rw [List.map_cons, countAt_cons, countAt_cons, cellsOf_withNumber,
      countAt_map f cell rest]

/-- C1: in every trial result with more than one placement, every
placement has a covered cell with coverage count above 1, i.e. it shares
that grid cell with some other placement in the list (each placement
covers each of its cells exactly once, by `cellsOf_nodup`). -/
theorem c1_interlock (words : List WordEntry) (seed size : Nat) (res : GenResult)
    (hres : res = generateCrosswordFromWords words seed size)
    (hlen : 1 < res.placements.length) :
    ∀ p ∈ res.placements, ∃ cell, cell ∈ cellsOf p ∧ 1 < countAt res.placements cell := by
  subst hres
  cases hcopy : (shuffleList words (seed % pow32)).1 with
  | nil =>
    have hplace : (generateCrosswordFromWords words seed size).placements = [] := by
      rw [generateCrosswordFromWords_eq, hcopy]
      rfl
    rw [hplace] at hlen
    simp at hlen
  | cons first rest =>
    have hplace : (generateCrosswordFromWords words seed size).placements =
        (prunedState first rest (shuffleList words (seed % pow32)).2 size).2.map
          (fun p => { p with
            number := getEntry (numbersMatrix
              (prunedState first rest (shuffleList words (seed % pow32)).2 size).1 size)
              p.row p.col }) := by
      rw [generateCrosswordFromWords_eq, hcopy, generateFromList_placements]
    rw [hplace] at hlen ⊢
    rw [List.length_map] at hlen
    intro p hp
    rcases List.mem_map.mp hp with ⟨q, hq, rfl⟩
    obtain ⟨cell, hc1, hc2⟩ := prune_interlock _ _ hlen q hq
    refine ⟨cell, ?_, ?_⟩
    · rw [cellsOf_withNumber]
      exact hc1
    · rw [countAt_map]
      exact hc2

/-- Witness for C1 on a concrete two-word puzzle. -/
theorem c1_interlock_witness :
    1 < (generateCrosswordFromWords [⟨"CAT".toList, ""⟩, ⟨"TOP".toList, ""⟩]
        0 5).placements.length ∧
      ∀ p ∈ (generateCrosswordFromWords [⟨"CAT".toList, ""⟩, ⟨"TOP".toList, ""⟩]
          0 5).placements,
        ∃ cell, cell ∈ cellsOf p ∧
          1 < countAt (generateCrosswordFromWords [⟨"CAT".toList, ""⟩, ⟨"TOP".toList, ""⟩]
            0 5).placements cell :=
  ⟨by decide, c1_interlock [⟨"CAT".toList, ""⟩, ⟨"TOP".toList, ""⟩] 0 5 _ rfl (by decide)⟩

theorem placeWord_across_ne :
    ∀ (word : List Char) (row col : Int) (g : Grid) (r c : Int),
      (∀ j : Nat, j < word.length → ¬(r = row ∧ c = col + (j : Int))) →
      getCell (placeWord word row col .across g) r c = getCell g r c
  | [], _, _, _, _, _, _ => rfl
  | ch :: rest, row, col, g, r, c, h => by
    show getCell (placeWord rest row (col + 1) .across (setCell g row col ch)) r c =
      getCell g r c
    rw [placeWord_across_ne rest row (col + 1) _ r c (by
      intro j hj ⟨h1, h2⟩
      exact h (j + 1) (by simpa using Nat.succ_lt_succ hj) ⟨h1, by push_cast at h2 ⊢; omega⟩)]
    exact getEntry_setEntry_ne g row col r c ch (by
      intro ⟨h1, h2⟩
      exact h 0 (by simp) ⟨h1, by simpa using h2⟩)

theorem placeWord_down_ne :
    ∀ (word : List Char) (row col : Int) (g : Grid) (r c : Int),
      (∀ j : Nat, j < word.length → ¬(r = row + (j : Int) ∧ c = col)) →
      getCell (placeWord word row col .down g) r c = getCell g r c
  | [], _, _, _, _, _, _ => rfl
  | ch :: rest, row, col, g, r, c, h => by
    show getCell (placeWord rest (row + 1) col .down (setCell g row col ch)) r c =
      getCell g r c
    rw [placeWord_down_ne rest (row + 1) col _ r c (by
      intro j hj ⟨h1, h2⟩
      exact h (j + 1) (by simpa using Nat.succ_lt_succ hj) ⟨by push_cast at h1 ⊢; omega, h2⟩)]
    exact getEntry_setEntry_ne g row col r c ch (by
      intro ⟨h1, h2⟩
      exact h 0 (by simp) ⟨by simpa using h1, h2⟩)

theorem placeWord_across_eq {size : Nat} :
    ∀ (word : List Char) (row col : Int) {g : Grid},
      matrixSized g size → 0 ≤ row → row < (size : Int) → 0 ≤ col →
      col + (word.length : Int) ≤ (size : Int) →
      ∀ (i : Nat), i < word.length →
        getCell (placeWord word row col .across g) row (col + (i : Int)) = word.get? i
  | [], _, _, _, _, _, _, _, _, i, hi => absurd hi (by simp)
  | ch :: rest, row, col, g, hsz, hr0, hr1, hc0, hc1, i, hi => by
    show getCell (placeWord rest row (col + 1) .across (setCell g row col ch))
      row (col + (i : Int)) = (ch :: rest).get? i
    cases i with
    | zero =>
      rw [show col + ((0 : Nat) : Int) = col by simp]
      rw [placeWord_across_ne rest row (col + 1) _ row col (by
        intro j hj ⟨h1, h2⟩
        omega)]
      show getEntry (setEntry g row col ch) row col = (ch :: rest).get? 0
      rw [getEntry_setEntry_same hsz hr0 hr1 hc0 (by
        have := List.length_cons ch rest
        push_cast at hc1
        omega) ch]
      rfl
    | succ j =>
      rw [show col + ((j + 1 : Nat) : Int) = (col + 1) + (j : Int) by push_cast; ring]
      rw [placeWord_across_eq rest row (col + 1)
        (show matrixSized (setCell g row col ch) size from setEntry_sized hsz _ _ _)
        hr0 hr1 (by omega) (by
          have := List.length_cons ch rest
          push_cast at hc1 ⊢
          omega) j (by simpa using Nat.lt_of_succ_lt_succ hi)]
      rfl

theorem placeWord_down_eq {size : Nat} :
    ∀ (word : List Char) (row col : Int) {g : Grid},
      matrixSized g size → 0 ≤ col → col < (size : Int) → 0 ≤ row →
      row + (word.length : Int) ≤ (size : Int) →
      ∀ (i : Nat), i < word.length →
        getCell (placeWord word row col .down g) (row + (i : Int)) col = word.get? i
  | [], _, _, _, _, _, _, _, _, i, hi => absurd hi (by simp)
  | ch :: rest, row, col, g, hsz, hc0, hc1, hr0, hr1, i, hi => by
    show getCell (placeWord rest (row + 1) col .down (setCell g row col ch))
      (row + (i : Int)) col = (ch :: rest).get? i
    cases i with
    | zero =>
      rw [show row + ((0 : Nat) : Int) = row by simp]
      rw [placeWord_down_ne rest (row + 1) col _ row col (by
        intro j hj ⟨h1, h2⟩
        omega)]
      show getEntry (setEntry g row col ch) row col = (ch :: rest).get? 0
      rw [getEntry_setEntry_same hsz hr0 (by
        have := List.length_cons ch rest
        push_cast at hr1
        omega) hc0 hc1 ch]
      rfl
    | succ j =>
      rw [show row + ((j + 1 : Nat) : Int) = (row + 1) + (j : Int) by push_cast; ring]
      rw [placeWord_down_eq rest (row + 1) col
        (show matrixSized (setCell g row col ch) size from setEntry_sized hsz _ _ _)
        hc0 hc1 (by omega) (by
          have := List.length_cons ch rest
          push_cast at hr1 ⊢
          omega) j (by simpa using Nat.lt_of_succ_lt_succ hi)]
      rfl

theorem canPlace_across_parts {word : List Char} {row col : Int} {grid : Grid} :
    canPlace word row col .across grid = true ↔
      ¬(col < 0 ∨ col + (word.length : Int) > (grid.length : Int) ∨ row < 0 ∨
          row ≥ (grid.length : Int)) ∧
      ¬(0 ≤ col - 1 ∧ (getCell grid row (col - 1)).isSome = true) ∧
      ¬(col + (word.length : Int) < (grid.length : Int) ∧
          (getCell grid row (col + (word.length : Int))).isSome = true) ∧
      checkCellsAcross grid (grid.length : Int) row word col = true := by
  simp only [canPlace]
  exact ite_chain3

theorem canPlace_down_parts {word : List Char} {row col : Int} {grid : Grid} :
    canPlace word row col .down grid = true ↔
      ¬(row < 0 ∨ row + (word.length : Int) > (grid.length : Int) ∨ col < 0 ∨
          col ≥ (grid.length : Int)) ∧
      ¬(0 ≤ row - 1 ∧ (getCell grid (row - 1) col).isSome = true) ∧
      ¬(row + (word.length : Int) < (grid.length : Int) ∧
          (getCell grid (row + (word.length : Int)) col).isSome = true) ∧
      checkCellsDown grid (grid.length : Int) col word row = true := by
  simp only [canPlace]
  exact ite_chain3

theorem canPlace_across_cellOk {word : List Char} {row col : Int} {grid : Grid}
    (h : canPlace word row col .across grid = true) (i : Nat) (ch : Char)
    (hch : word.get? i = some ch) :
    acrossCellOk grid (grid.length : Int) row (col + (i : Int)) ch :=
  (checkCellsAcross_iff grid _ row word col).mp (canPlace_across_parts.mp h).2.2.2 i ch hch

theorem canPlace_down_cellOk {word : List Char} {row col : Int} {grid : Grid}
    (h : canPlace word row col .down grid = true) (i : Nat) (ch : Char)
    (hch : word.get? i = some ch) :
    downCellOk grid (grid.length : Int) col (row + (i : Int)) ch :=
  (checkCellsDown_iff grid _ col word row).mp (canPlace_down_parts.mp h).2.2.2 i ch hch

theorem searchPositions_sound {word : List Char} {grid : Grid} {i : Nat} :
    ∀ {poss : List (Int × Int)} {cand : Int × Int × Dir},
      searchPositions word grid i poss = some cand →
      canPlace word cand.1 cand.2.1 cand.2.2 grid = true := by
  intro poss
  induction poss with
  | nil => intro cand h; exact absurd h (by simp [searchPositions])
  | cons rc rest ih =>
    intro cand h
    obtain ⟨pr, pc⟩ := rc
    rw [searchPositions] at h
    by_cases h1 : canPlace word pr (pc - (i : Int)) .across grid = true
    · rw [if_pos h1] at h
      injection h with h2
      subst h2
      exact h1
    · rw [if_neg h1] at h
      by_cases h2 : canPlace word (pr - (i : Int)) pc .down grid = true
      · rw [if_pos h2] at h
        injection h with h3
        subst h3
        exact h2
      · rw [if_neg h2] at h
        exact ih h

theorem searchIdxs_sound {word : List Char} {grid : Grid} :
    ∀ {idxs : List Nat} {poss : List (Int × Int)} {cand : Int × Int × Dir},
      searchIdxs word grid idxs poss = some cand →
      canPlace word cand.1 cand.2.1 cand.2.2 grid = true := by
  intro idxs
  induction idxs with
  | nil => intro poss cand h; exact absurd h (by simp [searchIdxs])
  | cons i rest ih =>
    intro poss cand h
    rw [searchIdxs] at h
    cases hs : searchPositions word grid i poss with
    | some cand2 =>
      rw [hs] at h
      injection h with h2
      subst h2
      exact searchPositions_sound hs
    | none =>
      rw [hs] at h
      exact ih h

theorem tryLetters_sound {word : List Char} {grid : Grid} {size : Nat} :
    ∀ {letters : List Char} {st : Nat} {cand : Int × Int × Dir},
      (tryLetters word grid size letters st).1 = some cand →
      canPlace word cand.1 cand.2.1 cand.2.2 grid = true := by
  intro letters
  induction letters with
  | nil => intro st cand h; exact absurd h (by simp [tryLetters])
  | cons L rest ih =>
    intro st cand h
    rw [tryLetters] at h
    by_cases hp : (findLetterPositions size L grid).isEmpty = true
    · rw [if_pos hp] at h
      exact ih h
    · rw [if_neg hp] at h
      simp only at h
      cases hs : searchIdxs word grid (shuffleList (letterIndices word L) st).1
          (findLetterPositions size L grid) with
      | some cand2 =>
        rw [hs] at h
        injection h with h2
        subst h2
        exact searchIdxs_sound hs
      | none =>
        rw [hs] at h
        exact ih h

theorem offR_across (row : Int) (i : Nat) : offR row .across i = row := rfl

theorem offC_across (col : Int) (i : Nat) : offC col .across i = col + (i : Int) := rfl

theorem offR_down (row : Int) (i : Nat) : offR row .down i = row + (i : Int) := rfl

theorem offC_down (col : Int) (i : Nat) : offC col .down i = col := rfl

theorem cellR_off (p : Placement) (i : Nat) : cellR p i = offR p.row p.dir i := by
  unfold cellR offR
  rfl

theorem cellC_off (p : Placement) (i : Nat) : cellC p i = offC p.col p.dir i := by
  unfold cellC offC
  rfl

theorem mem_cellsOf {p : Placement} {r c : Int} :
    (r, c) ∈ cellsOf p ↔
      ∃ i, i < p.answer.length ∧ r = cellR p i ∧ c = cellC p i := by
  unfold cellsOf
  rw [List.mem_map]
  constructor
  · rintro ⟨i, hi, he⟩
    rw [List.mem_range] at hi
    exact ⟨i, hi, (congrArg Prod.fst he).symm, (congrArg Prod.snd he).symm⟩
  · rintro ⟨i, hi, he1, he2⟩
    exact ⟨i, List.mem_range.mpr hi, by rw [← he1, ← he2]⟩

theorem agrees_withNumber {g : Grid} {p : Placement} {x : Option Nat} :
    agrees g { p with number := x } ↔ agrees g p := Iff.rfl

theorem setEntry_isSome_mono {α : Type} {m : List (List (Option α))} {r c : Int}
    {v : α} {r2 c2 : Int} (h : (getEntry m r2 c2).isSome = true) :
    (getEntry (setEntry m r c v) r2 c2).isSome = true := by
  by_cases he : r2 = r ∧ c2 = c
  · obtain ⟨he1, he2⟩ := he
    subst he1
    subst he2
    unfold setEntry
    by_cases h0 : 0 ≤ r2 ∧ 0 ≤ c2
    · rw [if_pos h0]
      cases hg : m.get? r2.toNat with
      | none => exact h
      | some row =>
        have hrlt : r2.toNat < m.length := by
          by_contra habs
          rw [List.get?_eq_none.mpr (by omega)] at hg
          exact Option.noConfusion hg
        have hclt : c2.toNat < row.length := by
          by_contra habs
          unfold getEntry at h
          rw [if_pos h0, hg] at h
          have h2 : ((row.get? c2.toNat).getD none).isSome = true := h
          rw [show (row.get? c2.toNat) = none from List.get?_eq_none.mpr (by omega)] at h2
          exact Bool.noConfusion h2
        show (getEntry (m.set r2.toNat (row.set c2.toNat (some v))) r2 c2).isSome = true
        unfold getEntry
        rw [if_pos h0, List.get?_set_eq_of_lt _ hrlt]
        show (((row.set c2.toNat (some v)).get? c2.toNat).getD none).isSome = true
        rw [List.get?_set_eq_of_lt _ hclt]
        rfl
    · rw [if_neg h0]
      exact h
  · rw [getEntry_setEntry_ne _ _ _ _ _ _ he]
    exact h

theorem placeWord_isSome_mono :
    ∀ (word : List Char) (row col : Int) (dir : Dir) (g : Grid) (r c : Int),
      (getCell g r c).isSome = true →
      (getCell (placeWord word row col dir g) r c).isSome = true
  | [], _, _, _, _, _, _, h => h
  | ch :: rest, row, col, dir, g, r, c, h => by
    cases dir with
    | across =>
      exact placeWord_isSome_mono rest row (col + 1) .across _ r c
        (setEntry_isSome_mono h)
    | down =>
      exact placeWord_isSome_mono rest (row + 1) col .down _ r c
        (setEntry_isSome_mono h)

theorem placeWord_isSome_inv {word : List Char} {row col : Int} {dir : Dir} {g : Grid}
    {r c : Int} (h : (getCell (placeWord word row col dir g) r c).isSome = true) :
    (∃ j, j < word.length ∧ r = offR row dir j ∧ c = offC col dir j) ∨
      (getCell g r c).isSome = true := by
  by_cases hcov : ∃ j, j < word.length ∧ r = offR row dir j ∧ c = offC col dir j
  · exact Or.inl hcov
  · right
    push_neg at hcov
    cases dir with
    | across =>
      rwa [placeWord_across_ne word row col g r c (by
        intro j hj ⟨h1, h2⟩
        exact hcov j hj h1 h2)] at h
    | down =>
      rwa [placeWord_down_ne word row col g r c (by
        intro j hj ⟨h1, h2⟩
        exact hcov j hj h1 h2)] at h

theorem placement_bounds {size : Nat} {g : Grid} {p : Placement}
    (hsz : matrixSized g size) (hagree : agrees g p) :
    ∀ i, i < p.answer.length →
      0 ≤ cellR p i ∧ cellR p i < (size : Int) ∧ 0 ≤ cellC p i ∧ cellC p i < (size : Int) := by
  intro i hi
  have hsome : (getCell g (cellR p i) (cellC p i)).isSome = true := by
    rw [hagree i hi, List.get?_eq_get hi]
    rfl
  have h1 := getCell_isSome_bounds hsome
  have h2 := getCell_isSome_col_lt hsz hsome
  refine ⟨h1.1, ?_, h1.2.1, h2⟩
  have := h1.2.2
  have hm1 := hsz.1
  omega

theorem placeWord_self_agrees {size : Nat} {acc : Grid} (hsz : matrixSized acc size)
    (p : Placement)
    (hin : ∀ i, i < p.answer.length →
      0 ≤ cellR p i ∧ cellR p i < (size : Int) ∧ 0 ≤ cellC p i ∧ cellC p i < (size : Int)) :
    agrees (placeWord p.answer p.row p.col p.dir acc) p := by
  intro i hi
  cases hlen : p.answer.length with
  | zero => omega
  | succ n =>
    have h0 := hin 0 (by omega)
    have hL := hin n (by omega)
    cases hd : p.dir with
    | across =>
      have hr := cellR_off p i
      have hc := cellC_off p i
      rw [hd, offR_across] at hr
      rw [hd, offC_across] at hc
      rw [hr, hc]
      apply placeWord_across_eq p.answer p.row p.col hsz ?_ ?_ ?_ ?_ i hi
      · have := (hin 0 (by omega)).1
        rwa [cellR_off, hd, offR_across] at this
      · have := (hin 0 (by omega)).2.1
        rwa [cellR_off, hd, offR_across] at this
      · have := (hin 0 (by omega)).2.2.1
        rw [cellC_off, hd, offC_across] at this
        simpa using this
      · have := (hin n (by omega)).2.2.2
        rw [cellC_off, hd, offC_across] at this
        rw [hlen]
        push_cast at this ⊢
        omega
    | down =>
      have hr := cellR_off p i
      have hc := cellC_off p i
      rw [hd, offR_down] at hr
      rw [hd, offC_down] at hc
      rw [hr, hc]
      apply placeWord_down_eq p.answer p.row p.col hsz ?_ ?_ ?_ ?_ i hi
      · have := (hin 0 (by omega)).2.2.1
        rwa [cellC_off, hd, offC_down] at this
      · have := (hin 0 (by omega)).2.2.2
        rwa [cellC_off, hd, offC_down] at this
      · have := (hin 0 (by omega)).1
        rw [cellR_off, hd, offR_down] at this
        simpa using this
      · have := (hin n (by omega)).2.1
        rw [cellR_off, hd, offR_down] at this
        rw [hlen]
        push_cast at this ⊢
        omega


theorem getCell_emptyGrid (size : Nat) (r c : Int) :
    getCell (emptyGrid size) r c = none :=
  getEntry_replicate size r c

theorem canPlace_bounds {size : Nat} {word : List Char} {r c : Int} {d : Dir} {g : Grid}
    (hsz : matrixSized g size) (hcp : canPlace word r c d g = true) :
    ∀ i, i < word.length →
      0 ≤ offR r d i ∧ offR r d i < (size : Int) ∧
        0 ≤ offC c d i ∧ offC c d i < (size : Int) := by
  intro i hi
  have hglen := hsz.1
  cases d with
  | across =>
    have h1 := (canPlace_across_parts.mp hcp).1
    push_neg at h1
    obtain ⟨hc0, hc1, hr0, hr1⟩ := h1
    rw [offR_across, offC_across]
    refine ⟨hr0, by omega, by omega, by omega⟩
  | down =>
    have h1 := (canPlace_down_parts.mp hcp).1
    push_neg at h1
    obtain ⟨hr0, hr1, hc0, hc1⟩ := h1
    rw [offR_down, offC_down]
    refine ⟨by omega, by omega, hc0, by omega⟩

theorem inv2_place {size : Nat} {g : Grid} {ps : List Placement}
    (hsz : matrixSized g size) (hinv : inv2 g ps)
    (word : List Char) (clue : String) (r c : Int) (d : Dir)
    (hcp : canPlace word r c d g = true) :
    inv2 (placeWord word r c d g)
      (ps ++ [{ answer := word, clue := clue, row := r, col := c,
                dir := d, number := none }]) := by
  have hb := canPlace_bounds hsz hcp
  refine ⟨?_, ?_⟩
  · intro p hp
    rcases List.mem_append.mp hp with hpL | hpL
    · intro i hi
      by_cases hcov : ∃ j, j < word.length ∧
          cellR p i = offR r d j ∧ cellC p i = offC c d j
      · obtain ⟨j, hj, he1, he2⟩ := hcov
        have hch : word.get? j = some (word.get ⟨j, hj⟩) := List.get?_eq_get hj
        have hold := hinv.1 p hpL i hi
        have hglen := hsz.1
        cases d with
        | across =>
          rw [offR_across] at he1
          rw [offC_across] at he2
          have hcellok := canPlace_across_cellOk hcp j _ hch
          have hparts := (canPlace_across_parts.mp hcp).1
          push_neg at hparts
          obtain ⟨hc0, hc1, hr0, hr1⟩ := hparts
          rw [he1, he2] at hold ⊢
          rw [placeWord_across_eq word r c hsz hr0 (by omega) hc0 (by omega) j hj, hch]
          unfold acrossCellOk at hcellok
          rcases hcellok with hcell | ⟨hnone, _, _⟩
          · rw [← hold, hcell]
          · rw [hnone, List.get?_eq_get hi] at hold
            exact Option.noConfusion hold
        | down =>
          rw [offR_down] at he1
          rw [offC_down] at he2
          have hcellok := canPlace_down_cellOk hcp j _ hch
          have hparts := (canPlace_down_parts.mp hcp).1
          push_neg at hparts
          obtain ⟨hr0, hr1, hc0, hc1⟩ := hparts
          rw [he1, he2] at hold ⊢
          rw [placeWord_down_eq word r c hsz hc0 (by omega) hr0 (by omega) j hj, hch]
          unfold downCellOk at hcellok
          rcases hcellok with hcell | ⟨hnone, _, _⟩
          · rw [← hold, hcell]
          · rw [hnone, List.get?_eq_get hi] at hold
            exact Option.noConfusion hold
      · push_neg at hcov
        cases d with
        | across =>
          rw [placeWord_across_ne word r c g (cellR p i) (cellC p i) (by
            intro j hj hand
            exact hcov j hj (by rw [offR_across]; exact hand.1)
              (by rw [offC_across]; exact hand.2))]
          exact hinv.1 p hpL i hi
        | down =>
          rw [placeWord_down_ne word r c g (cellR p i) (cellC p i) (by
            intro j hj hand
            exact hcov j hj (by rw [offR_down]; exact hand.1)
              (by rw [offC_down]; exact hand.2))]
          exact hinv.1 p hpL i hi
    · have hpq := List.mem_singleton.mp hpL
      subst hpq
      refine placeWord_self_agrees hsz _ ?_
      intro i hi
      rw [cellR_off, cellC_off]
      exact hb i hi
  · intro rr cc hsome2
    rcases placeWord_isSome_inv hsome2 with ⟨j, hj, he1, he2⟩ | hsome3
    · refine ⟨{ answer := word, clue := clue, row := r, col := c, dir := d, number := none }, List.mem_append.mpr (Or.inr (List.mem_singleton_self _)), ?_⟩
      rw [mem_cellsOf]
      refine ⟨j, hj, ?_, ?_⟩
      · rw [cellR_off]
        exact he1
      · rw [cellC_off]
        exact he2
    · obtain ⟨p, hp, hcell⟩ := hinv.2 rr cc hsome3
      exact ⟨p, List.mem_append.mpr (Or.inl hp), hcell⟩

theorem placeLoop_inv {size : Nat} :
    ∀ (ws : List WordEntry) (g : Grid) (ps : List Placement) (st : Nat),
      matrixSized g size → inv2 g ps →
      inv2 (placeLoop size ws g ps st).1 (placeLoop size ws g ps st).2.1
  | [], _, _, _, _, h => h
  | w :: ws, g, ps, st, hsz, hinv => by
    rw [placeLoop]
    cases hres : (tryLetters w.answer g size
        (shuffleList (firstOccDedupAux [] w.answer) st).1
        (shuffleList (firstOccDedupAux [] w.answer) st).2).1 with
    | none => exact placeLoop_inv ws g ps _ hsz hinv
    | some cand =>
      obtain ⟨r, c, d⟩ := cand
      have hcp : canPlace w.answer r c d g = true := tryLetters_sound hres
      exact placeLoop_inv ws _ _ _ (placeWord_sized w.answer r c d hsz)
        (inv2_place hsz hinv w.answer w.clue r c d hcp)

theorem inv2_first {size : Nat} (first : WordEntry)
    (hlen : first.answer.length ≤ size) :
    inv2 (placeWord first.answer ((size / 2 : Nat) : Int)
        (firstStartCol size first.answer.length) .across (emptyGrid size))
      [firstPlacement first size] := by
  have hb : ∀ i, i < first.answer.length →
      0 ≤ cellR (firstPlacement first size) i ∧
        cellR (firstPlacement first size) i < (size : Int) ∧
        0 ≤ cellC (firstPlacement first size) i ∧
        cellC (firstPlacement first size) i < (size : Int) := by
    intro i hi
    rw [cellR_off, cellC_off]
    simp only [firstPlacement, offR_across, offC_across]
    unfold firstStartCol
    omega
  refine ⟨?_, ?_⟩
  · intro p hp
    have hpq := List.mem_singleton.mp hp
    subst hpq
    exact placeWord_self_agrees (emptyGrid_sized size) (firstPlacement first size) hb
  · intro rr cc hsome
    rcases placeWord_isSome_inv hsome with ⟨j, hj, he1, he2⟩ | hsome2
    · refine ⟨firstPlacement first size, List.mem_singleton_self _, ?_⟩
      rw [mem_cellsOf]
      refine ⟨j, hj, ?_, ?_⟩
      · rw [cellR_off]
        exact he1
      · rw [cellC_off]
        exact he2
    · rw [getCell_emptyGrid] at hsome2
      exact Bool.noConfusion hsome2



theorem getEntry_replicate_rect {α : Type} (h w : Nat) (r c : Int) :
    getEntry (List.replicate h (List.replicate w (none : Option α))) r c = none := by
  unfold getEntry
  by_cases h0 : 0 ≤ r ∧ 0 ≤ c
  · rw [if_pos h0, replicate_get?]
    by_cases hr : r.toNat < h
    · rw [if_pos hr]
      show ((List.replicate w (none : Option α)).get? c.toNat).getD none = none
      rw [replicate_get?]
      by_cases hc : c.toNat < w
      · rw [if_pos hc]
        rfl
      · rw [if_neg hc]
        rfl
    · rw [if_neg hr]
  · rw [if_neg h0]

theorem foldl_placeWord_isSome_mono :
    ∀ (l : List Placement) (acc : Grid) (r c : Int),
      (getCell acc r c).isSome = true →
      (getCell (l.foldl (fun g2 p => placeWord p.answer p.row p.col p.dir g2) acc)
        r c).isSome = true
  | [], _, _, _, h => h
  | p :: rest, acc, r, c, h => by
    rw [List.foldl_cons]
    exact foldl_placeWord_isSome_mono rest _ r c
      (placeWord_isSome_mono p.answer p.row p.col p.dir acc r c h)

theorem foldl_placeWord_covers {size : Nat} :
    ∀ (l : List Placement) (acc : Grid), matrixSized acc size →
      (∀ p ∈ l, ∀ i, i < p.answer.length →
        0 ≤ cellR p i ∧ cellR p i < (size : Int) ∧
          0 ≤ cellC p i ∧ cellC p i < (size : Int)) →
      ∀ p ∈ l, ∀ i, i < p.answer.length →
        (getCell (l.foldl (fun g2 q => placeWord q.answer q.row q.col q.dir g2) acc)
          (cellR p i) (cellC p i)).isSome = true
  | [], _, _, _, p, hp, _, _ => absurd hp (List.not_mem_nil p)
  | q :: rest, acc, hacc, hbs, p, hp, i, hi => by
    rw [List.foldl_cons]
    rcases List.mem_cons.mp hp with hpq | hp2
    · subst hpq
      apply foldl_placeWord_isSome_mono
      have hself := placeWord_self_agrees hacc p (hbs p (List.mem_cons_self _ _)) i hi
      rw [hself, List.get?_eq_get hi]
      rfl
    · exact foldl_placeWord_covers rest _ (placeWord_sized _ _ _ _ hacc)
        (fun p2 hp3 => hbs p2 (List.mem_cons_of_mem _ hp3)) p hp2 i hi

theorem foldl_placeWord_sub {size : Nat} {gref : Grid} (hgref : matrixSized gref size) :
    ∀ (l : List Placement) (acc : Grid), matrixSized acc size →
      (∀ p ∈ l, agrees gref p) →
      (∀ r c : Int, (getCell acc r c).isSome = true → getCell acc r c = getCell gref r c) →
      ∀ r c : Int,
        (getCell (l.foldl (fun g2 q => placeWord q.answer q.row q.col q.dir g2) acc)
          r c).isSome = true →
        getCell (l.foldl (fun g2 q => placeWord q.answer q.row q.col q.dir g2) acc) r c =
          getCell gref r c
  | [], _, _, _, hsub, r, c, h => hsub r c h
  | p :: rest, acc, hacc, hag, hsub, r, c, h => by
    rw [List.foldl_cons] at h ⊢
    refine foldl_placeWord_sub hgref rest _ (placeWord_sized _ _ _ _ hacc)
      (fun q hq => hag q (List.mem_cons_of_mem _ hq)) ?_ r c h
    intro rr cc hsome
    have hbp := placement_bounds hgref (hag p (List.mem_cons_self _ _))
    by_cases hcov : ∃ j, j < p.answer.length ∧
        rr = offR p.row p.dir j ∧ cc = offC p.col p.dir j
    · obtain ⟨j, hj, he1, he2⟩ := hcov
      have h1 := placeWord_self_agrees hacc p hbp j hj
      have h2 := hag p (List.mem_cons_self _ _) j hj
      rw [he1, he2, ← cellR_off, ← cellC_off, h1, h2]
    · push_neg at hcov
      have hne : getCell (placeWord p.answer p.row p.col p.dir acc) rr cc =
          getCell acc rr cc := by
        cases hd : p.dir with
        | across =>
          rw [hd] at hcov
          apply placeWord_across_ne
          intro j hj hand
          exact hcov j hj (by rw [offR_across]; exact hand.1)
            (by rw [offC_across]; exact hand.2)
        | down =>
          rw [hd] at hcov
          apply placeWord_down_ne
          intro j hj hand
          exact hcov j hj (by rw [offR_down]; exact hand.1)
            (by rw [offC_down]; exact hand.2)
      rw [hne]
      rw [hne] at hsome
      exact hsub rr cc hsome

theorem foldl_placeWord_cover_inv :
    ∀ (l : List Placement) (acc : Grid) (r c : Int),
      (getCell (l.foldl (fun g2 q => placeWord q.answer q.row q.col q.dir g2) acc)
        r c).isSome = true →
      (∃ p ∈ l, (r, c) ∈ cellsOf p) ∨ (getCell acc r c).isSome = true
  | [], _, _, _, h => Or.inr h
  | q :: rest, acc, r, c, h => by
    rw [List.foldl_cons] at h
    rcases foldl_placeWord_cover_inv rest _ r c h with ⟨p, hp, hcell⟩ | hs
    · exact Or.inl ⟨p, List.mem_cons_of_mem _ hp, hcell⟩
    · rcases placeWord_isSome_inv hs with ⟨j, hj, he1, he2⟩ | hs2
      · refine Or.inl ⟨q, List.mem_cons_self _ _, ?_⟩
        rw [mem_cellsOf]
        refine ⟨j, hj, ?_, ?_⟩
        · rw [cellR_off]
          exact he1
        · rw [cellC_off]
          exact he2
      · exact Or.inr hs2

theorem prune_inv {size : Nat} {g : Grid} {ps : List Placement}
    (hsz : matrixSized g size) (hinv : inv2 g ps) :
    inv2 (pruneIsolatedWords g ps).1 (pruneIsolatedWords g ps).2 := by
  unfold pruneIsolatedWords
  by_cases h1 : ps.length ≤ 1
  · rw [if_pos h1]
    exact hinv
  · rw [if_neg h1]
    by_cases h2 : (ps.filter (hasCross ps)).length = ps.length
    · rw [if_pos h2]
      exact hinv
    · rw [if_neg h2]
      show inv2 ((ps.filter (hasCross ps)).foldl
          (fun g2 p => placeWord p.answer p.row p.col p.dir g2)
          (List.replicate g.length
            (List.replicate (g.headD []).length (none : Option Char))))
        (ps.filter (hasCross ps))
      have hbase : matrixSized (List.replicate g.length
          (List.replicate (g.headD []).length (none : Option Char))) size := by
        refine ⟨by simp [hsz.1], ?_⟩
        intro row hrow
        rw [List.eq_of_mem_replicate hrow]
        rcases headD_length hsz with hh | hh
        · rw [List.length_replicate]
          exact hh
        · exact absurd hrow (by simp [hsz.1, hh])
      have hkeepag : ∀ p ∈ ps.filter (hasCross ps), agrees g p :=
        fun p hp => hinv.1 p (List.mem_of_mem_filter hp)
      have hbkeep : ∀ p ∈ ps.filter (hasCross ps), ∀ i, i < p.answer.length →
          0 ≤ cellR p i ∧ cellR p i < (size : Int) ∧
            0 ≤ cellC p i ∧ cellC p i < (size : Int) :=
        fun p hp => placement_bounds hsz (hkeepag p hp)
      have hclr : ∀ r c : Int, getCell (List.replicate g.length
          (List.replicate (g.headD []).length (none : Option Char))) r c = none :=
        fun r c => getEntry_replicate_rect _ _ r c
      refine ⟨?_, ?_⟩
      · intro p hp i hi
        have hsome := foldl_placeWord_covers (ps.filter (hasCross ps)) _ hbase hbkeep
          p hp i hi
        have heq := foldl_placeWord_sub hsz (ps.filter (hasCross ps)) _ hbase hkeepag
          (fun r c hs => by rw [hclr r c] at hs; exact Bool.noConfusion hs)
          (cellR p i) (cellC p i) hsome
        rw [heq]
        exact hkeepag p hp i hi
      · intro r c h
        rcases foldl_placeWord_cover_inv (ps.filter (hasCross ps)) _ r c h with
          hcov | habs
        · exact hcov
        · rw [hclr r c] at habs
          exact Bool.noConfusion habs

theorem loopState_inv {size : Nat} (first : WordEntry) (rest : List WordEntry)
    (st : Nat) (hlen : first.answer.length ≤ size) :
    inv2 (loopState first rest st size).1 (loopState first rest st size).2.1 := by
  unfold loopState
  exact placeLoop_inv rest _ _ st
    (placeWord_sized _ _ _ _ (emptyGrid_sized size)) (inv2_first first hlen)

theorem listSwap_mem {α : Type} {l : List α} {i j : Nat} {x : α}
    (h : x ∈ listSwap l i j) : x ∈ l := by
  unfold listSwap at h
  cases hi : l.get? i with
  | none =>
    rw [hi] at h
    exact h
  | some a =>
    rw [hi] at h
    cases hj : l.get? j with
    | none =>
      rw [hj] at h
      exact h
    | some b =>
      rw [hj] at h
      rcases List.mem_or_eq_of_mem_set h with h2 | h2
      · rcases List.mem_or_eq_of_mem_set h2 with h3 | h3
        · exact h3
        · subst h3
          exact List.get?_mem hj
      · subst h2
        exact List.get?_mem hi

theorem shuffleAux_mem {α : Type} {x : α} :
    ∀ (st : Nat) (l : List α) (k : Nat), x ∈ (shuffleAux st l k).1 → x ∈ l
  | _, _, 0, h => h
  | st, l, k + 1, h => by
    rw [shuffleAux] at h
    exact listSwap_mem (shuffleAux_mem _ _ k h)

theorem shuffleList_mem {α : Type} {l : List α} {st : Nat} {x : α}
    (h : x ∈ (shuffleList l st).1) : x ∈ l :=
  shuffleAux_mem _ _ _ h

/-- C2: the grid of every returned result is exactly the union of its
placements: each placement agrees with the grid letter by letter, and
every non-empty grid cell is covered by at least one placement. Proved
under the hypothesis that every candidate answer fits on the grid (at
most `size` letters), which the shipped bank and default size satisfy. -/
theorem c2_grid_letters (words : List WordEntry) (seed size : Nat)
    (hw : ∀ w ∈ words, w.answer.length ≤ size) (res : GenResult)
    (hres : res = generateCrosswordFromWords words seed size) :
    (∀ p ∈ res.placements, agrees res.grid p) ∧
      ∀ r c : Int, (getCell res.grid r c).isSome = true →
        ∃ p ∈ res.placements, (r, c) ∈ cellsOf p := by
  subst hres
  rw [generateCrosswordFromWords_eq]
  cases hsh : (shuffleList words (seed % pow32)).1 with
  | nil =>
    refine ⟨fun p hp => absurd hp (List.not_mem_nil p), fun r c h => ?_⟩
    rw [show getCell (generateFromList [] (shuffleList words (seed % pow32)).2
        size).grid r c = (none : Option Char) from getCell_emptyGrid size r c] at h
    exact Bool.noConfusion h
  | cons first rest2 =>
    have hw2 : ∀ w ∈ first :: rest2, w.answer.length ≤ size := by
      intro w hmem
      rw [← hsh] at hmem
      exact hw w (shuffleList_mem hmem)
    rw [generateFromList_grid, generateFromList_placements]
    have hinvp : inv2 (prunedState first rest2 (shuffleList words (seed % pow32)).2
        size).1 (prunedState first rest2 (shuffleList words (seed % pow32)).2 size).2 := by
      unfold prunedState
      exact prune_inv
        (by unfold loopState
            exact placeLoop_sized rest2 _ _ _
              (placeWord_sized _ _ _ _ (emptyGrid_sized size)))
        (loopState_inv first rest2 _ (hw2 first (List.mem_cons_self _ _)))
    refine ⟨?_, ?_⟩
    · intro p hp
      obtain ⟨q, hq, hqe⟩ := List.mem_map.mp hp
      rw [← hqe]
      exact (agrees_withNumber).mpr (hinvp.1 q hq)
    · intro r c h
      obtain ⟨q, hq, hcell⟩ := hinvp.2 r c h
      refine ⟨_, List.mem_map_of_mem _ hq, ?_⟩
      rw [cellsOf_withNumber]
      exact hcell

/-- Witness for C2: the theorem applied to a concrete two-word bank. -/
theorem c2_grid_letters_witness :
    (∀ w ∈ [(⟨"CAT".toList, ""⟩ : WordEntry), ⟨"TOP".toList, ""⟩],
        w.answer.length ≤ 5) ∧
      ((∀ p ∈ (generateCrosswordFromWords
            [(⟨"CAT".toList, ""⟩ : WordEntry), ⟨"TOP".toList, ""⟩] 0 5).placements,
          agrees (generateCrosswordFromWords
            [(⟨"CAT".toList, ""⟩ : WordEntry), ⟨"TOP".toList, ""⟩] 0 5).grid p) ∧
        ∀ r c : Int,
          (getCell (generateCrosswordFromWords
            [(⟨"CAT".toList, ""⟩ : WordEntry), ⟨"TOP".toList, ""⟩] 0 5).grid
              r c).isSome = true →
          ∃ p ∈ (generateCrosswordFromWords
            [(⟨"CAT".toList, ""⟩ : WordEntry), ⟨"TOP".toList, ""⟩] 0 5).placements,
            (r, c) ∈ cellsOf p) :=
  ⟨by decide,
   c2_grid_letters [(⟨"CAT".toList, ""⟩ : WordEntry), ⟨"TOP".toList, ""⟩] 0 5
     (by decide) _ rfl⟩



theorem find?_append_cases {α : Type} (p : α → Bool) :
    ∀ (l1 l2 : List α), (l1 ++ l2).find? p =
      match l1.find? p with
      | some x => some x
      | none => l2.find? p
  | [], _ => rfl
  | a :: l1, l2 => by
    by_cases h : p a = true
    · rw [List.cons_append, List.find?_cons_of_pos _ h, List.find?_cons_of_pos _ h]
    · rw [List.cons_append, List.find?_cons_of_neg _ h, List.find?_cons_of_neg _ h,
        find?_append_cases p l1 l2]

theorem searchPositions_eq_find {word : List Char} {grid : Grid} {i : Nat} :
    ∀ poss : List (Int × Int),
      searchPositions word grid i poss =
        (poss.flatMap fun rc => pairCands rc.1 rc.2 i).find? (candValid word grid)
  | [] => rfl
  | (r, c) :: rest => by
    rw [searchPositions, List.flatMap_cons]
    show _ = ((r, c - (i : Int), Dir.across) :: (r - (i : Int), c, Dir.down) ::
        (rest.flatMap fun rc => pairCands rc.1 rc.2 i)).find? (candValid word grid)
    by_cases h1 : canPlace word r (c - (i : Int)) .across grid = true
    · rw [if_pos h1, List.find?_cons_of_pos _
        (show candValid word grid (r, c - (i : Int), Dir.across) = true from h1)]
    · rw [if_neg h1, List.find?_cons_of_neg _
        (show ¬candValid word grid (r, c - (i : Int), Dir.across) = true from h1)]
      by_cases h2 : canPlace word (r - (i : Int)) c .down grid = true
      · rw [if_pos h2, List.find?_cons_of_pos _
          (show candValid word grid (r - (i : Int), c, Dir.down) = true from h2)]
      · rw [if_neg h2, List.find?_cons_of_neg _
          (show ¬candValid word grid (r - (i : Int), c, Dir.down) = true from h2)]
        exact searchPositions_eq_find rest

theorem searchIdxs_eq_find {word : List Char} {grid : Grid} :
    ∀ (idxs : List Nat) (poss : List (Int × Int)),
      searchIdxs word grid idxs poss =
        (idxs.flatMap fun i => poss.flatMap fun rc => pairCands rc.1 rc.2 i).find?
          (candValid word grid)
  | [], _ => rfl
  | i :: is, poss => by
    rw [searchIdxs, List.flatMap_cons, find?_append_cases, ← searchPositions_eq_find]
    cases hs : searchPositions word grid i poss with
    | some cand => rfl
    | none => exact searchIdxs_eq_find is poss

/-- C6 (amended): the source's candidate search for a word runs over the
flattened stream `fullCandidates`: the word's deduplicated letters in
RNG-shuffled order; per letter with at least one grid occurrence (letters
without occurrences are skipped before any RNG draw), the letter's word
indices in RNG-shuffled order in the OUTER position and the row-major
grid occurrences in the INNER position — not the other way around as the
claim states; each (index, occurrence) pair contributes ACROSS at start
column `c - i` then DOWN at start row `r - i`; the first candidate
passing `canPlace` is accepted and the search stops, and a word with no
valid candidate is dropped. -/
theorem c6_search_order (word : List Char) (grid : Grid) (size : Nat) :
    ∀ (letters : List Char) (st : Nat),
      (tryLetters word grid size letters st).1 =
        (fullCandidates word grid size letters st).find? (candValid word grid)
  | [], _ => rfl
  | letter :: rest, st => by
    rw [tryLetters, fullCandidates]
    by_cases hp : (findLetterPositions size letter grid).isEmpty = true
    · rw [if_pos hp, if_pos hp]
      exact c6_search_order word grid size rest st
    · rw [if_neg hp, if_neg hp]
      simp only
      rw [find?_append_cases, ← searchIdxs_eq_find]
      cases hs : searchIdxs word grid
          (shuffleList (letterIndices word letter) st).1
          (findLetterPositions size letter grid) with
      | some cand => rfl
      | none => exact c6_search_order word grid size rest _

/-- The claim's stated nesting (occurrences outer, indices inner) is not
the source's: on the bank {BANANA, NAN, ANA} with seed 11 on a 7-grid the
source places NAN down at (3, 4) while the claim's order places it down
at (1, 2). -/
theorem c6_search_order_counterexample :
    (generateCrosswordFromWords
        [⟨"BANANA".toList, ""⟩, ⟨"NAN".toList, ""⟩, ⟨"ANA".toList, ""⟩]
        11 7).placements.map (fun p => (p.row, p.col, p.dir)) ≠
      (generateClaimOrder
        [⟨"BANANA".toList, ""⟩, ⟨"NAN".toList, ""⟩, ⟨"ANA".toList, ""⟩]
        11 7).placements.map (fun p => (p.row, p.col, p.dir)) := by
  decide



theorem canPlace_across_gaps {size : Nat} {word : List Char} {r c : Int} {g : Grid}
    (hsz : matrixSized g size) (hcp : canPlace word r c .across g = true) :
    getCell g r (c - 1) = none ∧ getCell g r (c + (word.length : Int)) = none := by
  have hglen := hsz.1
  obtain ⟨hbnd, hbefore, hafter, _⟩ := canPlace_across_parts.mp hcp
  constructor
  · by_cases h1 : (0 : Int) ≤ c - 1
    · rcases Bool.eq_false_or_eq_true (getCell g r (c - 1)).isSome with ht | hf
      · exact absurd ⟨h1, ht⟩ hbefore
      · exact Option.not_isSome_iff_eq_none.mp (by simp [hf])
    · exact getCell_neg_col (by omega)
  · by_cases h1 : c + (word.length : Int) < (g.length : Int)
    · rcases Bool.eq_false_or_eq_true (getCell g r (c + (word.length : Int))).isSome
        with ht | hf
      · exact absurd ⟨h1, ht⟩ hafter
      · exact Option.not_isSome_iff_eq_none.mp (by simp [hf])
    · exact getCell_col_ge hsz (by omega)

theorem canPlace_down_gaps {size : Nat} {word : List Char} {r c : Int} {g : Grid}
    (hsz : matrixSized g size) (hcp : canPlace word r c .down g = true) :
    getCell g (r - 1) c = none ∧ getCell g (r + (word.length : Int)) c = none := by
  have hglen := hsz.1
  obtain ⟨hbnd, hbefore, hafter, _⟩ := canPlace_down_parts.mp hcp
  constructor
  · by_cases h1 : (0 : Int) ≤ r - 1
    · rcases Bool.eq_false_or_eq_true (getCell g (r - 1) c).isSome with ht | hf
      · exact absurd ⟨h1, ht⟩ hbefore
      · exact Option.not_isSome_iff_eq_none.mp (by simp [hf])
    · exact getCell_neg_row (by omega)
  · by_cases h1 : r + (word.length : Int) < (g.length : Int)
    · rcases Bool.eq_false_or_eq_true (getCell g (r + (word.length : Int)) c).isSome
        with ht | hf
      · exact absurd ⟨h1, ht⟩ hafter
      · exact Option.not_isSome_iff_eq_none.mp (by simp [hf])
    · exact getCell_row_ge (by omega)

theorem acrossCellOk_vert {size : Nat} {g : Grid} {r x : Int} {ch : Char}
    (hsz : matrixSized g size) (hok : acrossCellOk g ((g.length : Nat) : Int) r x ch)
    (hnone : getCell g r x = none) :
    getCell g (r - 1) x = none ∧ getCell g (r + 1) x = none := by
  unfold acrossCellOk at hok
  rcases hok with hcell | ⟨_, hup, hdn⟩
  · rw [hnone] at hcell
    exact Option.noConfusion hcell
  · constructor
    · by_cases h1 : (0 : Int) ≤ r - 1
      · rw [decide_eq_true h1, Bool.true_and, Bool.not_eq_true'] at hup
        exact Option.not_isSome_iff_eq_none.mp (by simp [hup])
      · exact getCell_neg_row (by omega)
    · by_cases h1 : r + 1 < (g.length : Int)
      · rw [decide_eq_true h1, Bool.true_and, Bool.not_eq_true'] at hdn
        exact Option.not_isSome_iff_eq_none.mp (by simp [hdn])
      · exact getCell_row_ge (by omega)

theorem downCellOk_horiz {size : Nat} {g : Grid} {x c : Int} {ch : Char}
    (hsz : matrixSized g size) (hok : downCellOk g ((g.length : Nat) : Int) c x ch)
    (hnone : getCell g x c = none) :
    getCell g x (c - 1) = none ∧ getCell g x (c + 1) = none := by
  have hglen := hsz.1
  unfold downCellOk at hok
  rcases hok with hcell | ⟨_, hleft, hright⟩
  · rw [hnone] at hcell
    exact Option.noConfusion hcell
  · constructor
    · by_cases h1 : (0 : Int) ≤ c - 1
      · rw [decide_eq_true h1, Bool.true_and, Bool.not_eq_true'] at hleft
        exact Option.not_isSome_iff_eq_none.mp (by simp [hleft])
      · exact getCell_neg_col (by omega)
    · by_cases h1 : c + 1 < (g.length : Int)
      · rw [decide_eq_true h1, Bool.true_and, Bool.not_eq_true'] at hright
        exact Option.not_isSome_iff_eq_none.mp (by simp [hright])
      · exact getCell_col_ge hsz (by omega)



theorem runsProp_place_across {size : Nat} {g : Grid} {ps : List Placement}
    (hsz : matrixSized g size) (hrp : runsProp g ps)
    (word : List Char) (clue : String) (r c : Int)
    (hcp : canPlace word r c .across g = true) :
    runsProp (placeWord word r c .across g)
      (ps ++ [{ answer := word, clue := clue, row := r, col := c,
                dir := .across, number := none }]) := by
  obtain ⟨hgapL, hgapR⟩ := canPlace_across_gaps hsz hcp
  have hparts := (canPlace_across_parts.mp hcp).1
  push_neg at hparts
  obtain ⟨hc0, hc1, hr0, hr1⟩ := hparts
  have hglen := hsz.1
  have hnew : ∀ j : Nat, j < word.length →
      (getCell (placeWord word r c .across g) r (c + (j : Int))).isSome = true := by
    intro j hj
    rw [placeWord_across_eq word r c hsz hr0 (by omega) hc0 (by omega) j hj,
      List.get?_eq_get hj]
    rfl
  have hL2 : getCell (placeWord word r c .across g) r (c - 1) = none := by
    rw [placeWord_across_ne word r c g r (c - 1) (by intro j hj hand; omega)]
    exact hgapL
  have hR2 : getCell (placeWord word r c .across g) r (c + (word.length : Int)) =
      none := by
    rw [placeWord_across_ne word r c g r (c + (word.length : Int))
      (by intro j hj hand; omega)]
    exact hgapR
  constructor
  · intro r2 a b hrun
    by_cases hrow : r2 = r
    · rw [hrow] at hrun ⊢
      have hno1 : ¬(a ≤ c - 1 ∧ c - 1 ≤ b) := by
        intro hin
        have := hrun.2.1 (c - 1) hin.1 hin.2
        rw [hL2] at this
        exact Bool.noConfusion this
      have hno2 : ¬(a ≤ c + (word.length : Int) ∧ c + (word.length : Int) ≤ b) := by
        intro hin
        have := hrun.2.1 _ hin.1 hin.2
        rw [hR2] at this
        exact Bool.noConfusion this
      have hab := hrun.1
      rcases show b < c - 1 ∨ c + (word.length : Int) < a ∨
          (c ≤ a ∧ b < c + (word.length : Int)) by omega with hz | hz | hz
      · have hsame : ∀ x : Int, x ≤ b + 1 →
            getCell (placeWord word r c .across g) r x = getCell g r x := by
          intro x hx
          exact placeWord_across_ne word r c g r x (by intro j hj hand; omega)
        have hrun0 : hRun g r a b :=
          ⟨hab, fun x h1 h2 => by rw [← hsame x (by omega)]; exact hrun.2.1 x h1 h2,
           by rw [← hsame (a - 1) (by omega)]; exact hrun.2.2.1,
           by rw [← hsame (b + 1) (by omega)]; exact hrun.2.2.2⟩
        obtain ⟨p, hp, hprops⟩ := hrp.1 r a b hrun0
        exact ⟨p, List.mem_append.mpr (Or.inl hp), hprops⟩
      · have hsame : ∀ x : Int, a - 1 ≤ x →
            getCell (placeWord word r c .across g) r x = getCell g r x := by
          intro x hx
          exact placeWord_across_ne word r c g r x (by intro j hj hand; omega)
        have hrun0 : hRun g r a b :=
          ⟨hab, fun x h1 h2 => by rw [← hsame x (by omega)]; exact hrun.2.1 x h1 h2,
           by rw [← hsame (a - 1) (by omega)]; exact hrun.2.2.1,
           by rw [← hsame (b + 1) (by omega)]; exact hrun.2.2.2⟩
        obtain ⟨p, hp, hprops⟩ := hrp.1 r a b hrun0
        exact ⟨p, List.mem_append.mpr (Or.inl hp), hprops⟩
      · have ha : a = c := by
          by_contra hne
          have hj2 : (a - 1 - c).toNat < word.length := by omega
          have hcell := hnew (a - 1 - c).toNat hj2
          rw [show c + (((a - 1 - c).toNat : Nat) : Int) = a - 1 by omega] at hcell
          rw [hrun.2.2.1] at hcell
          exact Bool.noConfusion hcell
        have hb : b = c + (word.length : Int) - 1 := by
          by_contra hne
          have hj2 : (b + 1 - c).toNat < word.length := by omega
          have hcell := hnew (b + 1 - c).toNat hj2
          rw [show c + (((b + 1 - c).toNat : Nat) : Int) = b + 1 by omega] at hcell
          rw [hrun.2.2.2] at hcell
          exact Bool.noConfusion hcell
        refine ⟨{ answer := word, clue := clue, row := r, col := c, dir := .across, number := none }, List.mem_append.mpr (Or.inr (List.mem_singleton_self _)), rfl, rfl, ha.symm, ?_⟩
        show a + (word.length : Int) = b + 1
        omega
    · have hsame : ∀ x : Int,
          getCell (placeWord word r c .across g) r2 x = getCell g r2 x := by
        intro x
        exact placeWord_across_ne word r c g r2 x
          (by intro j hj hand; exact hrow hand.1)
      have hrun0 : hRun g r2 a b :=
        ⟨hrun.1, fun x h1 h2 => by rw [← hsame x]; exact hrun.2.1 x h1 h2,
         by rw [← hsame (a - 1)]; exact hrun.2.2.1,
         by rw [← hsame (b + 1)]; exact hrun.2.2.2⟩
      obtain ⟨p, hp, hprops⟩ := hrp.1 r2 a b hrun0
      exact ⟨p, List.mem_append.mpr (Or.inl hp), hprops⟩
  · intro x a b hrun
    have hold : ∀ t : Int, a ≤ t → t ≤ b → (getCell g t x).isSome = true := by
      intro t h1 h2
      by_contra hn
      have hnone : getCell g t x = none := Option.not_isSome_iff_eq_none.mp hn
      have hsome := hrun.2.1 t h1 h2
      rcases placeWord_isSome_inv hsome with ⟨j, hj, he1, he2⟩ | hs2
      · rw [offR_across] at he1
        rw [offC_across] at he2
        have hch : word.get? j = some (word.get ⟨j, hj⟩) := List.get?_eq_get hj
        have hok := canPlace_across_cellOk hcp j _ hch
        have hnone2 : getCell g r (c + (j : Int)) = none := by
          rw [← he1, ← he2]
          exact hnone
        have hvert := acrossCellOk_vert hsz hok hnone2
        have hup2 : getCell (placeWord word r c .across g) (r - 1) (c + (j : Int)) =
            none := by
          rw [placeWord_across_ne word r c g (r - 1) _ (by intro j2 hj2 hand; omega)]
          exact hvert.1
        have hdn2 : getCell (placeWord word r c .across g) (r + 1) (c + (j : Int)) =
            none := by
          rw [placeWord_across_ne word r c g (r + 1) _ (by intro j2 hj2 hand; omega)]
          exact hvert.2
        have hab := hrun.1
        rcases show a < r ∨ r < b by omega with hlt | hlt
        · have hcell := hrun.2.1 (r - 1) (by omega) (by omega)
          rw [he2, hup2] at hcell
          exact Bool.noConfusion hcell
        · have hcell := hrun.2.1 (r + 1) (by omega) (by omega)
          rw [he2, hdn2] at hcell
          exact Bool.noConfusion hcell
      · rw [hnone] at hs2
        exact Bool.noConfusion hs2
    have hfl : getCell g (a - 1) x = none := by
      by_contra hn
      have hs := placeWord_isSome_mono word r c .across g (a - 1) x
        (Option.ne_none_iff_isSome.mp hn)
      rw [hrun.2.2.1] at hs
      exact Bool.noConfusion hs
    have hfr : getCell g (b + 1) x = none := by
      by_contra hn
      have hs := placeWord_isSome_mono word r c .across g (b + 1) x
        (Option.ne_none_iff_isSome.mp hn)
      rw [hrun.2.2.2] at hs
      exact Bool.noConfusion hs
    obtain ⟨p, hp, hprops⟩ := hrp.2 x a b ⟨hrun.1, hold, hfl, hfr⟩
    exact ⟨p, List.mem_append.mpr (Or.inl hp), hprops⟩



theorem runsProp_place_down {size : Nat} {g : Grid} {ps : List Placement}
    (hsz : matrixSized g size) (hrp : runsProp g ps)
    (word : List Char) (clue : String) (r c : Int)
    (hcp : canPlace word r c .down g = true) :
    runsProp (placeWord word r c .down g)
      (ps ++ [{ answer := word, clue := clue, row := r, col := c,
                dir := .down, number := none }]) := by
  obtain ⟨hgapU, hgapD⟩ := canPlace_down_gaps hsz hcp
  have hparts := (canPlace_down_parts.mp hcp).1
  push_neg at hparts
  obtain ⟨hr0, hr1, hc0, hc1⟩ := hparts
  have hglen := hsz.1
  have hnew : ∀ j : Nat, j < word.length →
      (getCell (placeWord word r c .down g) (r + (j : Int)) c).isSome = true := by
    intro j hj
    rw [placeWord_down_eq word r c hsz hc0 (by omega) hr0 (by omega) j hj,
      List.get?_eq_get hj]
    rfl
  have hU2 : getCell (placeWord word r c .down g) (r - 1) c = none := by
    rw [placeWord_down_ne word r c g (r - 1) c (by intro j hj hand; omega)]
    exact hgapU
  have hD2 : getCell (placeWord word r c .down g) (r + (word.length : Int)) c =
      none := by
    rw [placeWord_down_ne word r c g (r + (word.length : Int)) c
      (by intro j hj hand; omega)]
    exact hgapD
  constructor
  · intro r2 a b hrun
    have hold : ∀ t : Int, a ≤ t → t ≤ b → (getCell g r2 t).isSome = true := by
      intro t h1 h2
      by_contra hn
      have hnone : getCell g r2 t = none := Option.not_isSome_iff_eq_none.mp hn
      have hsome := hrun.2.1 t h1 h2
      rcases placeWord_isSome_inv hsome with ⟨j, hj, he1, he2⟩ | hs2
      · rw [offR_down] at he1
        rw [offC_down] at he2
        have hch : word.get? j = some (word.get ⟨j, hj⟩) := List.get?_eq_get hj
        have hok := canPlace_down_cellOk hcp j _ hch
        have hnone2 : getCell g (r + (j : Int)) c = none := by
          rw [← he1, ← he2]
          exact hnone
        have hhoriz := downCellOk_horiz hsz hok hnone2
        have hle2 : getCell (placeWord word r c .down g) (r + (j : Int)) (c - 1) =
            none := by
          rw [placeWord_down_ne word r c g _ (c - 1) (by intro j2 hj2 hand; omega)]
          exact hhoriz.1
        have hri2 : getCell (placeWord word r c .down g) (r + (j : Int)) (c + 1) =
            none := by
          rw [placeWord_down_ne word r c g _ (c + 1) (by intro j2 hj2 hand; omega)]
          exact hhoriz.2
        have hab := hrun.1
        rcases show a < c ∨ c < b by omega with hlt | hlt
        · have hcell := hrun.2.1 (c - 1) (by omega) (by omega)
          rw [he1, hle2] at hcell
          exact Bool.noConfusion hcell
        · have hcell := hrun.2.1 (c + 1) (by omega) (by omega)
          rw [he1, hri2] at hcell
          exact Bool.noConfusion hcell
      · rw [hnone] at hs2
        exact Bool.noConfusion hs2
    have hfl : getCell g r2 (a - 1) = none := by
      by_contra hn
      have hs := placeWord_isSome_mono word r c .down g r2 (a - 1)
        (Option.ne_none_iff_isSome.mp hn)
      rw [hrun.2.2.1] at hs
      exact Bool.noConfusion hs
    have hfr : getCell g r2 (b + 1) = none := by
      by_contra hn
      have hs := placeWord_isSome_mono word r c .down g r2 (b + 1)
        (Option.ne_none_iff_isSome.mp hn)
      rw [hrun.2.2.2] at hs
      exact Bool.noConfusion hs
    obtain ⟨p, hp, hprops⟩ := hrp.1 r2 a b ⟨hrun.1, hold, hfl, hfr⟩
    exact ⟨p, List.mem_append.mpr (Or.inl hp), hprops⟩
  · intro c2 a b hrun
    by_cases hcol : c2 = c
    · rw [hcol] at hrun ⊢
      have hno1 : ¬(a ≤ r - 1 ∧ r - 1 ≤ b) := by
        intro hin
        have := hrun.2.1 (r - 1) hin.1 hin.2
        rw [hU2] at this
        exact Bool.noConfusion this
      have hno2 : ¬(a ≤ r + (word.length : Int) ∧ r + (word.length : Int) ≤ b) := by
        intro hin
        have := hrun.2.1 _ hin.1 hin.2
        rw [hD2] at this
        exact Bool.noConfusion this
      have hab := hrun.1
      rcases show b < r - 1 ∨ r + (word.length : Int) < a ∨
          (r ≤ a ∧ b < r + (word.length : Int)) by omega with hz | hz | hz
      · have hsame : ∀ t : Int, t ≤ b + 1 →
            getCell (placeWord word r c .down g) t c = getCell g t c := by
          intro t ht
          exact placeWord_down_ne word r c g t c (by intro j hj hand; omega)
        have hrun0 : vRun g c a b :=
          ⟨hab, fun t h1 h2 => by rw [← hsame t (by omega)]; exact hrun.2.1 t h1 h2,
           by rw [← hsame (a - 1) (by omega)]; exact hrun.2.2.1,
           by rw [← hsame (b + 1) (by omega)]; exact hrun.2.2.2⟩
        obtain ⟨p, hp, hprops⟩ := hrp.2 c a b hrun0
        exact ⟨p, List.mem_append.mpr (Or.inl hp), hprops⟩
      · have hsame : ∀ t : Int, a - 1 ≤ t →
            getCell (placeWord word r c .down g) t c = getCell g t c := by
          intro t ht
          exact placeWord_down_ne word r c g t c (by intro j hj hand; omega)
        have hrun0 : vRun g c a b :=
          ⟨hab, fun t h1 h2 => by rw [← hsame t (by omega)]; exact hrun.2.1 t h1 h2,
           by rw [← hsame (a - 1) (by omega)]; exact hrun.2.2.1,
           by rw [← hsame (b + 1) (by omega)]; exact hrun.2.2.2⟩
        obtain ⟨p, hp, hprops⟩ := hrp.2 c a b hrun0
        exact ⟨p, List.mem_append.mpr (Or.inl hp), hprops⟩
      · have ha : a = r := by
          by_contra hne
          have hj2 : (a - 1 - r).toNat < word.length := by omega
          have hcell := hnew (a - 1 - r).toNat hj2
          rw [show r + (((a - 1 - r).toNat : Nat) : Int) = a - 1 by omega] at hcell
          rw [hrun.2.2.1] at hcell
          exact Bool.noConfusion hcell
        have hb : b = r + (word.length : Int) - 1 := by
          by_contra hne
          have hj2 : (b + 1 - r).toNat < word.length := by omega
          have hcell := hnew (b + 1 - r).toNat hj2
          rw [show r + (((b + 1 - r).toNat : Nat) : Int) = b + 1 by omega] at hcell
          rw [hrun.2.2.2] at hcell
          exact Bool.noConfusion hcell
        refine ⟨{ answer := word, clue := clue, row := r, col := c, dir := .down, number := none }, List.mem_append.mpr (Or.inr (List.mem_singleton_self _)), rfl, rfl, ha.symm, ?_⟩
        show a + (word.length : Int) = b + 1
        omega
    · have hsame : ∀ t : Int,
          getCell (placeWord word r c .down g) t c2 = getCell g t c2 := by
        intro t
        exact placeWord_down_ne word r c g t c2
          (by intro j hj hand; exact hcol hand.2)
      have hrun0 : vRun g c2 a b :=
        ⟨hrun.1, fun t h1 h2 => by rw [← hsame t]; exact hrun.2.1 t h1 h2,
         by rw [← hsame (a - 1)]; exact hrun.2.2.1,
         by rw [← hsame (b + 1)]; exact hrun.2.2.2⟩
      obtain ⟨p, hp, hprops⟩ := hrp.2 c2 a b hrun0
      exact ⟨p, List.mem_append.mpr (Or.inl hp), hprops⟩



theorem placeLoop_runs {size : Nat} :
    ∀ (ws : List WordEntry) (g : Grid) (ps : List Placement) (st : Nat),
      matrixSized g size → runsProp g ps →
      runsProp (placeLoop size ws g ps st).1 (placeLoop size ws g ps st).2.1
  | [], _, _, _, _, h => h
  | w :: ws, g, ps, st, hsz, hrp => by
    rw [placeLoop]
    cases hres : (tryLetters w.answer g size
        (shuffleList (firstOccDedupAux [] w.answer) st).1
        (shuffleList (firstOccDedupAux [] w.answer) st).2).1 with
    | none => exact placeLoop_runs ws g ps _ hsz hrp
    | some cand =>
      obtain ⟨r, c, d⟩ := cand
      have hcp : canPlace w.answer r c d g = true := tryLetters_sound hres
      cases d with
      | across =>
        exact placeLoop_runs ws _ _ _ (placeWord_sized w.answer r c .across hsz)
          (runsProp_place_across hsz hrp w.answer w.clue r c hcp)
      | down =>
        exact placeLoop_runs ws _ _ _ (placeWord_sized w.answer r c .down hsz)
          (runsProp_place_down hsz hrp w.answer w.clue r c hcp)

theorem runsProp_empty (size : Nat) : runsProp (emptyGrid size) [] := by
  constructor
  · intro r a b hrun
    have hcell := hrun.2.1 a le_rfl (le_of_lt hrun.1)
    rw [getCell_emptyGrid] at hcell
    exact Bool.noConfusion hcell
  · intro c a b hrun
    have hcell := hrun.2.1 a le_rfl (le_of_lt hrun.1)
    rw [getCell_emptyGrid] at hcell
    exact Bool.noConfusion hcell

theorem getCell_nil (r c : Int) : getCell ([] : Grid) r c = none := by
  unfold getCell getEntry
  by_cases h : 0 ≤ r ∧ 0 ≤ c
  · rw [if_pos h]
    rfl
  · rw [if_neg h]

theorem setEntry_nil (r c : Int) (v : Char) : setEntry ([] : Grid) r c v = [] := by
  unfold setEntry
  by_cases h : 0 ≤ r ∧ 0 ≤ c
  · rw [if_pos h]
    rfl
  · rw [if_neg h]

theorem placeWord_nil_grid :
    ∀ (word : List Char) (row col : Int) (dir : Dir),
      placeWord word row col dir ([] : Grid) = []
  | [], _, _, _ => rfl
  | ch :: rest, row, col, dir => by
    cases dir with
    | across =>
      show placeWord rest row (col + 1) .across (setCell [] row col ch) = []
      rw [show setCell ([] : Grid) row col ch = [] from setEntry_nil row col ch]
      exact placeWord_nil_grid rest row (col + 1) .across
    | down =>
      show placeWord rest (row + 1) col .down (setCell [] row col ch) = []
      rw [show setCell ([] : Grid) row col ch = [] from setEntry_nil row col ch]
      exact placeWord_nil_grid rest (row + 1) col .down

theorem canPlace_first {size : Nat} (word : List Char) (hlen : word.length ≤ size)
    (hpos : 0 < size) :
    canPlace word ((size / 2 : Nat) : Int) (firstStartCol size word.length) .across
      (emptyGrid size) = true := by
  rw [canPlace_across_parts]
  have hl : (emptyGrid size).length = size := List.length_replicate _ _
  refine ⟨?_, ?_, ?_, ?_⟩
  · intro habs
    rw [hl] at habs
    unfold firstStartCol at habs
    omega
  · intro hin
    rw [getCell_emptyGrid] at hin
    exact Bool.noConfusion hin.2
  · intro hin
    rw [getCell_emptyGrid] at hin
    exact Bool.noConfusion hin.2
  · rw [checkCellsAcross_iff]
    intro i ch hch
    unfold acrossCellOk
    right
    refine ⟨getCell_emptyGrid _ _ _, ?_, ?_⟩
    · rw [getCell_emptyGrid]
      simp
    · rw [getCell_emptyGrid]
      simp

theorem runsProp_first {size : Nat} (first : WordEntry)
    (hlen : first.answer.length ≤ size) :
    runsProp (placeWord first.answer ((size / 2 : Nat) : Int)
        (firstStartCol size first.answer.length) .across (emptyGrid size))
      [firstPlacement first size] := by
  rcases Nat.eq_zero_or_pos size with h0 | hpos
  · subst h0
    rw [show emptyGrid 0 = ([] : Grid) from rfl, placeWord_nil_grid]
    constructor
    · intro r a b hrun
      have hcell := hrun.2.1 a le_rfl (le_of_lt hrun.1)
      rw [getCell_nil] at hcell
      exact Bool.noConfusion hcell
    · intro c a b hrun
      have hcell := hrun.2.1 a le_rfl (le_of_lt hrun.1)
      rw [getCell_nil] at hcell
      exact Bool.noConfusion hcell
  · have := runsProp_place_across (emptyGrid_sized size) (runsProp_empty size)
      first.answer first.clue ((size / 2 : Nat) : Int)
      (firstStartCol size first.answer.length) (canPlace_first first.answer hlen hpos)
    exact this



theorem line_right_end (f : Int → Option Char) (bnd : Int)
    (hbnd : ∀ x : Int, bnd ≤ x → f x = none) {c : Int}
    (h1 : (f c).isSome = true) :
    ∃ b : Int, c ≤ b ∧ (∀ x : Int, c ≤ x → x ≤ b → (f x).isSome = true) ∧
      f (b + 1) = none := by
  have hcb : c < bnd := by
    by_contra hx
    rw [hbnd c (by omega)] at h1
    exact Bool.noConfusion h1
  have hex : ∃ k : Nat, f (c + (k : Int) + 1) = none :=
    ⟨(bnd - c - 1).toNat, hbnd _ (by omega)⟩
  refine ⟨c + ((Nat.find hex : Nat) : Int), by omega, ?_, ?_⟩
  · intro x hx1 hx2
    rcases eq_or_lt_of_le hx1 with he | hlt
    · rw [← he]
      exact h1
    · have hj : (x - c - 1).toNat < Nat.find hex := by omega
      have hmin := Nat.find_min hex hj
      rw [show c + (((x - c - 1).toNat : Nat) : Int) + 1 = x by omega] at hmin
      cases hfx : f x with
      | none => exact absurd hfx hmin
      | some v => rfl
  · exact Nat.find_spec hex

theorem line_left_end (f : Int → Option Char) (hneg : ∀ x : Int, x < 0 → f x = none)
    {c : Int} (h1 : (f c).isSome = true) :
    ∃ a : Int, a ≤ c ∧ (∀ x : Int, a ≤ x → x ≤ c → (f x).isSome = true) ∧
      f (a - 1) = none := by
  have hc0 : 0 ≤ c := by
    by_contra hx
    rw [hneg c (by omega)] at h1
    exact Bool.noConfusion h1
  have hex : ∃ k : Nat, f (c - (k : Int) - 1) = none :=
    ⟨c.toNat, hneg _ (by omega)⟩
  refine ⟨c - ((Nat.find hex : Nat) : Int), by omega, ?_, ?_⟩
  · intro x hx1 hx2
    rcases eq_or_lt_of_le hx2 with he | hlt
    · rw [he]
      exact h1
    · have hj : (c - x - 1).toNat < Nat.find hex := by omega
      have hmin := Nat.find_min hex hj
      rw [show c - (((c - x - 1).toNat : Nat) : Int) - 1 = x by omega] at hmin
      cases hfx : f x with
      | none => exact absurd hfx hmin
      | some v => rfl
  · exact Nat.find_spec hex

theorem hrun_extend {size : Nat} {g : Grid} (hsz : matrixSized g size) {r c : Int}
    (h1 : (getCell g r c).isSome = true) :
    ∃ a b : Int, a ≤ c ∧ c ≤ b ∧
      (∀ x : Int, a ≤ x → x ≤ b → (getCell g r x).isSome = true) ∧
      getCell g r (a - 1) = none ∧ getCell g r (b + 1) = none := by
  obtain ⟨a, ha1, ha2, ha3⟩ := line_left_end (fun x => getCell g r x)
    (fun x hx => getCell_neg_col hx) h1
  obtain ⟨b, hb1, hb2, hb3⟩ := line_right_end (fun x => getCell g r x)
    ((size : Nat) : Int) (fun x hx => getCell_col_ge hsz hx) h1
  refine ⟨a, b, ha1, hb1, ?_, ha3, hb3⟩
  intro x hx1 hx2
  rcases le_or_lt x c with hc | hc
  · exact ha2 x hx1 hc
  · exact hb2 x (by omega) hx2

theorem vrun_extend {g : Grid} {r c : Int}
    (h1 : (getCell g r c).isSome = true) :
    ∃ a b : Int, a ≤ r ∧ r ≤ b ∧
      (∀ t : Int, a ≤ t → t ≤ b → (getCell g t c).isSome = true) ∧
      getCell g (a - 1) c = none ∧ getCell g (b + 1) c = none := by
  obtain ⟨a, ha1, ha2, ha3⟩ := line_left_end (fun t => getCell g t c)
    (fun t ht => getCell_neg_row ht) h1
  obtain ⟨b, hb1, hb2, hb3⟩ := line_right_end (fun t => getCell g t c)
    ((g.length : Nat) : Int) (fun t ht => getCell_row_ge ht) h1
  refine ⟨a, b, ha1, hb1, ?_, ha3, hb3⟩
  intro t ht1 ht2
  rcases le_or_lt t r with hc | hc
  · exact ha2 t ht1 hc
  · exact hb2 t (by omega) ht2

theorem countAt_pos {cell : Int × Int} :
    ∀ {ps : List Placement} {q : Placement}, q ∈ ps → cell ∈ cellsOf q →
      0 < countAt ps cell := by
  intro ps
  induction ps with
  | nil => intro q hq hcell; exact absurd hq (List.not_mem_nil q)
  | cons p rest ih =>
    intro q hq hcell
    rw [countAt_cons]
    rcases List.mem_cons.mp hq with he | hm
    · rw [he] at hcell
      have := List.count_pos_iff.mpr hcell
      omega
    · have := ih hm hcell
      omega

theorem countAt_two {cell : Int × Int} :
    ∀ {ps : List Placement} {p q : Placement}, p ∈ ps → q ∈ ps → p ≠ q →
      cell ∈ cellsOf p → cell ∈ cellsOf q → 1 < countAt ps cell := by
  intro ps
  induction ps with
  | nil => intro p q hp hq; exact absurd hp (List.not_mem_nil p)
  | cons a rest ih =>
    intro p q hp hq hne hcp hcq
    rw [countAt_cons]
    rcases List.mem_cons.mp hp with hep | hmp
    · have hqr : q ∈ rest := by
        rcases List.mem_cons.mp hq with heq | hmq
        · exact absurd (hep.trans heq.symm) hne
        · exact hmq
      have hc1 : 0 < (cellsOf a).count cell := by
        rw [← hep]
        exact List.count_pos_iff.mpr hcp
      have hc2 := countAt_pos hqr hcq
      omega
    · rcases List.mem_cons.mp hq with heq | hmq
      · have hc1 : 0 < (cellsOf a).count cell := by
          rw [← heq]
          exact List.count_pos_iff.mpr hcq
        have hc2 := countAt_pos hmp hcp
        omega
      · have := ih hmp hmq hne hcp hcq
        omega

theorem mem_keep_of_shared {ps : List Placement} {p q : Placement} {cell : Int × Int}
    (hp : p ∈ ps) (hq : q ∈ ps) (hne : p ≠ q) (hcp : cell ∈ cellsOf p)
    (hcq : cell ∈ cellsOf q) : p ∈ ps.filter (hasCross ps) := by
  rw [List.mem_filter]
  refine ⟨hp, ?_⟩
  unfold hasCross
  rw [List.any_eq_true]
  exact ⟨cell, hcp, decide_eq_true (countAt_two hp hq hne hcp hcq)⟩



theorem prune_runs {size : Nat} {g : Grid} {ps : List Placement}
    (hsz : matrixSized g size) (hinv : inv2 g ps) (hrp : runsProp g ps) :
    runsProp (pruneIsolatedWords g ps).1 (pruneIsolatedWords g ps).2 := by
  unfold pruneIsolatedWords
  by_cases h1 : ps.length ≤ 1
  · rw [if_pos h1]
    exact hrp
  · rw [if_neg h1]
    by_cases h2 : (ps.filter (hasCross ps)).length = ps.length
    · rw [if_pos h2]
      exact hrp
    · rw [if_neg h2]
      show runsProp ((ps.filter (hasCross ps)).foldl
          (fun g2 p => placeWord p.answer p.row p.col p.dir g2)
          (List.replicate g.length
            (List.replicate (g.headD []).length (none : Option Char))))
        (ps.filter (hasCross ps))
      have hbase : matrixSized (List.replicate g.length
          (List.replicate (g.headD []).length (none : Option Char))) size := by
        refine ⟨by simp [hsz.1], ?_⟩
        intro row hrow
        rw [List.eq_of_mem_replicate hrow]
        rcases headD_length hsz with hh | hh
        · rw [List.length_replicate]
          exact hh
        · exact absurd hrow (by simp [hsz.1, hh])
      have hkeepag : ∀ p ∈ ps.filter (hasCross ps), agrees g p :=
        fun p hp => hinv.1 p (List.mem_of_mem_filter hp)
      have hbkeep : ∀ p ∈ ps.filter (hasCross ps), ∀ i, i < p.answer.length →
          0 ≤ cellR p i ∧ cellR p i < (size : Int) ∧
            0 ≤ cellC p i ∧ cellC p i < (size : Int) :=
        fun p hp => placement_bounds hsz (hkeepag p hp)
      have hclr : ∀ r c : Int, getCell (List.replicate g.length
          (List.replicate (g.headD []).length (none : Option Char))) r c = none :=
        fun r c => getEntry_replicate_rect _ _ r c
      set keep := ps.filter (hasCross ps) with hkeepdef
      set g3 := keep.foldl (fun g2 p => placeWord p.answer p.row p.col p.dir g2)
        (List.replicate g.length
          (List.replicate (g.headD []).length (none : Option Char))) with hg3def
      have hsub : ∀ r c : Int, (getCell g3 r c).isSome = true →
          getCell g3 r c = getCell g r c :=
        fun r c h => foldl_placeWord_sub hsz keep _ hbase hkeepag
          (fun rr cc hs => absurd hs (by rw [hclr rr cc]; simp)) r c h
      have hcovinv : ∀ r c : Int, (getCell g3 r c).isSome = true →
          ∃ p ∈ keep, (r, c) ∈ cellsOf p := by
        intro r c h
        rcases foldl_placeWord_cover_inv keep _ r c h with hcov | habs
        · exact hcov
        · rw [hclr r c] at habs
          exact Bool.noConfusion habs
      have hcov : ∀ p ∈ keep, ∀ i, i < p.answer.length →
          (getCell g3 (cellR p i) (cellC p i)).isSome = true :=
        fun p hp i hi => foldl_placeWord_covers keep _ hbase hbkeep p hp i hi
      have hkeepP : ∀ P ∈ ps, ∀ z : Int × Int, z ∈ cellsOf P →
          (getCell g3 z.1 z.2).isSome = true → P ∈ keep := by
        intro P hP z hzP hz3
        obtain ⟨q, hq, hzq⟩ := hcovinv z.1 z.2 hz3
        by_cases heq : P = q
        · rw [heq]
          exact hq
        · exact mem_keep_of_shared hP (List.mem_of_mem_filter hq) heq hzP hzq
      constructor
      · intro r a b hrun3
        have hab := hrun3.1
        have hcells : ∀ x : Int, a ≤ x → x ≤ b → (getCell g r x).isSome = true := by
          intro x hx1 hx2
          have h3 := hrun3.2.1 x hx1 hx2
          rw [hsub r x h3] at h3
          exact h3
        have hkeepIdx : ∀ (P : Placement), P ∈ keep → P.dir = .across → P.row = r →
            ∀ i : Nat, i < P.answer.length →
              (getCell g3 r (P.col + (i : Int))).isSome = true := by
          intro P hP hPd hPr i hi
          have hx := hcov P hP i hi
          rw [cellR_off, hPd, offR_across, hPr, cellC_off, hPd, offC_across] at hx
          exact hx
        have hflL : getCell g r (a - 1) = none := by
          by_contra hn
          have hsomeL := Option.ne_none_iff_isSome.mp hn
          have hsomeA : (getCell g r a).isSome = true :=
            hcells a le_rfl (le_of_lt hab)
          obtain ⟨a2, b2, ha2, hb2, hmid, hfl2, hfr2⟩ := hrun_extend hsz hsomeL
          have hb2a : a ≤ b2 := by
            by_contra hx
            rw [show b2 + 1 = a by omega] at hfr2
            rw [hfr2] at hsomeA
            exact Bool.noConfusion hsomeA
          obtain ⟨P, hP, hPd, hPr, hPc, hPs⟩ :=
            hrp.1 r a2 b2 ⟨by omega, hmid, hfl2, hfr2⟩
          have hcellPa : ((r, a) : Int × Int) ∈ cellsOf P := by
            rw [mem_cellsOf]
            refine ⟨(a - a2).toNat, by omega, ?_, ?_⟩
            · rw [cellR_off, hPd, offR_across, hPr]
            · rw [cellC_off, hPd, offC_across, hPc]
              omega
          have hsome3A := hrun3.2.1 a le_rfl (le_of_lt hab)
          have hPkeep := hkeepP P hP (r, a) hcellPa hsome3A
          have hfin := hkeepIdx P hPkeep hPd hPr (a - 1 - a2).toNat (by omega)
          rw [hPc, show a2 + (((a - 1 - a2).toNat : Nat) : Int) = a - 1 by omega] at hfin
          rw [hrun3.2.2.1] at hfin
          exact Bool.noConfusion hfin
        have hflR : getCell g r (b + 1) = none := by
          by_contra hn
          have hsomeR := Option.ne_none_iff_isSome.mp hn
          have hsomeB : (getCell g r b).isSome = true :=
            hcells b (le_of_lt hab) le_rfl
          obtain ⟨a2, b2, ha2, hb2, hmid, hfl2, hfr2⟩ := hrun_extend hsz hsomeR
          have ha2b : a2 ≤ b := by
            by_contra hx
            rw [show a2 - 1 = b by omega] at hfl2
            rw [hfl2] at hsomeB
            exact Bool.noConfusion hsomeB
          obtain ⟨P, hP, hPd, hPr, hPc, hPs⟩ :=
            hrp.1 r a2 b2 ⟨by omega, hmid, hfl2, hfr2⟩
          have hcellPb : ((r, b) : Int × Int) ∈ cellsOf P := by
            rw [mem_cellsOf]
            refine ⟨(b - a2).toNat, by omega, ?_, ?_⟩
            · rw [cellR_off, hPd, offR_across, hPr]
            · rw [cellC_off, hPd, offC_across, hPc]
              omega
          have hsome3B := hrun3.2.1 b (le_of_lt hab) le_rfl
          have hPkeep := hkeepP P hP (r, b) hcellPb hsome3B
          have hfin := hkeepIdx P hPkeep hPd hPr (b + 1 - a2).toNat (by omega)
          rw [hPc, show a2 + (((b + 1 - a2).toNat : Nat) : Int) = b + 1 by omega] at hfin
          rw [hrun3.2.2.2] at hfin
          exact Bool.noConfusion hfin
        obtain ⟨P, hP, hPd, hPr, hPc, hPs⟩ := hrp.1 r a b ⟨hab, hcells, hflL, hflR⟩
        have hcellPa : ((r, a) : Int × Int) ∈ cellsOf P := by
          rw [mem_cellsOf]
          refine ⟨0, by omega, ?_, ?_⟩
          · rw [cellR_off, hPd, offR_across, hPr]
          · rw [cellC_off, hPd, offC_across, hPc]
            omega
        have hsome3A := hrun3.2.1 a le_rfl (le_of_lt hab)
        exact ⟨P, hkeepP P hP (r, a) hcellPa hsome3A, hPd, hPr, hPc, hPs⟩
      · intro c a b hrun3
        have hab := hrun3.1
        have hcells : ∀ t : Int, a ≤ t → t ≤ b → (getCell g t c).isSome = true := by
          intro t ht1 ht2
          have h3 := hrun3.2.1 t ht1 ht2
          rw [hsub t c h3] at h3
          exact h3
        have hkeepIdx : ∀ (P : Placement), P ∈ keep → P.dir = .down → P.col = c →
            ∀ i : Nat, i < P.answer.length →
              (getCell g3 (P.row + (i : Int)) c).isSome = true := by
          intro P hP hPd hPc i hi
          have hx := hcov P hP i hi
          rw [cellR_off, hPd, offR_down, cellC_off, hPd, offC_down, hPc] at hx
          exact hx
        have hflU : getCell g (a - 1) c = none := by
          by_contra hn
          have hsomeU := Option.ne_none_iff_isSome.mp hn
          have hsomeA : (getCell g a c).isSome = true :=
            hcells a le_rfl (le_of_lt hab)
          obtain ⟨a2, b2, ha2, hb2, hmid, hfl2, hfr2⟩ := vrun_extend hsomeU
          have hb2a : a ≤ b2 := by
            by_contra hx
            rw [show b2 + 1 = a by omega] at hfr2
            rw [hfr2] at hsomeA
            exact Bool.noConfusion hsomeA
          obtain ⟨P, hP, hPd, hPc, hPr, hPs⟩ :=
            hrp.2 c a2 b2 ⟨by omega, hmid, hfl2, hfr2⟩
          have hcellPa : ((a, c) : Int × Int) ∈ cellsOf P := by
            rw [mem_cellsOf]
            refine ⟨(a - a2).toNat, by omega, ?_, ?_⟩
            · rw [cellR_off, hPd, offR_down, hPr]
              omega
            · rw [cellC_off, hPd, offC_down, hPc]
          have hsome3A := hrun3.2.1 a le_rfl (le_of_lt hab)
          have hPkeep := hkeepP P hP (a, c) hcellPa hsome3A
          have hfin := hkeepIdx P hPkeep hPd hPc (a - 1 - a2).toNat (by omega)
          rw [hPr, show a2 + (((a - 1 - a2).toNat : Nat) : Int) = a - 1 by omega] at hfin
          rw [hrun3.2.2.1] at hfin
          exact Bool.noConfusion hfin
        have hflD : getCell g (b + 1) c = none := by
          by_contra hn
          have hsomeD := Option.ne_none_iff_isSome.mp hn
          have hsomeB : (getCell g b c).isSome = true :=
            hcells b (le_of_lt hab) le_rfl
          obtain ⟨a2, b2, ha2, hb2, hmid, hfl2, hfr2⟩ := vrun_extend hsomeD
          have ha2b : a2 ≤ b := by
            by_contra hx
            rw [show a2 - 1 = b by omega] at hfl2
            rw [hfl2] at hsomeB
            exact Bool.noConfusion hsomeB
          obtain ⟨P, hP, hPd, hPc, hPr, hPs⟩ :=
            hrp.2 c a2 b2 ⟨by omega, hmid, hfl2, hfr2⟩
          have hcellPb : ((b, c) : Int × Int) ∈ cellsOf P := by
            rw [mem_cellsOf]
            refine ⟨(b - a2).toNat, by omega, ?_, ?_⟩
            · rw [cellR_off, hPd, offR_down, hPr]
              omega
            · rw [cellC_off, hPd, offC_down, hPc]
          have hsome3B := hrun3.2.1 b (le_of_lt hab) le_rfl
          have hPkeep := hkeepP P hP (b, c) hcellPb hsome3B
          have hfin := hkeepIdx P hPkeep hPd hPc (b + 1 - a2).toNat (by omega)
          rw [hPr, show a2 + (((b + 1 - a2).toNat : Nat) : Int) = b + 1 by omega] at hfin
          rw [hrun3.2.2.2] at hfin
          exact Bool.noConfusion hfin
        obtain ⟨P, hP, hPd, hPc, hPr, hPs⟩ := hrp.2 c a b ⟨hab, hcells, hflU, hflD⟩
        have hcellPa : ((a, c) : Int × Int) ∈ cellsOf P := by
          rw [mem_cellsOf]
          refine ⟨0, by omega, ?_, ?_⟩
          · rw [cellR_off, hPd, offR_down, hPr]
            omega
          · rw [cellC_off, hPd, offC_down, hPc]
        have hsome3A := hrun3.2.1 a le_rfl (le_of_lt hab)
        exact ⟨P, hkeepP P hP (a, c) hcellPa hsome3A, hPd, hPc, hPr, hPs⟩



theorem getEntry_nil {α : Type} (r c : Int) :
    getEntry ([] : List (List (Option α))) r c = none := by
  unfold getEntry
  by_cases h : 0 ≤ r ∧ 0 ≤ c
  · rw [if_pos h]
    rfl
  · rw [if_neg h]

theorem startsAcross_facts {g : Grid} {size : Nat} (hsz : matrixSized g size)
    {r c : Int} (h : startsAcross g size r c = true) :
    (getCell g r c).isSome = true ∧ (getCell g r (c + 1)).isSome = true ∧
      getCell g r (c - 1) = none := by
  unfold startsAcross isLetterCellB at h
  simp only [Bool.and_eq_true, decide_eq_true_eq] at h
  obtain ⟨⟨hnotL, hMb, hMs⟩, hRb, hRs⟩ := h
  refine ⟨hMs, hRs, ?_⟩
  by_cases hb : 0 ≤ r ∧ r < (size : Int) ∧ 0 ≤ c - 1 ∧ c - 1 < (size : Int)
  · rw [decide_eq_true hb, Bool.true_and, Bool.not_eq_true'] at hnotL
    exact Option.not_isSome_iff_eq_none.mp (by simp [hnotL])
  · rcases show c - 1 < 0 ∨ (size : Int) ≤ c - 1 by omega with hc | hc
    · exact getCell_neg_col hc
    · exact getCell_col_ge hsz hc

theorem startsDown_facts {g : Grid} {size : Nat} (hsz : matrixSized g size)
    {r c : Int} (h : startsDown g size r c = true) :
    (getCell g r c).isSome = true ∧ (getCell g (r + 1) c).isSome = true ∧
      getCell g (r - 1) c = none := by
  unfold startsDown isLetterCellB at h
  simp only [Bool.and_eq_true, decide_eq_true_eq] at h
  obtain ⟨⟨hnotL, hMb, hMs⟩, hRb, hRs⟩ := h
  refine ⟨hMs, hRs, ?_⟩
  by_cases hb : 0 ≤ r - 1 ∧ r - 1 < (size : Int) ∧ 0 ≤ c ∧ c < (size : Int)
  · rw [decide_eq_true hb, Bool.true_and, Bool.not_eq_true'] at hnotL
    exact Option.not_isSome_iff_eq_none.mp (by simp [hnotL])
  · rcases show r - 1 < 0 ∨ (size : Int) ≤ r - 1 by omega with hc | hc
    · exact getCell_neg_row hc
    · rw [getCell_row_ge (by omega)]


/-- C10: in every returned result whose candidate answers fit on the grid
(at most `size` letters each, which the pipeline's word selector
guarantees), every maximal horizontal run of two or more consecutive
letter cells is exactly the set of cells of some ACROSS placement, every
maximal vertical run of two or more consecutive letter cells is exactly
the set of cells of some DOWN placement, and every numbered cell of the
numbering matrix is the start cell of an actual placement. -/
theorem c10_runs_match_placements (words : List WordEntry) (seed size : Nat)
    (hw : ∀ w ∈ words, w.answer.length ≤ size) (res : GenResult)
    (hres : res = generateCrosswordFromWords words seed size) :
    (∀ r a b : Int, hRun res.grid r a b →
      ∃ p ∈ res.placements, p.dir = .across ∧ p.row = r ∧ p.col = a ∧
        a + (p.answer.length : Int) = b + 1) ∧
    (∀ c a b : Int, vRun res.grid c a b →
      ∃ p ∈ res.placements, p.dir = .down ∧ p.col = c ∧ p.row = a ∧
        a + (p.answer.length : Int) = b + 1) ∧
    (∀ r c : Int, (getEntry res.numbers r c).isSome = true →
      ∃ p ∈ res.placements, p.row = r ∧ p.col = c) := by
  subst hres
  rw [generateCrosswordFromWords_eq]
  cases hsh : (shuffleList words (seed % pow32)).1 with
  | nil =>
    refine ⟨?_, ?_, ?_⟩
    · intro r a b hrun
      have hcell := hrun.2.1 a le_rfl (le_of_lt hrun.1)
      rw [show getCell (generateFromList [] (shuffleList words (seed % pow32)).2
          size).grid r a = (none : Option Char) from getCell_emptyGrid size r a] at hcell
      exact Bool.noConfusion hcell
    · intro c a b hrun
      have hcell := hrun.2.1 a le_rfl (le_of_lt hrun.1)
      rw [show getCell (generateFromList [] (shuffleList words (seed % pow32)).2
          size).grid a c = (none : Option Char) from getCell_emptyGrid size a c] at hcell
      exact Bool.noConfusion hcell
    · intro r c h
      rw [show getEntry (generateFromList [] (shuffleList words (seed % pow32)).2
          size).numbers r c = (none : Option Nat) from getEntry_nil r c] at h
      exact Bool.noConfusion h
  | cons first rest2 =>
    have hw2 : ∀ w ∈ first :: rest2, w.answer.length ≤ size := by
      intro w hmem
      rw [← hsh] at hmem
      exact hw w (shuffleList_mem hmem)
    rw [generateFromList_grid, generateFromList_numbers, generateFromList_placements]
    have hloopsz : matrixSized
        (loopState first rest2 (shuffleList words (seed % pow32)).2 size).1 size := by
      unfold loopState
      exact placeLoop_sized rest2 _ _ _ (placeWord_sized _ _ _ _ (emptyGrid_sized size))
    have hszp : matrixSized
        (prunedState first rest2 (shuffleList words (seed % pow32)).2 size).1 size :=
      prunedState_grid_sized _ _ _ _
    have hloopinv := loopState_inv first rest2 (shuffleList words (seed % pow32)).2
      (hw2 first (List.mem_cons_self _ _))
    have hlooprun : runsProp
        (loopState first rest2 (shuffleList words (seed % pow32)).2 size).1
        (loopState first rest2 (shuffleList words (seed % pow32)).2 size).2.1 := by
      unfold loopState
      exact placeLoop_runs rest2 _ _ _ (placeWord_sized _ _ _ _ (emptyGrid_sized size))
        (runsProp_first first (hw2 first (List.mem_cons_self _ _)))
    have hrunp : runsProp
        (prunedState first rest2 (shuffleList words (seed % pow32)).2 size).1
        (prunedState first rest2 (shuffleList words (seed % pow32)).2 size).2 := by
      unfold prunedState
      exact prune_runs hloopsz hloopinv hlooprun
    refine ⟨?_, ?_, ?_⟩
    · intro r a b hrun
      obtain ⟨q, hq, hqd, hqr, hqc, hqs⟩ := hrunp.1 r a b hrun
      exact ⟨_, List.mem_map_of_mem _ hq, hqd, hqr, hqc, hqs⟩
    · intro c a b hrun
      obtain ⟨q, hq, hqd, hqc, hqr, hqs⟩ := hrunp.2 c a b hrun
      exact ⟨_, List.mem_map_of_mem _ hq, hqd, hqc, hqr, hqs⟩
    · intro r c h
      rw [numbersMatrix_isSome, isStart_eq_startsOr, Bool.or_eq_true] at h
      rcases h with h | h
      · obtain ⟨hc1, hc2, hc3⟩ := startsAcross_facts hszp h
        obtain ⟨b, hb1, hb2, hb3⟩ := line_right_end
          (fun x => getCell
            (prunedState first rest2 (shuffleList words (seed % pow32)).2 size).1 r x)
          ((size : Nat) : Int) (fun x hx => getCell_col_ge hszp hx) hc1
        have hcb : c < b := by
          by_contra hx
          rw [show b + 1 = c + 1 by omega] at hb3
          rw [hb3] at hc2
          exact Bool.noConfusion hc2
        obtain ⟨q, hq, hqd, hqr, hqc, hqs⟩ := hrunp.1 r c b ⟨hcb, hb2, hc3, hb3⟩
        exact ⟨_, List.mem_map_of_mem _ hq, hqr, hqc⟩
      · obtain ⟨hc1, hc2, hc3⟩ := startsDown_facts hszp h
        obtain ⟨b, hb1, hb2, hb3⟩ := line_right_end
          (fun t => getCell
            (prunedState first rest2 (shuffleList words (seed % pow32)).2 size).1 t c)
          (((prunedState first rest2 (shuffleList words (seed % pow32)).2
              size).1.length : Nat) : Int)
          (fun t ht => getCell_row_ge ht) hc1
        have hcb : r < b := by
          by_contra hx
          rw [show b + 1 = r + 1 by omega] at hb3
          rw [hb3] at hc2
          exact Bool.noConfusion hc2
        obtain ⟨q, hq, hqd, hqc, hqr, hqs⟩ := hrunp.2 c r b ⟨hcb, hb2, hc3, hb3⟩
        exact ⟨_, List.mem_map_of_mem _ hq, hqr, hqc⟩

/-- Witness for C10: the theorem applied to a concrete two-word bank. -/
theorem c10_runs_match_placements_witness :
    (∀ w ∈ [(⟨"NERVE".toList, ""⟩ : WordEntry), ⟨"VAGUS".toList, ""⟩],
        w.answer.length ≤ 7) ∧
      ((∀ r a b : Int,
          hRun (generateCrosswordFromWords
            [(⟨"NERVE".toList, ""⟩ : WordEntry), ⟨"VAGUS".toList, ""⟩] 1 7).grid r a b →
          ∃ p ∈ (generateCrosswordFromWords
              [(⟨"NERVE".toList, ""⟩ : WordEntry), ⟨"VAGUS".toList, ""⟩] 1 7).placements,
            p.dir = .across ∧ p.row = r ∧ p.col = a ∧
              a + (p.answer.length : Int) = b + 1) ∧
        (∀ c a b : Int,
          vRun (generateCrosswordFromWords
            [(⟨"NERVE".toList, ""⟩ : WordEntry), ⟨"VAGUS".toList, ""⟩] 1 7).grid c a b →
          ∃ p ∈ (generateCrosswordFromWords
              [(⟨"NERVE".toList, ""⟩ : WordEntry), ⟨"VAGUS".toList, ""⟩] 1 7).placements,
            p.dir = .down ∧ p.col = c ∧ p.row = a ∧
              a + (p.answer.length : Int) = b + 1) ∧
        (∀ r c : Int,
          (getEntry (generateCrosswordFromWords
            [(⟨"NERVE".toList, ""⟩ : WordEntry), ⟨"VAGUS".toList, ""⟩] 1 7).numbers
              r c).isSome = true →
          ∃ p ∈ (generateCrosswordFromWords
              [(⟨"NERVE".toList, ""⟩ : WordEntry), ⟨"VAGUS".toList, ""⟩] 1 7).placements,
            p.row = r ∧ p.col = c)) :=
  ⟨by decide,
   c10_runs_match_placements
     [(⟨"NERVE".toList, ""⟩ : WordEntry), ⟨"VAGUS".toList, ""⟩] 1 7
     (by decide) _ rfl⟩


end NeuroCross
